import Mathlib

/-!
Shallow embedding of the movement/state core of the claudequarium client
(`public/js/pathfinding.js`, `public/js/mapData.js`, `public/js/state.js`,
`public/js/entities/wandering.js`, `public/js/entities/movement.js`).

Conventions of the embedding:
* JS numbers that stay integral (tile coordinates, A* costs) are `Int`/`Nat`;
  continuous pixel coordinates and timestamps are `Rat`.
* JS `Map`/`Set` objects keyed by tile keys are modelled as functions
  `Cell -> Option _` (a JS string key `"x,y"` encodes the pair injectively, so
  the pair itself is used as the key); the `Map` objects of `state.js` keyed by
  strings are association lists with JS `Map` set/delete semantics.
* `Math.random()` is an injected sample stream `rng : Nat -> Rat` with a
  cursor that advances by one per call.
* JS `while` loops are fuelled or well-founded recursions; the fuel is always
  taken from the bound the source itself uses where one exists.
* `null` is `Option.none`.
-/

namespace Claudequarium

/-! ## Grid and walkability (`mapData.js`) -/

/-- The loaded collision data: `unifiedCollisionGrid` (`true` = blocked,
indexed `blocked y x` like `grid[y][x]`) together with the tile counts from
`mapData.map`. -/
structure Grid where
  tilesX : Nat
  tilesY : Nat
  blocked : Nat → Nat → Bool

/-- A tile coordinate (JS `{x, y}` object with integer fields). -/
abbrev Cell := Int × Int

/-- `isTileWalkable` from `mapData.js`: out-of-bounds tiles are not walkable,
in-bounds tiles are walkable iff not blocked. -/
def isTileWalkable (g : Grid) (x y : Int) : Bool :=
  if x < 0 || (g.tilesX : Int) ≤ x || y < 0 || (g.tilesY : Int) ≤ y then false
  else !(g.blocked y.toNat x.toNat)

/-- The 4-directional neighbour offsets of `findTilePath`, in source order:
up, down, left, right. -/
def neighborDirs : List Cell := [(0, -1), (0, 1), (-1, 0), (1, 0)]

/-- Two cells are 4-adjacent (unit Manhattan distance apart). -/
def adjacent (a b : Cell) : Prop :=
  (a.1 - b.1).natAbs + (a.2 - b.2).natAbs = 1

instance : DecidablePred fun p : Cell × Cell => adjacent p.1 p.2 := fun p =>
  inferInstanceAs (Decidable ((p.1.1 - p.2.1).natAbs + (p.1.2 - p.2.2).natAbs = 1))

instance (a b : Cell) : Decidable (adjacent a b) :=
  inferInstanceAs (Decidable ((a.1 - b.1).natAbs + (a.2 - b.2).natAbs = 1))

/-- `walkB g s n v` holds iff there is a walk of exactly `n` unit steps from
`s` to `v` through walkable tiles (the graph that `findTilePath` searches).
This is the breadth-first-search reachability relation used as the
specification of shortest distance. -/
def walkB (g : Grid) (s : Cell) : Nat → Cell → Bool
  | 0, v => v = s && isTileWalkable g v.1 v.2
  | n + 1, v =>
      isTileWalkable g v.1 v.2 &&
        neighborDirs.any fun d => walkB g s n (v.1 + d.1, v.2 + d.2)

/-- Manhattan distance, the `heuristic` of `pathfinding.js`. -/
def heuristic (a b : Cell) : Nat :=
  (a.1 - b.1).natAbs + (a.2 - b.2).natAbs

/-! ## The binary min-heap of `pathfinding.js` (`MinHeap`)

The JS heap is an array of `{node, priority}` entries plus a `keyToIndex`
map.  The array is modelled as a list indexed from the root; `keyToIndex`
is a lookup accelerator whose content always mirrors the positions of the
keys in the array, so `has` and `decreaseKey` are modelled by direct search
for the (unique) entry with the given node. -/

/-- One heap entry: `{node, priority}` (the redundant string `key` inside the
JS node object is the node itself here). -/
structure HEntry where
  node : Cell
  priority : Nat
deriving DecidableEq

instance : Inhabited HEntry := ⟨⟨(0, 0), 0⟩⟩

/-- Priority stored at array index `i`. -/
def prioAt (l : List HEntry) (i : Nat) : Nat :=
  (l.getD i default).priority

/-- Swap the entries at indices `i` and `j` (the `_swap` helper). -/
def hswap (l : List HEntry) (i j : Nat) : List HEntry :=
  let a := l.getD i default
  let b := l.getD j default
  (l.set i b).set j a

/-- The loop of `_bubbleUp`, fuelled: the index strictly decreases on every
iteration, so any fuel at least the starting index makes the fuel bound
unreachable. -/
def bubbleUpAux : Nat → List HEntry → Nat → List HEntry
  | 0, l, _ => l
  | fuel + 1, l, i =>
      if i = 0 then l
      else if prioAt l ((i - 1) / 2) ≤ prioAt l i then l
      else bubbleUpAux fuel (hswap l i ((i - 1) / 2)) ((i - 1) / 2)

/-- `_bubbleUp`. -/
def bubbleUp (l : List HEntry) (i : Nat) : List HEntry :=
  bubbleUpAux i l i

theorem bubbleUpAux_congr (fuel fuel' : Nat) (l : List HEntry) (i : Nat)
    (h : i ≤ fuel) (h' : i ≤ fuel') : bubbleUpAux fuel l i = bubbleUpAux fuel' l i := by
  induction fuel generalizing fuel' l i with
  | zero =>
      interval_cases i
      cases fuel' <;> simp [bubbleUpAux]
  | succ fuel ih =>
      cases fuel' with
      | zero =>
          interval_cases i
          simp [bubbleUpAux]
      | succ fuel' =>
          unfold bubbleUpAux
          split
          · rfl
          · split
            · rfl
            · next hi _ => exact ih _ _ _ (by omega) (by omega)

/-- The stop case of the `_bubbleUp` loop. -/
theorem bubbleUp_stop (l : List HEntry) (i : Nat)
    (h : i = 0 ∨ prioAt l ((i - 1) / 2) ≤ prioAt l i) : bubbleUp l i = l := by
  unfold bubbleUp
  cases i with
  | zero => rfl
  | succ n =>
      unfold bubbleUpAux
      rw [if_neg (by omega), if_pos (by rcases h with h | h; omega; exact h)]

/-- The swap case of the `_bubbleUp` loop. -/
theorem bubbleUp_swap (l : List HEntry) (i : Nat) (hi : i ≠ 0)
    (h : ¬ prioAt l ((i - 1) / 2) ≤ prioAt l i) :
    bubbleUp l i = bubbleUp (hswap l i ((i - 1) / 2)) ((i - 1) / 2) := by
  unfold bubbleUp
  cases i with
  | zero => exact absurd rfl hi
  | succ n =>
      have e1 : (n + 1 - 1) / 2 = n / 2 := by omega
      have step : bubbleUpAux (n + 1) l (n + 1) =
          bubbleUpAux n (hswap l (n + 1) (n / 2)) (n / 2) := by
        simp only [bubbleUpAux]
        rw [if_neg (by omega), if_neg h, e1]
      rw [e1, step]
      exact bubbleUpAux_congr n (n / 2) _ _ (by omega) (by omega)

/-- The index the `_bubbleDown` loop body would swap the entry at `i` with:
the smaller of the two children if one beats the current entry, else `i`
itself (in which case the loop stops). -/
def bdTarget (l : List HEntry) (i : Nat) : Nat :=
  let s1 := if 2 * i + 1 < l.length ∧ prioAt l (2 * i + 1) < prioAt l i
            then 2 * i + 1 else i
  if 2 * i + 2 < l.length ∧ prioAt l (2 * i + 2) < prioAt l s1
  then 2 * i + 2 else s1

theorem bdTarget_ne (l : List HEntry) (i : Nat) (h : bdTarget l i ≠ i) :
    i < bdTarget l i ∧ bdTarget l i < l.length := by
  unfold bdTarget at h ⊢
  by_cases h1 : 2 * i + 1 < l.length ∧ prioAt l (2 * i + 1) < prioAt l i
  · rw [if_pos h1] at h ⊢
    by_cases h2 : 2 * i + 2 < l.length ∧ prioAt l (2 * i + 2) < prioAt l (2 * i + 1)
    · rw [if_pos h2] at h ⊢; omega
    · rw [if_neg h2] at h ⊢; omega
  · rw [if_neg h1] at h ⊢
    by_cases h2 : 2 * i + 2 < l.length ∧ prioAt l (2 * i + 2) < prioAt l i
    · rw [if_pos h2] at h ⊢; omega
    · rw [if_neg h2] at h ⊢; omega

/-- The loop of `_bubbleDown`, fuelled: the index strictly increases while
staying below the (swap-invariant) array length, so any fuel at least
`l.length - i` makes the fuel bound unreachable. -/
def bubbleDownAux : Nat → List HEntry → Nat → List HEntry
  | 0, l, _ => l
  | fuel + 1, l, i =>
      if bdTarget l i = i then l
      else bubbleDownAux fuel (hswap l i (bdTarget l i)) (bdTarget l i)

/-- `_bubbleDown`. -/
def bubbleDown (l : List HEntry) (i : Nat) : List HEntry :=
  bubbleDownAux l.length l i

theorem hswap_length (l : List HEntry) (i j : Nat) : (hswap l i j).length = l.length := by
  simp [hswap]

theorem bdTarget_of_ge (l : List HEntry) (i : Nat) (h : l.length ≤ i) :
    bdTarget l i = i := by
  unfold bdTarget
  dsimp only
  rw [if_neg (by rintro ⟨h1, -⟩; omega), if_neg (by rintro ⟨h2, -⟩; omega)]

theorem bubbleDownAux_congr (fuel fuel' : Nat) (l : List HEntry) (i : Nat)
    (h : l.length - i ≤ fuel) (h' : l.length - i ≤ fuel') :
    bubbleDownAux fuel l i = bubbleDownAux fuel' l i := by
  induction fuel generalizing fuel' l i with
  | zero =>
      have hge : l.length ≤ i := by omega
      cases fuel' with
      | zero => rfl
      | succ fuel' =>
          simp [bubbleDownAux, bdTarget_of_ge l i hge]
  | succ fuel ih =>
      cases fuel' with
      | zero =>
          have hge : l.length ≤ i := by omega
          simp [bubbleDownAux, bdTarget_of_ge l i hge]
      | succ fuel' =>
          unfold bubbleDownAux
          split
          · rfl
          · next hb =>
              have hbt := bdTarget_ne l i hb
              exact ih _ _ _ (by rw [hswap_length]; omega) (by rw [hswap_length]; omega)

/-- The stop case of the `_bubbleDown` loop. -/
theorem bubbleDown_stop (l : List HEntry) (i : Nat) (h : bdTarget l i = i) :
    bubbleDown l i = l := by
  unfold bubbleDown
  cases hl : l.length with
  | zero => rfl
  | succ n =>
      unfold bubbleDownAux
      rw [if_pos h]

/-- The swap case of the `_bubbleDown` loop. -/
theorem bubbleDown_swap (l : List HEntry) (i : Nat) (h : bdTarget l i ≠ i) :
    bubbleDown l i = bubbleDown (hswap l i (bdTarget l i)) (bdTarget l i) := by
  have hbt := bdTarget_ne l i h
  unfold bubbleDown
  rcases hl : l.length with _ | n
  · omega
  · have step : bubbleDownAux (n + 1) l i =
        bubbleDownAux n (hswap l i (bdTarget l i)) (bdTarget l i) := by
      simp only [bubbleDownAux]
      rw [if_neg h]
    rw [step, hswap_length, hl]
    exact bubbleDownAux_congr n (n + 1) _ _ (by rw [hswap_length, hl]; omega)
      (by rw [hswap_length, hl]; omega)

/-- `insert`: push at the end, then bubble up. -/
def insertH (l : List HEntry) (e : HEntry) : List HEntry :=
  bubbleUp (l ++ [e]) l.length

/-- `extractMin`: take the root, move the last entry to the root, bubble
down.  Returns `none` on the empty heap. -/
def extractMinH (l : List HEntry) : Option (HEntry × List HEntry) :=
  match l with
  | [] => none
  | e :: t =>
      if t = [] then some (e, [])
      else some (e, bubbleDown (((e :: t).dropLast).set 0 ((e :: t).getLast (by simp))) 0)

/-- `has`: whether some entry carries this node. -/
def hasKeyH (l : List HEntry) (c : Cell) : Bool :=
  l.any fun e => e.node = c

/-- `decreaseKey`: overwrite the priority of the entry with this node (if
present) and bubble it up. -/
def decreaseKeyH (l : List HEntry) (c : Cell) (f : Nat) : List HEntry :=
  match l.findIdx? (fun e => e.node = c) with
  | none => l
  | some i => bubbleUp (l.set i ⟨c, f⟩) i

/-! ## A* (`findTilePath` and helpers) -/

/-- Pointwise update of a function-backed JS `Map`. -/
def mupd {β : Type} (m : Cell → Option β) (k : Cell) (v : β) : Cell → Option β :=
  fun k' => if k' = k then some v else m k'

/-- The mutable search state of `findTilePath`: open heap, closed set,
`cameFrom`, `gScore`, `fScore`. -/
structure AState where
  openH : List HEntry
  closed : List Cell
  cameFrom : Cell → Option Cell
  gScore : Cell → Option Nat
  fScore : Cell → Option Nat

/-- The body of the `for (const {dx, dy} of neighbors)` loop for a single
neighbour offset `d` of the freshly closed cell `cur`. -/
def relaxOne (g : Grid) (goal cur : Cell) (s : AState) (d : Cell) : AState :=
  let n : Cell := (cur.1 + d.1, cur.2 + d.2)
  if s.closed.contains n || !(isTileWalkable g n.1 n.2) then s
  else
    -- `gScore.get(current.key) + 1`; the current cell always carries a
    -- gScore when it is being expanded, `getD 0` only totalises the read.
    let tg := (s.gScore cur).getD 0 + 1
    let better :=
      match s.gScore n with
      | none => true
      | some gn => decide (tg < gn)
    if better then
      let f := tg + heuristic n goal
      { openH :=
          if !(hasKeyH s.openH n) then insertH s.openH ⟨n, f⟩
          else decreaseKeyH s.openH n f
        closed := s.closed
        cameFrom := mupd s.cameFrom n cur
        gScore := mupd s.gScore n tg
        fScore := mupd s.fScore n f }
    else s

/-- One loop iteration after the minimum has been extracted: add the current
cell to the closed set and relax its four neighbours in source order. -/
def astarStep (g : Grid) (goal cur : Cell) (s : AState) : AState :=
  neighborDirs.foldl (relaxOne g goal cur) { s with closed := cur :: s.closed }

/-- `reconstructPath`: walk the `cameFrom` chain back to the start,
accumulating front-first.  The JS `while (curr)` loop is fuelled; the caller
passes the same iteration cap the search uses, which the verification shows
is always sufficient. -/
def reconstructPath (cameFrom : Cell → Option Cell) : Nat → Cell → List Cell
  | 0, c => [c]
  | fuel + 1, c =>
      match cameFrom c with
      | none => [c]
      | some p => reconstructPath cameFrom fuel p ++ [c]

/-- The `while (!openSet.isEmpty() && iterations < maxIterations)` loop of
`findTilePath`; `fuel` is the remaining number of allowed iterations. -/
def astarLoop (g : Grid) (goal : Cell) (recFuel : Nat) : Nat → AState → Option (List Cell)
  | 0, _ => none
  | fuel + 1, s =>
      match extractMinH s.openH with
      | none => none
      | some (e, rest) =>
          if e.node = goal then some (reconstructPath s.cameFrom recFuel e.node)
          else astarLoop g goal recFuel fuel (astarStep g goal e.node { s with openH := rest })

/-- The perimeter cells visited for one `radius` of the spiral search in
`findNearestWalkable`, in source iteration order (`dx` outer, `dy` inner,
both from `-radius` to `radius`, keeping only `|dx| = radius or |dy| = radius`). -/
def ringCells (x y : Int) (radius : Nat) : List Cell :=
  (List.range (2 * radius + 1)).flatMap fun i =>
    (List.range (2 * radius + 1)).filterMap fun j =>
      let dx : Int := (i : Int) - radius
      let dy : Int := (j : Int) - radius
      if dx.natAbs ≠ radius ∧ dy.natAbs ≠ radius then none
      else some (x + dx, y + dy)

/-- `findNearestWalkable`: the cell itself if walkable, else the first
walkable cell on an expanding ring, up to `maxRadius` (default 5). -/
def findNearestWalkable (g : Grid) (x y : Int) (maxRadius : Nat := 5) : Option Cell :=
  if isTileWalkable g x y then some (x, y)
  else
    (List.range maxRadius).findSome? fun ri =>
      (ringCells x y (ri + 1)).find? fun c => isTileWalkable g c.1 c.2

/-- `findTilePath`: start/goal substitution by `findNearestWalkable`, the
same-cell shortcut, then the A* loop with the `2 * width * height` safety
cap.  The grid is given, so the `getMapDimensions` null-check is dropped. -/
def findTilePath (g : Grid) (start goal : Cell) : Option (List Cell) :=
  let adjGoal? := if isTileWalkable g goal.1 goal.2 then some goal
                  else findNearestWalkable g goal.1 goal.2 5
  match adjGoal? with
  | none => none
  | some ag =>
    let adjStart? := if isTileWalkable g start.1 start.2 then some start
                     else findNearestWalkable g start.1 start.2 5
    match adjStart? with
    | none => none
    | some as =>
      if as = ag then some [ag]
      else
        let maxIterations := g.tilesX * g.tilesY * 2
        let s0 : AState :=
          { openH := insertH [] ⟨as, heuristic as ag⟩
            closed := []
            cameFrom := fun _ => none
            gScore := mupd (fun _ => none) as 0
            fScore := mupd (fun _ => none) as (heuristic as ag) }
        astarLoop g ag maxIterations maxIterations s0

/-! ### Heap correctness -/

def HeapProp (l : List HEntry) : Prop :=
  ∀ i, 1 ≤ i → i < l.length → prioAt l ((i - 1) / 2) ≤ prioAt l i

theorem heapProp_root_le (l : List HEntry) (h : HeapProp l) :
    ∀ j, j < l.length → prioAt l 0 ≤ prioAt l j := by
  intro j
  induction j using Nat.strong_induction_on with
  | _ j ih =>
      intro hj
      rcases Nat.eq_zero_or_pos j with h0 | h1
      · rw [h0]
      · exact le_trans (ih ((j - 1) / 2) (by omega) (by omega)) (h j h1 hj)

theorem getD_set_self (l : List HEntry) (k : Nat) (e : HEntry) (h : k < l.length) :
    (l.set k e).getD k default = e := by
  rw [List.getD_eq_getElem _ _ (by simpa using h)]
  exact List.getElem_set_self _

theorem getD_set_ne (l : List HEntry) (k k' : Nat) (e : HEntry) (h : k ≠ k') :
    (l.set k e).getD k' default = l.getD k' default := by
  by_cases h' : k' < l.length
  · rw [List.getD_eq_getElem _ _ (by simpa using h'), List.getD_eq_getElem _ _ h']
    exact List.getElem_set_ne h _
  · rw [List.getD_eq_default _ _ (by simpa using h'), List.getD_eq_default _ _ (by omega)]

theorem prioAt_hswap_fst (l : List HEntry) (i j : Nat) (hj : j < l.length) :
    prioAt (hswap l i j) j = prioAt l i := by
  unfold prioAt hswap
  rw [getD_set_self _ _ _ (by simpa using hj)]

theorem prioAt_hswap_snd (l : List HEntry) (i j : Nat) (hi : i < l.length) (hij : i ≠ j) :
    prioAt (hswap l i j) i = prioAt l j := by
  unfold prioAt hswap
  rw [getD_set_ne _ _ _ _ (fun hh => hij hh.symm), getD_set_self _ _ _ hi]

theorem prioAt_hswap_other (l : List HEntry) (i j k : Nat) (hk1 : k ≠ i) (hk2 : k ≠ j) :
    prioAt (hswap l i j) k = prioAt l k := by
  unfold prioAt hswap
  rw [getD_set_ne _ _ _ _ (fun hh => hk2 hh.symm), getD_set_ne _ _ _ _ (fun hh => hk1 hh.symm)]

theorem set_getD_self (l : List HEntry) (i : Nat) (h : i < l.length) :
    l.set i (l.getD i default) = l := by
  apply List.ext_getElem
  · simp
  · intro n h1 h2
    rw [List.getElem_set]
    split
    · next he =>
        subst he
        rw [List.getD_eq_getElem _ _ h]
    · rfl

theorem count_set_add (l : List HEntry) (i : Nat) (b : HEntry) (hi : i < l.length)
    (x : HEntry) :
    (l.set i b).count x + (if l.getD i default = x then 1 else 0) =
      l.count x + (if b = x then 1 else 0) := by
  rw [List.set_eq_take_cons_drop b hi]
  have hl : l = l.take i ++ l.getD i default :: l.drop (i + 1) := by
    conv_lhs => rw [← List.take_append_drop i l]
    rw [List.drop_eq_getElem_cons hi, List.getD_eq_getElem _ _ hi]
  conv_rhs => rw [hl]
  simp only [List.count_append, List.count_cons]
  by_cases h1 : l.getD i default = x <;> by_cases h2 : b = x <;>
    simp [h1, h2] <;> omega

theorem hswap_perm (l : List HEntry) (i j : Nat) (hi : i < l.length) (hj : j < l.length) :
    List.Perm (hswap l i j) l := by
  by_cases hij : i = j
  · subst hij
    unfold hswap
    dsimp only
    rw [List.set_set, set_getD_self l i hi]
  · apply List.perm_iff_count.mpr
    intro x
    have e1 := count_set_add (l.set i (l.getD j default)) j (l.getD i default)
      (by simpa using hj) x
    have e2 := count_set_add l i (l.getD j default) hi x
    rw [getD_set_ne _ _ _ _ hij] at e1
    unfold hswap
    dsimp only
    omega

theorem bubbleUpAux_perm (fuel : Nat) (l : List HEntry) (i : Nat) (hi : i < l.length) :
    List.Perm (bubbleUpAux fuel l i) l := by
  induction fuel generalizing l i with
  | zero => exact List.Perm.refl l
  | succ fuel ih =>
      unfold bubbleUpAux
      split
      · exact List.Perm.refl l
      · split
        · exact List.Perm.refl l
        · next hi0 _ =>
            have hp : (i - 1) / 2 < (hswap l i ((i - 1) / 2)).length := by
              rw [hswap_length]; omega
            exact (ih _ _ hp).trans (hswap_perm l i ((i - 1) / 2) hi (by omega))

theorem bubbleUp_perm (l : List HEntry) (i : Nat) (hi : i < l.length) :
    List.Perm (bubbleUp l i) l :=
  bubbleUpAux_perm i l i hi

/-- The bubble-up precondition: the array is a heap except possibly on the
edge from `i` to its parent, and the parent of `i` already bounds the
children of `i`. -/
def UpInv (l : List HEntry) (i : Nat) : Prop :=
  (∀ j, 1 ≤ j → j < l.length → j ≠ i → prioAt l ((j - 1) / 2) ≤ prioAt l j) ∧
  (i ≠ 0 → ∀ j, 1 ≤ j → j < l.length → (j - 1) / 2 = i →
    prioAt l ((i - 1) / 2) ≤ prioAt l j)

theorem bubbleUpAux_heap (fuel : Nat) (l : List HEntry) (i : Nat) (hfuel : i ≤ fuel)
    (hi : i < l.length) (h : UpInv l i) : HeapProp (bubbleUpAux fuel l i) := by
  induction fuel generalizing l i with
  | zero =>
      have h0 : i = 0 := by omega
      subst h0
      intro j hj1 hj2
      exact h.1 j hj1 hj2 (by omega)
  | succ fuel ih =>
      unfold bubbleUpAux
      split
      · next h0 =>
          subst h0
          intro j hj1 hj2
          exact h.1 j hj1 hj2 (by omega)
      · split
        · next h0 hstop =>
            intro j hj1 hj2
            by_cases hji : j = i
            · rw [hji]; exact hstop
            · exact h.1 j hj1 hj2 hji
        · next h0 hviol =>
            set p := (i - 1) / 2 with hp
            have hpi : p < i := by omega
            have hplen : p < l.length := by omega
            have hlen : (hswap l i p).length = l.length := hswap_length l i p
            apply ih (hswap l i p) p (by omega) (by omega)
            constructor
            · intro j hj1 hj2 hjp
              rw [hlen] at hj2
              by_cases hji : j = i
              · rw [hji, ← hp, prioAt_hswap_fst l i p hplen,
                  prioAt_hswap_snd l i p hi (by omega)]
                omega
              · by_cases hpar1 : (j - 1) / 2 = i
                · rw [hpar1, prioAt_hswap_snd l i p hi (by omega),
                    prioAt_hswap_other l i p j hji (by omega)]
                  exact h.2 h0 j hj1 hj2 hpar1
                · by_cases hpar2 : (j - 1) / 2 = p
                  · rw [hpar2, prioAt_hswap_fst l i p hplen,
                      prioAt_hswap_other l i p j hji (by omega)]
                    have := h.1 j hj1 hj2 hji
                    rw [hpar2] at this
                    omega
                  · rw [prioAt_hswap_other l i p _ hpar1 hpar2,
                      prioAt_hswap_other l i p j hji (by omega)]
                    exact h.1 j hj1 hj2 hji
            · intro hp0 j hj1 hj2 hpar
              rw [hlen] at hj2
              have hgp : (p - 1) / 2 ≠ i := by omega
              have hgp2 : (p - 1) / 2 ≠ p := by omega
              rw [prioAt_hswap_other l i p _ hgp hgp2]
              by_cases hji : j = i
              · rw [hji, prioAt_hswap_snd l i p hi (by omega)]
                exact h.1 p (by omega) hplen (by omega)
              · have hjp : j ≠ p := by omega
                rw [prioAt_hswap_other l i p j hji hjp]
                have h1 := h.1 p (by omega) hplen (by omega)
                have h2 := h.1 j hj1 hj2 hji
                rw [hpar] at h2
                omega

theorem bubbleUp_heap (l : List HEntry) (i : Nat) (hi : i < l.length) (h : UpInv l i) :
    HeapProp (bubbleUp l i) :=
  bubbleUpAux_heap i l i (le_refl i) hi h

theorem prioAt_append (l : List HEntry) (e : HEntry) (j : Nat) (hj : j < l.length) :
    prioAt (l ++ [e]) j = prioAt l j := by
  unfold prioAt
  rw [List.getD_append _ _ _ _ hj]

theorem insertH_perm (l : List HEntry) (e : HEntry) :
    List.Perm (insertH l e) (l ++ [e]) :=
  bubbleUpAux_perm l.length (l ++ [e]) l.length (by simp)

theorem insertH_heap (l : List HEntry) (e : HEntry) (h : HeapProp l) :
    HeapProp (insertH l e) := by
  apply bubbleUp_heap (l ++ [e]) l.length (by simp)
  constructor
  · intro j hj1 hj2 hji
    simp only [List.length_append, List.length_cons, List.length_nil] at hj2
    have hjl : j < l.length := by omega
    rw [prioAt_append _ _ _ hjl, prioAt_append _ _ _ (by omega)]
    exact h j hj1 hjl
  · intro h0 j hj1 hj2 hpar
    simp only [List.length_append, List.length_cons, List.length_nil] at hj2
    omega

theorem bdTarget_spec (l : List HEntry) (i : Nat) (h : bdTarget l i ≠ i) :
    (bdTarget l i = 2 * i + 1 ∨ bdTarget l i = 2 * i + 2) ∧
      prioAt l (bdTarget l i) < prioAt l i ∧
      (∀ j, (j = 2 * i + 1 ∨ j = 2 * i + 2) → j < l.length →
        prioAt l (bdTarget l i) ≤ prioAt l j) := by
  unfold bdTarget at h ⊢
  by_cases h1 : 2 * i + 1 < l.length ∧ prioAt l (2 * i + 1) < prioAt l i
  · rw [if_pos h1] at h ⊢
    by_cases h2 : 2 * i + 2 < l.length ∧ prioAt l (2 * i + 2) < prioAt l (2 * i + 1)
    · rw [if_pos h2] at h ⊢
      refine ⟨Or.inr rfl, by omega, ?_⟩
      rintro j (rfl | rfl) hj <;> omega
    · rw [if_neg h2] at h ⊢
      refine ⟨Or.inl rfl, h1.2, ?_⟩
      rintro j (rfl | rfl) hj
      · omega
      · have : ¬ prioAt l (2 * i + 2) < prioAt l (2 * i + 1) := fun hc => h2 ⟨hj, hc⟩
        omega
  · rw [if_neg h1] at h ⊢
    by_cases h2 : 2 * i + 2 < l.length ∧ prioAt l (2 * i + 2) < prioAt l i
    · rw [if_pos h2] at h ⊢
      refine ⟨Or.inr rfl, h2.2, ?_⟩
      rintro j (rfl | rfl) hj
      · have : ¬ prioAt l (2 * i + 1) < prioAt l i := fun hc => h1 ⟨hj, hc⟩
        omega
      · omega
    · rw [if_neg h2] at h ⊢
      exact absurd rfl h

theorem bdTarget_stop_children (l : List HEntry) (i : Nat) (h : bdTarget l i = i) :
    ∀ j, (j = 2 * i + 1 ∨ j = 2 * i + 2) → j < l.length → prioAt l i ≤ prioAt l j := by
  unfold bdTarget at h
  simp only at h
  by_cases h1 : 2 * i + 1 < l.length ∧ prioAt l (2 * i + 1) < prioAt l i
  · rw [if_pos h1] at h
    split at h <;> omega
  · rw [if_neg h1] at h
    by_cases h2 : 2 * i + 2 < l.length ∧ prioAt l (2 * i + 2) < prioAt l i
    · rw [if_pos h2] at h; omega
    · rintro j (rfl | rfl) hj
      · have : ¬ prioAt l (2 * i + 1) < prioAt l i := fun hc => h1 ⟨hj, hc⟩
        omega
      · have : ¬ prioAt l (2 * i + 2) < prioAt l i := fun hc => h2 ⟨hj, hc⟩
        omega

theorem bubbleDownAux_perm (fuel : Nat) (l : List HEntry) (i : Nat) :
    List.Perm (bubbleDownAux fuel l i) l := by
  induction fuel generalizing l i with
  | zero => exact List.Perm.refl l
  | succ fuel ih =>
      unfold bubbleDownAux
      split
      · exact List.Perm.refl l
      · next hb =>
          have hbt := bdTarget_ne l i hb
          exact (ih _ _).trans (hswap_perm l i (bdTarget l i) (by omega) hbt.2)

theorem bubbleDown_perm (l : List HEntry) (i : Nat) :
    List.Perm (bubbleDown l i) l :=
  bubbleDownAux_perm l.length l i

/-- The bubble-down precondition: the array is a heap except possibly on the
edges from `i` to its children, and the parent of `i` bounds the children of
`i`. -/
def DownInv (l : List HEntry) (i : Nat) : Prop :=
  (∀ j, 1 ≤ j → j < l.length → (j - 1) / 2 ≠ i → prioAt l ((j - 1) / 2) ≤ prioAt l j) ∧
  (i ≠ 0 → ∀ j, 1 ≤ j → j < l.length → (j - 1) / 2 = i →
    prioAt l ((i - 1) / 2) ≤ prioAt l j)

theorem bubbleDownAux_heap (fuel : Nat) (l : List HEntry) (i : Nat)
    (hfuel : l.length - i ≤ fuel) (h : DownInv l i) :
    HeapProp (bubbleDownAux fuel l i) := by
  induction fuel generalizing l i with
  | zero =>
      intro j hj1 hj2
      have hj2' : j < l.length := hj2
      exact h.1 j hj1 hj2' (by omega)
  | succ fuel ih =>
      unfold bubbleDownAux
      split
      · next hstop =>
          intro j hj1 hj2
          by_cases hpar : (j - 1) / 2 = i
          · rw [hpar]
            exact bdTarget_stop_children l i hstop j (by omega) hj2
          · exact h.1 j hj1 hj2 hpar
      · next hb =>
          have hbt := bdTarget_ne l i hb
          have hspec := bdTarget_spec l i hb
          set t := bdTarget l i with ht
          have hil : i < l.length := by omega
          have htl : t < l.length := hbt.2
          have hit : i ≠ t := by omega
          have hlen : (hswap l i t).length = l.length := hswap_length l i t
          have htpar : (t - 1) / 2 = i := by
            rcases hspec.1 with he | he <;> omega
          apply ih
          · rw [hlen]; omega
          constructor
          · intro j hj1 hj2 hjt
            rw [hlen] at hj2
            by_cases hji : j = t
            · rw [hji, htpar, prioAt_hswap_snd l i t hil hit, prioAt_hswap_fst l i t htl]
              omega
            · by_cases hji2 : j = i
              · rw [hji2]
                have hgp1 : (i - 1) / 2 ≠ i := by omega
                have hgp2 : (i - 1) / 2 ≠ t := by omega
                rw [prioAt_hswap_other l i t _ hgp1 hgp2,
                  prioAt_hswap_snd l i t hil hit]
                rcases Nat.eq_zero_or_pos i with hi0 | hi0
                · omega
                · exact h.2 (by omega) t (by omega) htl htpar
              · by_cases hpar : (j - 1) / 2 = i
                · rw [hpar, prioAt_hswap_snd l i t hil hit,
                    prioAt_hswap_other l i t j hji2 hji]
                  exact hspec.2.2 j (by omega) hj2
                · rw [prioAt_hswap_other l i t _ hpar (by omega),
                    prioAt_hswap_other l i t j hji2 hji]
                  exact h.1 j hj1 hj2 hpar
          · intro ht0 j hj1 hj2 hpar
            rw [hlen] at hj2
            rw [htpar, prioAt_hswap_snd l i t hil hit]
            have hji : j ≠ i := by omega
            have hjt : j ≠ t := by omega
            rw [prioAt_hswap_other l i t j hji hjt]
            have := h.1 j hj1 hj2 (by omega)
            rw [hpar] at this
            omega

theorem bubbleDown_heap (l : List HEntry) (i : Nat) (h : DownInv l i) :
    HeapProp (bubbleDown l i) :=
  bubbleDownAux_heap l.length l i (by omega) h

theorem set_getElem_self {α : Type} (l : List α) (i : Nat) (hi : i < l.length) :
    l.set i (l[i]) = l := by
  apply List.ext_getElem
  · simp
  · intro n h1 h2
    rw [List.getElem_set]
    split
    · next he =>
        subst he
        rfl
    · rfl

theorem heapProp_head_le (e : HEntry) (t : List HEntry) (h : HeapProp (e :: t)) :
    ∀ x ∈ e :: t, e.priority ≤ x.priority := by
  intro x hx
  rcases List.getElem_of_mem hx with ⟨j, hj, hje⟩
  have := heapProp_root_le (e :: t) h j hj
  unfold prioAt at this
  rw [List.getD_eq_getElem _ _ hj, hje] at this
  simpa using this

theorem prioAt_extract (e b : HEntry) (t : List HEntry) (x : HEntry) (k : Nat)
    (hk1 : 1 ≤ k) (hk2 : k < t.length + 1) :
    prioAt (((e :: b :: t).dropLast).set 0 x) k = prioAt (e :: b :: t) k := by
  unfold prioAt
  rw [getD_set_ne _ _ _ _ (by omega)]
  have hlen : (e :: b :: t).dropLast.length = t.length + 1 := by simp
  rw [List.getD_eq_getElem _ _ (by omega), List.getD_eq_getElem _ _ (by simp; omega)]
  rw [List.getElem_dropLast]

theorem extractMinH_spec (e : HEntry) (t : List HEntry) (h : HeapProp (e :: t)) :
    ∃ rest, extractMinH (e :: t) = some (e, rest) ∧ List.Perm rest t ∧ HeapProp rest := by
  cases t with
  | nil =>
      refine ⟨[], rfl, List.Perm.refl [], ?_⟩
      intro j hj1 hj2
      simp at hj2
  | cons b t' =>
      refine ⟨bubbleDown (((e :: b :: t').dropLast).set 0
          ((e :: b :: t').getLast (by simp))) 0, ?_, ?_, ?_⟩
      · unfold extractMinH
        rfl
      · apply (bubbleDown_perm _ 0).trans
        have hset : ((e :: b :: t').dropLast).set 0 ((e :: b :: t').getLast (by simp)) =
            (b :: t').getLast (by simp) :: (b :: t').dropLast := by
          rw [List.getLast_cons (show (b :: t') ≠ [] from by simp)]
          rfl
        rw [hset]
        have hperm := (List.perm_append_singleton ((b :: t').getLast (by simp))
          ((b :: t').dropLast)).symm
        have h2 : (b :: t').dropLast ++ [(b :: t').getLast (by simp)] = b :: t' :=
          List.dropLast_append_getLast (show (b :: t') ≠ [] from by simp)
        rw [h2] at hperm
        exact hperm
      · apply bubbleDown_heap
        constructor
        · intro j hj1 hj2 hpar
          have hlen : ((e :: b :: t').dropLast.set 0 ((e :: b :: t').getLast (by simp))).length
              = t'.length + 1 := by simp
          rw [hlen] at hj2
          rw [prioAt_extract _ _ _ _ _ hj1 hj2, prioAt_extract _ _ _ _ _ (by omega) (by omega)]
          exact h j hj1 (by simp; omega)
        · intro h0 j hj1 hj2 hpar
          omega

theorem prioAt_set_self (l : List HEntry) (e : HEntry) (i : Nat) (hi : i < l.length) :
    prioAt (l.set i e) i = e.priority := by
  unfold prioAt
  rw [getD_set_self _ _ _ hi]

theorem prioAt_set_other (l : List HEntry) (e : HEntry) (i k : Nat) (h : k ≠ i) :
    prioAt (l.set i e) k = prioAt l k := by
  unfold prioAt
  rw [getD_set_ne _ _ _ _ (fun hh => h hh.symm)]

theorem hasKeyH_iff (l : List HEntry) (c : Cell) :
    hasKeyH l c = true ↔ ∃ e ∈ l, e.node = c := by
  unfold hasKeyH
  simp

theorem decreaseKeyH_spec (l : List HEntry) (c : Cell) (f : Nat)
    (hk : hasKeyH l c = true) (hp : HeapProp l)
    (hf : ∀ e ∈ l, e.node = c → f ≤ e.priority) :
    ∃ i, ∃ hi : i < l.length, (l.get ⟨i, hi⟩).node = c ∧
      List.Perm (decreaseKeyH l c f) (l.set i ⟨c, f⟩) ∧
      HeapProp (decreaseKeyH l c f) := by
  unfold decreaseKeyH
  rcases hfind : l.findIdx? (fun e => e.node = c) with _ | i
  · exfalso
    rcases (hasKeyH_iff l c).mp hk with ⟨x, hx, hxc⟩
    have := List.findIdx?_eq_none_iff.mp hfind x hx
    simp [hxc] at this
  · rw [hfind]
    rcases List.findIdx?_eq_some_iff_getElem.mp hfind with ⟨hi, hpi, -⟩
    have hnode : (l.get ⟨i, hi⟩).node = c := by simpa using hpi
    have hfle : f ≤ prioAt l i := by
      unfold prioAt
      rw [List.getD_eq_getElem _ _ hi]
      exact hf _ (l.getElem_mem hi) (by simpa using hpi)
    refine ⟨i, hi, hnode, ?_, ?_⟩
    · exact bubbleUp_perm _ i (by simpa using hi)
    · apply bubbleUp_heap _ i (by simpa using hi)
      constructor
      · intro j hj1 hj2 hji
        have hj2' : j < l.length := by simpa using hj2
        rw [prioAt_set_other _ _ _ _ hji]
        by_cases hpar : (j - 1) / 2 = i
        · rw [hpar, prioAt_set_self _ _ _ hi]
          have h1 := hp j hj1 hj2'
          rw [hpar] at h1
          calc f ≤ prioAt l i := hfle
            _ ≤ prioAt l j := h1
        · rw [prioAt_set_other _ _ _ _ hpar]
          exact hp j hj1 hj2'
      · intro h0 j hj1 hj2 hpar
        have hj2' : j < l.length := by simpa using hj2
        have hji : j ≠ i := by omega
        rw [prioAt_set_other _ _ _ _ hji, prioAt_set_other _ _ _ _ (by omega)]
        have h1 := hp i (by omega) hi
        have h2 := hp j hj1 hj2'
        rw [hpar] at h2
        omega

theorem map_node_set (l : List HEntry) (i : Nat) (c : Cell) (f : Nat)
    (hi : i < l.length) (hc : (l.get ⟨i, hi⟩).node = c) :
    (l.set i ⟨c, f⟩).map HEntry.node = l.map HEntry.node := by
  rw [List.map_set]
  have hmi : i < (l.map HEntry.node).length := by simpa using hi
  have hval : (l.map HEntry.node).get ⟨i, hmi⟩ = HEntry.node (⟨c, f⟩ : HEntry) := by
    rw [List.get_eq_getElem, List.getElem_map]
    simpa using hc
  rw [← hval]
  exact set_getElem_self _ _ hmi

/-! ### Walks and the Manhattan heuristic -/

theorem walkB_walkable (g : Grid) (s : Cell) (n : Nat) (v : Cell)
    (h : walkB g s n v = true) : isTileWalkable g v.1 v.2 = true := by
  cases n with
  | zero =>
      simp only [walkB, Bool.and_eq_true] at h
      exact h.2
  | succ n =>
      simp only [walkB, Bool.and_eq_true] at h
      exact h.1

theorem walkB_zero_iff (g : Grid) (s v : Cell) :
    walkB g s 0 v = true ↔ v = s ∧ isTileWalkable g v.1 v.2 = true := by
  unfold walkB
  simp

theorem walkB_succ_iff (g : Grid) (s v : Cell) (n : Nat) :
    walkB g s (n + 1) v = true ↔ isTileWalkable g v.1 v.2 = true ∧
      ∃ d ∈ neighborDirs, walkB g s n (v.1 + d.1, v.2 + d.2) = true := by
  simp only [walkB, Bool.and_eq_true, List.any_eq_true]

theorem neighborDirs_neg (d : Cell) (h : d ∈ neighborDirs) :
    (-d.1, -d.2) ∈ neighborDirs := by
  fin_cases h <;> decide

theorem adjacent_of_dir (a : Cell) (d : Cell) (h : d ∈ neighborDirs) :
    adjacent a (a.1 + d.1, a.2 + d.2) := by
  obtain ⟨ax, ay⟩ := a
  fin_cases h <;> (unfold adjacent; dsimp only; omega)

theorem adjacent_symm_cell (a b : Cell) (h : adjacent a b) : adjacent b a := by
  unfold adjacent at h ⊢
  omega

theorem dir_of_adjacent (a b : Cell) (h : adjacent a b) :
    ∃ d ∈ neighborDirs, b = (a.1 + d.1, a.2 + d.2) := by
  obtain ⟨ax, ay⟩ := a
  obtain ⟨bx, b2⟩ := b
  unfold adjacent at h
  simp only at h
  rcases (show (bx = ax + 1 ∧ b2 = ay) ∨ (bx = ax - 1 ∧ b2 = ay) ∨
      (bx = ax ∧ b2 = ay + 1) ∨ (bx = ax ∧ b2 = ay - 1) by omega) with
    ⟨hb1, hb2⟩ | ⟨hb1, hb2⟩ | ⟨hb1, hb2⟩ | ⟨hb1, hb2⟩
  · exact ⟨(1, 0), by simp [neighborDirs], by simp [hb1, hb2]⟩
  · exact ⟨(-1, 0), by simp [neighborDirs], by simp [hb1, hb2]; omega⟩
  · exact ⟨(0, 1), by simp [neighborDirs], by simp [hb1, hb2]⟩
  · exact ⟨(0, -1), by simp [neighborDirs], by simp [hb1, hb2]; omega⟩

theorem walkB_extend (g : Grid) (s : Cell) (n : Nat) (v : Cell) (d : Cell)
    (h : walkB g s n v = true) (hd : d ∈ neighborDirs)
    (hw : isTileWalkable g (v.1 + d.1) (v.2 + d.2) = true) :
    walkB g s (n + 1) (v.1 + d.1, v.2 + d.2) = true := by
  rw [walkB_succ_iff]
  refine ⟨hw, (-d.1, -d.2), neighborDirs_neg d hd, ?_⟩
  have : (v.1 + d.1 + -d.1, v.2 + d.2 + -d.2) = v := by
    obtain ⟨vx, vy⟩ := v
    simp only [Prod.mk.injEq]
    omega
  rw [this]
  exact h

theorem heuristic_adjacent (a b goal : Cell) (h : adjacent a b) :
    heuristic a goal ≤ heuristic b goal + 1 := by
  unfold heuristic
  unfold adjacent at h
  omega

theorem walkB_heuristic (g : Grid) (y : Cell) (goal : Cell) :
    ∀ k v, walkB g y k v = true → heuristic y goal ≤ k + heuristic v goal := by
  intro k
  induction k with
  | zero =>
      intro v h
      rw [walkB_zero_iff] at h
      rw [h.1]
      omega
  | succ k ih =>
      intro v h
      rw [walkB_succ_iff] at h
      rcases h.2 with ⟨d, hd, hwd⟩
      have h1 := ih _ hwd
      have h2 : heuristic (v.1 + d.1, v.2 + d.2) goal ≤ heuristic v goal + 1 := by
        apply heuristic_adjacent
        exact adjacent_symm_cell _ _ (adjacent_of_dir v d hd)
      omega

theorem walkB_start_walkable (g : Grid) (s : Cell) :
    ∀ n v, walkB g s n v = true → isTileWalkable g s.1 s.2 = true := by
  intro n
  induction n with
  | zero =>
      intro v h
      rw [walkB_zero_iff] at h
      rw [← h.1]
      exact h.2
  | succ n ih =>
      intro v h
      rw [walkB_succ_iff] at h
      rcases h.2 with ⟨d, hd, hwd⟩
      exact ih _ hwd

/-! ### The A* search invariant -/

/-- The per-neighbour closure property: a walkable neighbour of `c` is
closed, or on the open heap with a gScore at most `gScore c + 1`. -/
def NbrOK (g : Grid) (s : AState) (c : Cell) (d : Cell) : Prop :=
  isTileWalkable g (c.1 + d.1) (c.2 + d.2) = true →
    ((c.1 + d.1, c.2 + d.2) ∈ s.closed ∨
      ((c.1 + d.1, c.2 + d.2) ∈ s.openH.map HEntry.node ∧
        ∃ mc mn, s.gScore c = some mc ∧
          s.gScore (c.1 + d.1, c.2 + d.2) = some mn ∧ mn ≤ mc + 1))

/-- All clauses of the A* loop invariant except the closure property. -/
structure BaseInv (g : Grid) (as ag : Cell) (s : AState) : Prop where
  closed_nodup : s.closed.Nodup
  closed_walk : ∀ c ∈ s.closed, isTileWalkable g c.1 c.2 = true
  goal_not_closed : ag ∉ s.closed
  open_nodup : (s.openH.map HEntry.node).Nodup
  open_not_closed : ∀ e ∈ s.openH, e.node ∉ s.closed
  heap_prop : HeapProp s.openH
  heap_prio : ∀ e ∈ s.openH, ∃ m, s.gScore e.node = some m ∧
    e.priority = m + heuristic e.node ag
  g_walk : ∀ v m, s.gScore v = some m → walkB g as m v = true
  g_closed_exact : ∀ c ∈ s.closed, ∃ m, s.gScore c = some m ∧
    ∀ k, walkB g as k c = true → m ≤ k
  g_start : s.gScore as = some 0
  g_in : ∀ v m, s.gScore v = some m → v ∈ s.closed ∨ v ∈ s.openH.map HEntry.node
  start_avail : as ∈ s.closed ∨ as ∈ s.openH.map HEntry.node
  came_start : s.cameFrom as = none
  came_link : ∀ v u, s.cameFrom v = some u → u ∈ s.closed ∧ adjacent u v ∧
    ∃ k, s.gScore u = some k ∧ s.gScore v = some (k + 1)
  g_pos_came : ∀ v m, s.gScore v = some m → 1 ≤ m → ∃ u, s.cameFrom v = some u

/-- The full A* loop invariant. -/
def AInv (g : Grid) (as ag : Cell) (s : AState) : Prop :=
  BaseInv g as ag s ∧ ∀ c ∈ s.closed, ∀ d ∈ neighborDirs, NbrOK g s c d

/-- Every reachable non-closed cell is approached by an open node whose
gScore plus remaining walk length does not exceed the walk length. -/
theorem frontier (g : Grid) (as ag : Cell) (s : AState) (hinv : AInv g as ag s) :
    ∀ n v, walkB g as n v = true → v ∉ s.closed →
      ∃ y m k, y ∈ s.openH.map HEntry.node ∧ s.gScore y = some m ∧
        walkB g y k v = true ∧ m + k ≤ n := by
  intro n
  induction n with
  | zero =>
      intro v h hnc
      have hv : v = as := ((walkB_zero_iff g as v).mp h).1
      subst hv
      rcases hinv.1.start_avail with hcl | hop
      · exact absurd hcl hnc
      · exact ⟨v, 0, 0, hop, hinv.1.g_start, h, by omega⟩
  | succ n ih =>
      intro v h hnc
      rw [walkB_succ_iff] at h
      rcases h with ⟨hwv, d, hd, hu⟩
      by_cases hc : (v.1 + d.1, v.2 + d.2) ∈ s.closed
      · have hback := hinv.2 _ hc (-d.1, -d.2) (neighborDirs_neg d hd)
        have hcell : ((v.1 + d.1) + -d.1, (v.2 + d.2) + -d.2) = v := by
          obtain ⟨vx, vy⟩ := v
          simp only [Prod.mk.injEq]
          omega
        unfold NbrOK at hback
        rw [show ((v.1 + d.1, v.2 + d.2).1 + -d.1, (v.1 + d.1, v.2 + d.2).2 + -d.2) = v
          from hcell] at hback
        have hback2 := hback (by simpa [hcell] using hwv)
        rcases hback2 with hvc | ⟨hvo, mc, mn, hgc, hgv, hle⟩
        · exact absurd hvc hnc
        · rcases hinv.1.g_closed_exact _ hc with ⟨mu, hgu, hmin⟩
          rw [hgu] at hgc
          have hmc : mc = mu := by
            exact (Option.some.injEq _ _ ▸ hgc).symm ▸ rfl
          refine ⟨v, mn, 0, hvo, hgv, ?_, ?_⟩
          · rw [walkB_zero_iff]
            exact ⟨rfl, hwv⟩
          · have := hmin n hu
            omega
      · rcases ih _ hu hc with ⟨y, m, k, hy, hgy, hwk, hmk⟩
        refine ⟨y, m, k + 1, hy, hgy, ?_, by omega⟩
        have := walkB_extend g y k (v.1 + d.1, v.2 + d.2) (-d.1, -d.2) hwk
          (neighborDirs_neg d hd)
        have hcell : ((v.1 + d.1) + -d.1, (v.2 + d.2) + -d.2) = v := by
          obtain ⟨vx, vy⟩ := v
          simp only [Prod.mk.injEq]
          omega
        rw [show ((v.1 + d.1, v.2 + d.2).1 + -d.1, (v.1 + d.1, v.2 + d.2).2 + -d.2) = v
          from hcell] at this
        apply this
        simpa [hcell] using hwv

/-- When the heap root is extracted its gScore is exact: no walk from the
start to that cell is shorter. -/
theorem root_exact (g : Grid) (as ag : Cell) (s : AState) (hinv : AInv g as ag s)
    (e : HEntry) (t : List HEntry) (hs : s.openH = e :: t) :
    ∃ m, s.gScore e.node = some m ∧ ∀ k, walkB g as k e.node = true → m ≤ k := by
  have he : e ∈ s.openH := by rw [hs]; exact List.mem_cons_self _ _
  rcases hinv.1.heap_prio e he with ⟨m, hg, hprio⟩
  refine ⟨m, hg, ?_⟩
  intro k hk
  have hnc : e.node ∉ s.closed := hinv.1.open_not_closed e he
  rcases frontier g as ag s hinv k e.node hk hnc with ⟨y, my, ky, hy, hgy, hwk, hmk⟩
  rcases List.mem_map.mp hy with ⟨ey, hey, heyn⟩
  rcases hinv.1.heap_prio ey hey with ⟨my2, hgy2, hprioy⟩
  rw [heyn] at hgy2
  rw [hgy] at hgy2
  have hmy : my2 = my := by
    simpa using hgy2.symm
  have hroot : e.priority ≤ ey.priority := by
    have := heapProp_head_le e t (hs ▸ hinv.1.heap_prop) ey (hs ▸ hey)
    exact this
  have hheur : heuristic y ag ≤ ky + heuristic e.node ag :=
    walkB_heuristic g y ag ky e.node hwk
  rw [hprio, hprioy, heyn] at hroot
  omega

theorem mupd_self {β : Type} (m : Cell → Option β) (k : Cell) (v : β) :
    mupd m k v k = some v := by
  unfold mupd
  rw [if_pos rfl]

theorem mupd_other {β : Type} (m : Cell → Option β) (k k' : Cell) (v : β)
    (h : k' ≠ k) : mupd m k v k' = m k' := by
  unfold mupd
  rw [if_neg h]

theorem contains_eq_mem (l : List Cell) (c : Cell) :
    l.contains c = true ↔ c ∈ l := by
  simp [List.contains_iff_exists_mem_beq, beq_iff_eq]

theorem relaxOne_skip (g : Grid) (goal cur : Cell) (s : AState) (d : Cell)
    (h : (s.closed.contains (cur.1 + d.1, cur.2 + d.2) ||
      !(isTileWalkable g (cur.1 + d.1) (cur.2 + d.2))) = true) :
    relaxOne g goal cur s d = s := by
  simp only [relaxOne]
  rw [if_pos h]

theorem relaxOne_nobetter (g : Grid) (goal cur : Cell) (s : AState) (d : Cell)
    (gn : Nat)
    (h1 : (s.closed.contains (cur.1 + d.1, cur.2 + d.2) ||
      !(isTileWalkable g (cur.1 + d.1) (cur.2 + d.2))) = false)
    (h2 : s.gScore (cur.1 + d.1, cur.2 + d.2) = some gn)
    (h3 : ¬((s.gScore cur).getD 0 + 1 < gn)) :
    relaxOne g goal cur s d = s := by
  simp only [relaxOne]
  rw [if_neg (by rw [h1]; simp)]
  simp only [h2]
  rw [if_neg (by simpa using h3)]

theorem relaxOne_better_eq (g : Grid) (goal cur : Cell) (s : AState) (d : Cell)
    (h1 : (s.closed.contains (cur.1 + d.1, cur.2 + d.2) ||
      !(isTileWalkable g (cur.1 + d.1) (cur.2 + d.2))) = false)
    (hb : (match s.gScore (cur.1 + d.1, cur.2 + d.2) with
      | none => true
      | some gn => decide ((s.gScore cur).getD 0 + 1 < gn)) = true) :
    relaxOne g goal cur s d =
      { openH :=
          if !(hasKeyH s.openH (cur.1 + d.1, cur.2 + d.2)) then
            insertH s.openH ⟨(cur.1 + d.1, cur.2 + d.2),
              (s.gScore cur).getD 0 + 1 +
                heuristic (cur.1 + d.1, cur.2 + d.2) goal⟩
          else
            decreaseKeyH s.openH (cur.1 + d.1, cur.2 + d.2)
              ((s.gScore cur).getD 0 + 1 +
                heuristic (cur.1 + d.1, cur.2 + d.2) goal)
        closed := s.closed
        cameFrom := mupd s.cameFrom (cur.1 + d.1, cur.2 + d.2) cur
        gScore := mupd s.gScore (cur.1 + d.1, cur.2 + d.2)
          ((s.gScore cur).getD 0 + 1)
        fScore := mupd s.fScore (cur.1 + d.1, cur.2 + d.2)
          ((s.gScore cur).getD 0 + 1 +
            heuristic (cur.1 + d.1, cur.2 + d.2) goal) } := by
  simp only [relaxOne]
  rw [if_neg (by rw [h1]; simp)]
  rw [if_pos hb]

/-- The invariant holding during the neighbour loop of one A* iteration: the
closure property is known for every previously closed cell, and for the
directions of `cur` already processed. -/
structure MidInv (g : Grid) (as ag cur : Cell) (done : List Cell) (s : AState) : Prop where
  base : BaseInv g as ag s
  cur_closed : cur ∈ s.closed
  nbr_old : ∀ c ∈ s.closed, c ≠ cur → ∀ d ∈ neighborDirs, NbrOK g s c d
  nbr_cur : ∀ d ∈ done, NbrOK g s cur d

theorem heap_update_spec (l : List HEntry) (c : Cell) (f : Nat) (l' : List HEntry)
    (hl' : l' = if !(hasKeyH l c) then insertH l ⟨c, f⟩ else decreaseKeyH l c f)
    (hp : HeapProp l) (hnd : (l.map HEntry.node).Nodup)
    (hf : ∀ e ∈ l, e.node = c → f ≤ e.priority) :
    HeapProp l' ∧ (l'.map HEntry.node).Nodup ∧
      (∀ v, v ∈ l'.map HEntry.node ↔ v ∈ l.map HEntry.node ∨ v = c) ∧
      (∀ e' ∈ l', e'.node ≠ c → e' ∈ l) ∧
      (∀ e' ∈ l', e'.node = c → e' = ⟨c, f⟩) := by
  by_cases hk : hasKeyH l c = true
  · rw [hl', if_neg (by simp [hk])]
    rcases decreaseKeyH_spec l c f hk hp hf with ⟨i, hi, hnode, hperm, hheap⟩
    have hmapset : (l.set i ⟨c, f⟩).map HEntry.node = l.map HEntry.node :=
      map_node_set l i c f hi hnode
    have hnodes : ∀ v, v ∈ (decreaseKeyH l c f).map HEntry.node ↔
        v ∈ l.map HEntry.node := by
      intro v
      rw [(hperm.map HEntry.node).mem_iff, hmapset]
    have hcin : c ∈ l.map HEntry.node := by
      rcases (hasKeyH_iff l c).mp hk with ⟨e, he, hec⟩
      exact List.mem_map.mpr ⟨e, he, hec⟩
    refine ⟨hheap, ?_, ?_, ?_, ?_⟩
    · rw [(hperm.map HEntry.node).nodup_iff, hmapset]
      exact hnd
    · intro v
      rw [hnodes v]
      constructor
      · exact Or.inl
      · rintro (hv | rfl)
        · exact hv
        · exact hcin
    · intro e' he' hne
      have hmem := hperm.mem_iff.mp he'
      rcases List.mem_or_eq_of_mem_set hmem with hm | rfl
      · exact hm
      · exact absurd rfl hne
    · intro e' he' hec
      have hmem := hperm.mem_iff.mp he'
      rcases List.getElem_of_mem hmem with ⟨j, hj, hje⟩
      by_cases hij : j = i
      · subst hij
        rw [List.getElem_set_self _] at hje
        exact hje.symm
      · exfalso
        rw [List.getElem_set_ne (fun hh => hij hh.symm) _] at hje
        have hjl : j < l.length := by simpa using hj
        have hj2 : j < (l.map HEntry.node).length := by simpa using hjl
        have hi2 : i < (l.map HEntry.node).length := by simpa using hi
        have hji : (l.map HEntry.node).get ⟨j, hj2⟩ = (l.map HEntry.node).get ⟨i, hi2⟩ := by
          rw [List.get_eq_getElem, List.get_eq_getElem, List.getElem_map, List.getElem_map,
            hje, hec]
          rw [show l.get ⟨i, hi⟩ = l[i] from rfl] at hnode
          exact hnode.symm
        have hfin := hnd.get_inj_iff.mp hji
        have : j = i := congrArg Fin.val hfin
        exact hij this
  · rw [hl', if_pos (by simp [hk])]
    have hcnot : c ∉ l.map HEntry.node := by
      intro hc
      rcases List.mem_map.mp hc with ⟨e, he, hec⟩
      exact hk ((hasKeyH_iff l c).mpr ⟨e, he, hec⟩)
    have hperm := insertH_perm l ⟨c, f⟩
    have hmap : ∀ v, v ∈ (insertH l ⟨c, f⟩).map HEntry.node ↔
        v ∈ l.map HEntry.node ∨ v = c := by
      intro v
      rw [(hperm.map HEntry.node).mem_iff]
      simp
    refine ⟨insertH_heap l ⟨c, f⟩ hp, ?_, hmap, ?_, ?_⟩
    · rw [(hperm.map HEntry.node).nodup_iff]
      simp only [List.map_append, List.map_cons, List.map_nil]
      rw [List.nodup_append]
      refine ⟨hnd, List.nodup_singleton _, ?_⟩
      intro x hx
      simp only [List.mem_singleton]
      intro hxc
      rw [hxc] at hx
      exact hcnot hx
    · intro e' he' hne
      rcases List.mem_append.mp (hperm.mem_iff.mp he') with hm | hm
      · exact hm
      · simp only [List.mem_singleton] at hm
        rw [hm] at hne
        exact absurd rfl hne
    · intro e' he' hec
      rcases List.mem_append.mp (hperm.mem_iff.mp he') with hm | hm
      · exfalso
        exact hcnot (List.mem_map.mpr ⟨e', hm, hec⟩)
      · simpa using hm

theorem relaxOne_better_mid (g : Grid) (as ag cur : Cell) (done : List Cell)
    (s : AState) (d : Cell) (hd : d ∈ neighborDirs)
    (h : MidInv g as ag cur done s)
    (hc : (cur.1 + d.1, cur.2 + d.2) ∉ s.closed)
    (hw : isTileWalkable g (cur.1 + d.1) (cur.2 + d.2) = true)
    (h1 : (s.closed.contains (cur.1 + d.1, cur.2 + d.2) ||
      !(isTileWalkable g (cur.1 + d.1) (cur.2 + d.2))) = false)
    (hb : (match s.gScore (cur.1 + d.1, cur.2 + d.2) with
      | none => true
      | some gn => decide ((s.gScore cur).getD 0 + 1 < gn)) = true) :
    MidInv g as ag cur (done ++ [d]) (relaxOne g ag cur s d) := by
  obtain ⟨mcur, hgc, hexact⟩ := h.base.g_closed_exact cur h.cur_closed
  have htg : (s.gScore cur).getD 0 + 1 = mcur + 1 := by rw [hgc]; rfl
  have hbmono : ∀ gn, s.gScore (cur.1 + d.1, cur.2 + d.2) = some gn →
      mcur + 1 < gn := by
    intro gn hgn
    rw [hgn] at hb
    rw [← htg]
    simpa using hb
  have hne_as : (cur.1 + d.1, cur.2 + d.2) ≠ as := by
    intro hh
    have := hbmono 0 (by rw [hh]; exact h.base.g_start)
    omega
  have hcur_ne : cur ≠ (cur.1 + d.1, cur.2 + d.2) := by
    intro hh
    exact hc (hh ▸ h.cur_closed)
  have hspec := heap_update_spec s.openH (cur.1 + d.1, cur.2 + d.2)
    ((s.gScore cur).getD 0 + 1 + heuristic (cur.1 + d.1, cur.2 + d.2) ag)
    (if !(hasKeyH s.openH (cur.1 + d.1, cur.2 + d.2)) then
        insertH s.openH ⟨(cur.1 + d.1, cur.2 + d.2),
          (s.gScore cur).getD 0 + 1 + heuristic (cur.1 + d.1, cur.2 + d.2) ag⟩
      else decreaseKeyH s.openH (cur.1 + d.1, cur.2 + d.2)
        ((s.gScore cur).getD 0 + 1 + heuristic (cur.1 + d.1, cur.2 + d.2) ag))
    rfl h.base.heap_prop h.base.open_nodup ?hf
  case hf =>
    intro e he hen
    rcases h.base.heap_prio e he with ⟨ge, hge, hpe⟩
    rw [hen] at hge
    have := hbmono ge hge
    rw [hpe, hen, htg]
    omega
  obtain ⟨hH, hND, hMEM, hOLD, hNEW⟩ := hspec
  rw [relaxOne_better_eq g ag cur s d h1 hb]
  have hwalkn : walkB g as (mcur + 1) (cur.1 + d.1, cur.2 + d.2) = true :=
    walkB_extend g as mcur cur d (h.base.g_walk cur mcur hgc) hd hw
  refine ⟨⟨?_, ?_, ?_, ?_, ?_, ?_, ?_, ?_, ?_, ?_, ?_, ?_, ?_, ?_, ?_⟩, ?_, ?_, ?_⟩
  all_goals try dsimp only
  · exact h.base.closed_nodup
  · exact h.base.closed_walk
  · exact h.base.goal_not_closed
  · exact hND
  · intro e he
    by_cases hen : e.node = (cur.1 + d.1, cur.2 + d.2)
    · rw [hen]; exact hc
    · exact h.base.open_not_closed e (hOLD e he hen)
  · exact hH
  · intro e he
    by_cases hen : e.node = (cur.1 + d.1, cur.2 + d.2)
    · have hee := hNEW e he hen
      refine ⟨(s.gScore cur).getD 0 + 1, ?_, ?_⟩
      · rw [hen]
        exact mupd_self _ _ _
      · rw [hee]
    · rcases h.base.heap_prio e (hOLD e he hen) with ⟨m, hm, hp⟩
      exact ⟨m, by rw [mupd_other _ _ _ _ hen]; exact hm, hp⟩
  · intro v m hv
    by_cases hvn : v = (cur.1 + d.1, cur.2 + d.2)
    · rw [hvn, mupd_self] at hv
      have hm : m = (s.gScore cur).getD 0 + 1 := by simpa using hv.symm
      rw [hvn, hm, htg]
      exact hwalkn
    · rw [mupd_other _ _ _ _ hvn] at hv
      exact h.base.g_walk v m hv
  · intro c hcm
    have hcn : c ≠ (cur.1 + d.1, cur.2 + d.2) := by
      intro hh
      exact hc (hh ▸ hcm)
    rcases h.base.g_closed_exact c hcm with ⟨m, hm, hmin⟩
    exact ⟨m, by rw [mupd_other _ _ _ _ hcn]; exact hm, hmin⟩
  · rw [mupd_other _ _ _ _ (fun hh => hne_as hh.symm)]
    exact h.base.g_start
  · intro v m hv
    by_cases hvn : v = (cur.1 + d.1, cur.2 + d.2)
    · right
      rw [hvn]
      exact (hMEM _).mpr (Or.inr rfl)
    · rw [mupd_other _ _ _ _ hvn] at hv
      rcases h.base.g_in v m hv with hcl | hop
      · exact Or.inl hcl
      · exact Or.inr ((hMEM _).mpr (Or.inl hop))
  · rcases h.base.start_avail with hcl | hop
    · exact Or.inl hcl
    · exact Or.inr ((hMEM _).mpr (Or.inl hop))
  · rw [mupd_other _ _ _ _ (fun hh => hne_as hh.symm)]
    exact h.base.came_start
  · intro v u hv
    by_cases hvn : v = (cur.1 + d.1, cur.2 + d.2)
    · rw [hvn, mupd_self] at hv
      have hu : u = cur := by simpa using hv.symm
      rw [hu]
      refine ⟨h.cur_closed, by rw [hvn]; exact adjacent_of_dir cur d hd, mcur, ?_, ?_⟩
      · rw [mupd_other _ _ _ _ hcur_ne]
        exact hgc
      · rw [hvn, mupd_self, htg]
    · rw [mupd_other _ _ _ _ hvn] at hv
      rcases h.base.came_link v u hv with ⟨hucl, hadj, k, hku, hkv⟩
      have hun : u ≠ (cur.1 + d.1, cur.2 + d.2) := by
        intro hh
        exact hc (hh ▸ hucl)
      refine ⟨hucl, hadj, k, ?_, ?_⟩
      · rw [mupd_other _ _ _ _ hun]
        exact hku
      · rw [mupd_other _ _ _ _ hvn]
        exact hkv
  · intro v m hv hm
    by_cases hvn : v = (cur.1 + d.1, cur.2 + d.2)
    · exact ⟨cur, by rw [hvn]; exact mupd_self _ _ _⟩
    · rw [mupd_other _ _ _ _ hvn] at hv
      rcases h.base.g_pos_came v m hv hm with ⟨u, hu⟩
      exact ⟨u, by rw [mupd_other _ _ _ _ hvn]; exact hu⟩
  · exact h.cur_closed
  · intro c hcm hcc d' hd'
    unfold NbrOK
    dsimp only
    intro hw'
    have hcn : c ≠ (cur.1 + d.1, cur.2 + d.2) := by
      intro hh
      exact hc (hh ▸ hcm)
    rcases h.nbr_old c hcm hcc d' hd' hw' with hcl | ⟨hop, mc, mn, hgc', hgw', hle⟩
    · exact Or.inl hcl
    · refine Or.inr ⟨(hMEM _).mpr (Or.inl hop), mc, ?_⟩
      by_cases hwn : (c.1 + d'.1, c.2 + d'.2) = (cur.1 + d.1, cur.2 + d.2)
      · refine ⟨(s.gScore cur).getD 0 + 1, ?_, ?_⟩
        · rw [mupd_other _ _ _ _ hcn]
          exact hgc'
        · constructor
          · rw [hwn]
            exact mupd_self _ _ _
          · rw [hwn] at hgw'
            have := hbmono mn hgw'
            rw [htg]
            omega
      · refine ⟨mn, ?_, ?_⟩
        · rw [mupd_other _ _ _ _ hcn]
          exact hgc'
        · constructor
          · rw [mupd_other _ _ _ _ hwn]
            exact hgw'
          · exact hle
  · intro d' hd'
    rcases List.mem_append.mp hd' with hdone | hnew
    · unfold NbrOK
      dsimp only
      intro hw'
      rcases h.nbr_cur d' hdone hw' with hcl | ⟨hop, mc, mn, hgc', hgw', hle⟩
      · exact Or.inl hcl
      · refine Or.inr ⟨(hMEM _).mpr (Or.inl hop), mc, ?_⟩
        by_cases hwn : (cur.1 + d'.1, cur.2 + d'.2) = (cur.1 + d.1, cur.2 + d.2)
        · refine ⟨(s.gScore cur).getD 0 + 1, ?_, ?_⟩
          · rw [mupd_other _ _ _ _ hcur_ne]
            exact hgc'
          · constructor
            · rw [hwn]
              exact mupd_self _ _ _
            · rw [hwn] at hgw'
              have := hbmono mn hgw'
              rw [htg]
              have hmc : mc = mcur := by
                rw [hgc] at hgc'
                simpa using hgc'.symm
              omega
        · refine ⟨mn, ?_, ?_⟩
          · rw [mupd_other _ _ _ _ hcur_ne]
            exact hgc'
          · constructor
            · rw [mupd_other _ _ _ _ hwn]
              exact hgw'
            · exact hle
    · simp only [List.mem_singleton] at hnew
      subst hnew
      unfold NbrOK
      dsimp only
      intro hw'
      refine Or.inr ⟨(hMEM _).mpr (Or.inr rfl), mcur, ?_⟩
      refine ⟨(s.gScore cur).getD 0 + 1, ?_, ?_⟩
      · rw [mupd_other _ _ _ _ hcur_ne]
        exact hgc
      · exact ⟨mupd_self _ _ _, by rw [htg]⟩

theorem relaxOne_mid (g : Grid) (as ag cur : Cell) (done : List Cell) (s : AState)
    (d : Cell) (hd : d ∈ neighborDirs) (h : MidInv g as ag cur done s) :
    MidInv g as ag cur (done ++ [d]) (relaxOne g ag cur s d) := by
  by_cases hskip : (s.closed.contains (cur.1 + d.1, cur.2 + d.2) ||
      !(isTileWalkable g (cur.1 + d.1) (cur.2 + d.2))) = true
  · rw [relaxOne_skip g ag cur s d hskip]
    refine ⟨h.base, h.cur_closed, h.nbr_old, ?_⟩
    intro d' hd'
    rcases List.mem_append.mp hd' with hdone | hnew
    · exact h.nbr_cur d' hdone
    · simp only [List.mem_singleton] at hnew
      subst hnew
      unfold NbrOK
      intro hwalk
      rw [Bool.or_eq_true] at hskip
      rcases hskip with hcont | hnw
      · exact Or.inl ((contains_eq_mem _ _).mp hcont)
      · exfalso
        rw [hwalk] at hnw
        simp at hnw
  · rw [Bool.not_eq_true] at hskip
    rw [Bool.or_eq_false_iff] at hskip
    obtain ⟨hc1, hc2⟩ := hskip
    have hw : isTileWalkable g (cur.1 + d.1) (cur.2 + d.2) = true := by
      simpa using hc2
    have hnotc : (cur.1 + d.1, cur.2 + d.2) ∉ s.closed := by
      intro hm
      rw [(contains_eq_mem _ _).mpr hm] at hc1
      simp at hc1
    have hskipf : (s.closed.contains (cur.1 + d.1, cur.2 + d.2) ||
        !(isTileWalkable g (cur.1 + d.1) (cur.2 + d.2))) = false := by
      rw [Bool.or_eq_false_iff]
      exact ⟨hc1, hc2⟩
    rcases hg : s.gScore (cur.1 + d.1, cur.2 + d.2) with _ | gn
    · apply relaxOne_better_mid g as ag cur done s d hd h hnotc hw hskipf
      rw [hg]
    · by_cases hlt : (s.gScore cur).getD 0 + 1 < gn
      · apply relaxOne_better_mid g as ag cur done s d hd h hnotc hw hskipf
        rw [hg]
        simpa using hlt
      · rw [relaxOne_nobetter g ag cur s d gn hskipf hg hlt]
        refine ⟨h.base, h.cur_closed, h.nbr_old, ?_⟩
        intro d' hd'
        rcases List.mem_append.mp hd' with hdone | hnew
        · exact h.nbr_cur d' hdone
        · simp only [List.mem_singleton] at hnew
          subst hnew
          unfold NbrOK
          intro hwalk
          right
          obtain ⟨mcur, hgc, -⟩ := h.base.g_closed_exact cur h.cur_closed
          refine ⟨?_, mcur, gn, hgc, hg, ?_⟩
          · rcases h.base.g_in _ gn hg with hcl | hop
            · exact absurd hcl hnotc
            · exact hop
          · rw [hgc] at hlt
            simp only [Option.getD_some] at hlt
            omega

theorem relax_foldl (g : Grid) (as ag cur : Cell) :
    ∀ (todo done : List Cell) (s : AState), done ++ todo = neighborDirs →
      MidInv g as ag cur done s →
      MidInv g as ag cur neighborDirs (todo.foldl (relaxOne g ag cur) s) := by
  intro todo
  induction todo with
  | nil =>
      intro done s hcat h
      rw [List.append_nil] at hcat
      subst hcat
      exact h
  | cons d todo ih =>
      intro done s hcat h
      simp only [List.foldl_cons]
      have hd : d ∈ neighborDirs := by
        rw [← hcat]
        exact List.mem_append.mpr (Or.inr (List.mem_cons_self _ _))
      apply ih (done ++ [d])
      · rw [List.append_assoc]
        simpa using hcat
      · exact relaxOne_mid g as ag cur done s d hd h

theorem relaxOne_closed (g : Grid) (goal cur : Cell) (s : AState) (d : Cell) :
    (relaxOne g goal cur s d).closed = s.closed := by
  simp only [relaxOne]
  split
  · rfl
  · split
    · rfl
    · rfl

theorem foldl_relax_closed (g : Grid) (goal cur : Cell) :
    ∀ (todo : List Cell) (s : AState),
      (todo.foldl (relaxOne g goal cur) s).closed = s.closed := by
  intro todo
  induction todo with
  | nil => intro s; rfl
  | cons d todo ih =>
      intro s
      simp only [List.foldl_cons]
      rw [ih]
      exact relaxOne_closed g goal cur s d

theorem AInv_of_mid (g : Grid) (as ag cur : Cell) (s : AState)
    (h : MidInv g as ag cur neighborDirs s) : AInv g as ag s := by
  refine ⟨h.base, ?_⟩
  intro c hc d hd
  by_cases hcc : c = cur
  · rw [hcc]
    exact h.nbr_cur d hd
  · exact h.nbr_old c hc hcc d hd

theorem mid_init (g : Grid) (as ag : Cell) (s : AState) (e : HEntry)
    (t rest : List HEntry) (hs : s.openH = e :: t)
    (hrest : List.Perm rest t) (hrh : HeapProp rest)
    (hinv : AInv g as ag s) (hne : e.node ≠ ag)
    (hex : ∃ m, s.gScore e.node = some m ∧ ∀ k, walkB g as k e.node = true → m ≤ k) :
    MidInv g as ag e.node []
      { s with openH := rest, closed := e.node :: s.closed } := by
  have hemem : e ∈ s.openH := by rw [hs]; exact List.mem_cons_self _ _
  have hcurnc : e.node ∉ s.closed := hinv.1.open_not_closed e hemem
  have hnodes : ∀ v, v ∈ rest.map HEntry.node ↔ v ∈ t.map HEntry.node := by
    intro v
    rw [(hrest.map HEntry.node).mem_iff]
  have hsnodes : (s.openH.map HEntry.node) = e.node :: t.map HEntry.node := by
    rw [hs]
    rfl
  have hnd : (e.node :: t.map HEntry.node).Nodup := by
    rw [← hsnodes]
    exact hinv.1.open_nodup
  have hnodes_sub : ∀ e' ∈ rest, e' ∈ s.openH := by
    intro e' he'
    rw [hs]
    exact List.mem_cons_of_mem _ (hrest.mem_iff.mp he')
  obtain ⟨mcur, hgcur, hexact⟩ := hex
  refine ⟨⟨?_, ?_, ?_, ?_, ?_, ?_, ?_, ?_, ?_, ?_, ?_, ?_, ?_, ?_, ?_⟩, ?_, ?_, ?_⟩
  all_goals try dsimp only
  · exact List.Nodup.cons hcurnc hinv.1.closed_nodup
  · intro c hcm
    rcases List.mem_cons.mp hcm with rfl | hcm
    · exact walkB_walkable g as mcur _ (hinv.1.g_walk _ mcur hgcur)
    · exact hinv.1.closed_walk c hcm
  · intro hagm
    rcases List.mem_cons.mp hagm with heq | hagm
    · exact hne heq.symm
    · exact hinv.1.goal_not_closed hagm
  · rw [(hrest.map HEntry.node).nodup_iff]
    exact hnd.of_cons
  · intro e' he'
    intro hmem
    rcases List.mem_cons.mp hmem with heq | hmem
    · have : e'.node ∈ t.map HEntry.node := by
        rw [← (hrest.map HEntry.node).mem_iff]
        exact List.mem_map.mpr ⟨e', he', rfl⟩
      rw [heq] at this
      exact (List.nodup_cons.mp hnd).1 this
    · exact hinv.1.open_not_closed e' (hnodes_sub e' he') hmem
  · exact hrh
  · intro e' he'
    exact hinv.1.heap_prio e' (hnodes_sub e' he')
  · exact hinv.1.g_walk
  · intro c hcm
    rcases List.mem_cons.mp hcm with rfl | hcm
    · exact ⟨mcur, hgcur, hexact⟩
    · exact hinv.1.g_closed_exact c hcm
  · exact hinv.1.g_start
  · intro v m hv
    rcases hinv.1.g_in v m hv with hcl | hop
    · exact Or.inl (List.mem_cons_of_mem _ hcl)
    · rw [hsnodes] at hop
      rcases List.mem_cons.mp hop with heq | hop
      · exact Or.inl (by rw [heq]; exact List.mem_cons_self _ _)
      · exact Or.inr ((hnodes v).mpr hop)
  · rcases hinv.1.start_avail with hcl | hop
    · exact Or.inl (List.mem_cons_of_mem _ hcl)
    · rw [hsnodes] at hop
      rcases List.mem_cons.mp hop with heq | hop
      · exact Or.inl (by rw [heq]; exact List.mem_cons_self _ _)
      · exact Or.inr ((hnodes as).mpr hop)
  · exact hinv.1.came_start
  · intro v u hv
    rcases hinv.1.came_link v u hv with ⟨hucl, hadj, k, hku, hkv⟩
    exact ⟨List.mem_cons_of_mem _ hucl, hadj, k, hku, hkv⟩
  · exact hinv.1.g_pos_came
  · exact List.mem_cons_self _ _
  · intro c hcm hcc d hd
    have hcm' : c ∈ s.closed := by
      rcases List.mem_cons.mp hcm with heq | hcm'
      · exact absurd heq hcc
      · exact hcm'
    have hold := hinv.2 c hcm' d hd
    unfold NbrOK at hold ⊢
    dsimp only
    intro hwalk
    rcases hold hwalk with hcl | ⟨hop, mc, mn, hgc', hgw', hle⟩
    · exact Or.inl (List.mem_cons_of_mem _ hcl)
    · rw [hsnodes] at hop
      rcases List.mem_cons.mp hop with heq | hop
      · exact Or.inl (by rw [heq]; exact List.mem_cons_self _ _)
      · exact Or.inr ⟨(hnodes _).mpr hop, mc, mn, hgc', hgw', hle⟩
  · intro d hd
    exact absurd hd (List.not_mem_nil d)

theorem astarStep_inv (g : Grid) (as ag : Cell) (s : AState) (e : HEntry)
    (t rest : List HEntry) (hs : s.openH = e :: t)
    (hrest : List.Perm rest t) (hrh : HeapProp rest)
    (hinv : AInv g as ag s) (hne : e.node ≠ ag)
    (hex : ∃ m, s.gScore e.node = some m ∧ ∀ k, walkB g as k e.node = true → m ≤ k) :
    AInv g as ag (astarStep g ag e.node { s with openH := rest }) ∧
      (astarStep g ag e.node { s with openH := rest }).closed = e.node :: s.closed := by
  have hmid := mid_init g as ag s e t rest hs hrest hrh hinv hne hex
  constructor
  · apply AInv_of_mid g as ag e.node
    unfold astarStep
    exact relax_foldl g as ag e.node neighborDirs [] _ rfl hmid
  · unfold astarStep
    rw [foldl_relax_closed]

theorem walkable_bounds (g : Grid) (x y : Int) (h : isTileWalkable g x y = true) :
    0 ≤ x ∧ x < (g.tilesX : Int) ∧ 0 ≤ y ∧ y < (g.tilesY : Int) := by
  unfold isTileWalkable at h
  split at h
  · exact absurd h (by simp)
  · next hcond =>
      simp only [Bool.or_eq_true, decide_eq_true_eq, not_or] at hcond
      omega

theorem closed_card_le (g : Grid) (l : List Cell) (hnd : l.Nodup)
    (hw : ∀ c ∈ l, isTileWalkable g c.1 c.2 = true) :
    l.length ≤ g.tilesX * g.tilesY := by
  have hinj : ∀ x ∈ l, ∀ y ∈ l,
      (x.1.toNat, x.2.toNat) = (y.1.toNat, y.2.toNat) → x = y := by
    intro x hx y hy hxy
    have hbx := walkable_bounds g x.1 x.2 (hw x hx)
    have hby := walkable_bounds g y.1 y.2 (hw y hy)
    simp only [Prod.mk.injEq] at hxy
    obtain ⟨x1, x2⟩ := x
    obtain ⟨y1, y2⟩ := y
    simp only [Prod.mk.injEq]
    simp only at hbx hby hxy
    omega
  have hmnd : (l.map fun c => (c.1.toNat, c.2.toNat)).Nodup :=
    List.Nodup.map_on hinj hnd
  have hsub : ∀ p ∈ l.map fun c => (c.1.toNat, c.2.toNat),
      p ∈ Finset.range g.tilesX ×ˢ Finset.range g.tilesY := by
    intro p hp
    rcases List.mem_map.mp hp with ⟨c, hc, hcp⟩
    have hb := walkable_bounds g c.1 c.2 (hw c hc)
    rw [← hcp]
    rw [Finset.mem_product, Finset.mem_range, Finset.mem_range]
    omega
  calc l.length = (l.map fun c => (c.1.toNat, c.2.toNat)).length :=
        (List.length_map _ _).symm
    _ = (l.map fun c => (c.1.toNat, c.2.toNat)).toFinset.card :=
        (List.toFinset_card_of_nodup hmnd).symm
    _ ≤ (Finset.range g.tilesX ×ˢ Finset.range g.tilesY).card := by
        apply Finset.card_le_card
        intro p hp
        exact hsub p (List.mem_toFinset.mp hp)
    _ = g.tilesX * g.tilesY := by
        rw [Finset.card_product, Finset.card_range, Finset.card_range]

theorem came_chain (g : Grid) (as ag : Cell) (s : AState) (hb : BaseInv g as ag s) :
    ∀ m v, s.gScore v = some m → ∃ cl : List Cell, cl.length = m ∧
      (∀ c ∈ cl, c ∈ s.closed) ∧
      (∀ i, i < cl.length → s.gScore (cl.getD i (0, 0)) = some i) := by
  intro m
  induction m with
  | zero =>
      intro v hv
      exact ⟨[], rfl, by simp, by simp⟩
  | succ k ih =>
      intro v hv
      obtain ⟨u, hu⟩ := hb.g_pos_came v (k + 1) hv (by omega)
      obtain ⟨hucl, hadj, k2, hku, hkv⟩ := hb.came_link v u hu
      have hk2 : k2 = k := by
        rw [hv] at hkv
        simpa using hkv.symm
      rw [hk2] at hku
      obtain ⟨cl, hlen, hmem, hget⟩ := ih u hku
      refine ⟨cl ++ [u], by simp [hlen], ?_, ?_⟩
      · intro c hc
        rcases List.mem_append.mp hc with hc | hc
        · exact hmem c hc
        · simp only [List.mem_singleton] at hc
          rw [hc]
          exact hucl
      · intro i hi
        simp only [List.length_append, List.length_cons, List.length_nil, hlen] at hi
        by_cases hik : i < k
        · rw [List.getD_eq_getElem _ _
            (by simp only [List.length_append, List.length_cons, List.length_nil, hlen]; omega),
            List.getElem_append_left (by omega)]
          rw [← List.getD_eq_getElem cl (0, 0) (by omega)]
          exact hget i (by omega)
        · have hik2 : i = k := by omega
          subst hik2
          rw [List.getD_eq_getElem _ _
            (by simp only [List.length_append, List.length_cons, List.length_nil, hlen]; omega),
            List.getElem_append_right (by omega)]
          rw [List.getElem_singleton]
          exact hku

theorem g_le_closed (g : Grid) (as ag : Cell) (s : AState) (hb : BaseInv g as ag s) :
    ∀ m v, s.gScore v = some m → m ≤ s.closed.length := by
  intro m v hv
  obtain ⟨cl, hlen, hmem, hget⟩ := came_chain g as ag s hb m v hv
  have hnd : cl.Nodup := by
    rw [List.nodup_iff_injective_getElem]
    intro i j hij
    dsimp only at hij
    have hi := hget i.1 i.2
    have hj := hget j.1 j.2
    rw [List.getD_eq_getElem _ _ i.2] at hi
    rw [List.getD_eq_getElem _ _ j.2] at hj
    rw [hij, hj] at hi
    have : i.1 = j.1 := by simpa using hi.symm
    exact Fin.ext this
  calc m = cl.length := hlen.symm
    _ = cl.toFinset.card := (List.toFinset_card_of_nodup hnd).symm
    _ ≤ s.closed.toFinset.card := by
        apply Finset.card_le_card
        intro c hc
        exact List.mem_toFinset.mpr (hmem c (List.mem_toFinset.mp hc))
    _ ≤ s.closed.length := List.toFinset_card_le _

theorem reconstruct_spec (g : Grid) (as ag : Cell) (s : AState) (hb : BaseInv g as ag s) :
    ∀ m v, s.gScore v = some m → ∀ fuel, m ≤ fuel →
      (reconstructPath s.cameFrom fuel v).length = m + 1 ∧
      (reconstructPath s.cameFrom fuel v).head? = some as ∧
      (reconstructPath s.cameFrom fuel v).getLast? = some v ∧
      List.Chain' adjacent (reconstructPath s.cameFrom fuel v) ∧
      ∀ c ∈ reconstructPath s.cameFrom fuel v, isTileWalkable g c.1 c.2 = true := by
  intro m
  induction m with
  | zero =>
      intro v hv fuel _
      have hva : v = as := by
        have := hb.g_walk v 0 hv
        exact ((walkB_zero_iff g as v).mp this).1
      have hwv : isTileWalkable g v.1 v.2 = true :=
        walkB_walkable g as 0 v (hb.g_walk v 0 hv)
      have hcf : s.cameFrom v = none := by
        rw [hva]
        exact hb.came_start
      have hres : reconstructPath s.cameFrom fuel v = [v] := by
        cases fuel with
        | zero => rfl
        | succ fl =>
            unfold reconstructPath
            rw [hcf]
      rw [hres]
      refine ⟨rfl, by rw [hva]; rfl, rfl, List.chain'_singleton v, ?_⟩
      intro c hc
      simp only [List.mem_singleton] at hc
      rw [hc]
      exact hwv
  | succ k ih =>
      intro v hv fuel hfuel
      obtain ⟨u, hu⟩ := hb.g_pos_came v (k + 1) hv (by omega)
      obtain ⟨hucl, hadj, k2, hku, hkv⟩ := hb.came_link v u hu
      have hk2 : k2 = k := by
        rw [hv] at hkv
        simpa using hkv.symm
      rw [hk2] at hku
      cases fuel with
      | zero => omega
      | succ fl =>
          have hres : reconstructPath s.cameFrom (fl + 1) v =
              reconstructPath s.cameFrom fl u ++ [v] := by
            conv_lhs => rw [reconstructPath]
            rw [hu]
          obtain ⟨hlen, hhead, hlast, hchain, hwalk⟩ := ih u hku fl (by omega)
          have hne : reconstructPath s.cameFrom fl u ≠ [] := by
            intro hnil
            rw [hnil] at hlen
            simp at hlen
          have hwv : isTileWalkable g v.1 v.2 = true :=
            walkB_walkable g as (k + 1) v (hb.g_walk v (k + 1) hv)
          rw [hres]
          refine ⟨by simp [hlen], ?_, ?_, ?_, ?_⟩
          · rcases hl : reconstructPath s.cameFrom fl u with _ | ⟨a, t⟩
            · exact absurd hl hne
            · rw [hl] at hhead
              simpa using hhead
          · simp
          · rw [List.chain'_append]
            refine ⟨hchain, List.chain'_singleton v, ?_⟩
            intro x hx y hy
            rw [hlast] at hx
            simp only [Option.mem_def, Option.some.injEq] at hx
            simp only [List.head?_cons, Option.mem_def, Option.some.injEq] at hy
            rw [← hx, ← hy]
            exact hadj
          · intro c hc
            rcases List.mem_append.mp hc with hc | hc
            · exact hwalk c hc
            · simp only [List.mem_singleton] at hc
              rw [hc]
              exact hwv

theorem astarLoop_succ (g : Grid) (ag : Cell) (recFuel fuel : Nat) (s : AState) :
    astarLoop g ag recFuel (fuel + 1) s =
      match extractMinH s.openH with
      | none => none
      | some (e, rest) =>
          if e.node = ag then some (reconstructPath s.cameFrom recFuel e.node)
          else astarLoop g ag recFuel fuel
            (astarStep g ag e.node { s with openH := rest }) := by
  conv_lhs => rw [astarLoop]

theorem astarLoop_correct (g : Grid) (as ag : Cell) (n : Nat) (recFuel : Nat)
    (hconn : walkB g as n ag = true)
    (hmin : ∀ k, walkB g as k ag = true → n ≤ k)
    (hrec : g.tilesX * g.tilesY ≤ recFuel) :
    ∀ fuel s, AInv g as ag s →
      g.tilesX * g.tilesY + 1 ≤ fuel + s.closed.length →
      ∃ p, astarLoop g ag recFuel fuel s = some p ∧
        p.length = n + 1 ∧ p.head? = some as ∧ p.getLast? = some ag ∧
        List.Chain' adjacent p ∧ ∀ c ∈ p, isTileWalkable g c.1 c.2 = true := by
  intro fuel
  induction fuel with
  | zero =>
      intro s hinv hcount
      exfalso
      have := closed_card_le g s.closed hinv.1.closed_nodup hinv.1.closed_walk
      omega
  | succ fuel ih =>
      intro s hinv hcount
      rcases frontier g as ag s hinv n ag hconn hinv.1.goal_not_closed with
        ⟨y, m, k, hy, hgy, hwk, hmk⟩
      rcases hsl : s.openH with _ | ⟨e, t⟩
      · exfalso
        rw [hsl] at hy
        simp at hy
      · have hhp : HeapProp (e :: t) := hsl ▸ hinv.1.heap_prop
        rcases extractMinH_spec e t hhp with ⟨rest, heq, hperm, hrh⟩
        have hex := root_exact g as ag s hinv e t hsl
        rw [astarLoop_succ, hsl, heq]
        dsimp only
        by_cases hgoal : e.node = ag
        · rw [if_pos hgoal]
          obtain ⟨m0, hg0, hmin0⟩ := hex
          have hmn : m0 = n := by
            have h1 : m0 ≤ n := hmin0 n (by rw [hgoal]; exact hconn)
            have h2 : n ≤ m0 := hmin m0 (by rw [← hgoal]; exact hinv.1.g_walk _ _ hg0)
            omega
          have hmrec : m0 ≤ recFuel := by
            have h1 := g_le_closed g as ag s hinv.1 m0 e.node hg0
            have h2 := closed_card_le g s.closed hinv.1.closed_nodup hinv.1.closed_walk
            omega
          obtain ⟨hlen, hhead, hlast, hchain, hwalk⟩ :=
            reconstruct_spec g as ag s hinv.1 m0 e.node hg0 recFuel hmrec
          refine ⟨_, rfl, ?_, hhead, ?_, hchain, hwalk⟩
          · rw [hlen, hmn]
          · rw [hlast, hgoal]
        · rw [if_neg hgoal]
          obtain ⟨hinv2, hclosed2⟩ :=
            astarStep_inv g as ag s e t rest hsl hperm hrh hinv hgoal hex
          have hcount2 : g.tilesX * g.tilesY + 1 ≤
              fuel + (astarStep g ag e.node { s with openH := rest }).closed.length := by
            rw [hclosed2]
            simp only [List.length_cons]
            omega
          exact ih (astarStep g ag e.node { s with openH := rest }) hinv2 hcount2

theorem AInv_init (g : Grid) (as ag : Cell)
    (hwas : isTileWalkable g as.1 as.2 = true) :
    AInv g as ag
      { openH := insertH [] ⟨as, heuristic as ag⟩
        closed := []
        cameFrom := fun _ => none
        gScore := mupd (fun _ => none) as 0
        fScore := mupd (fun _ => none) as (heuristic as ag) } := by
  have hopen : insertH [] ⟨as, heuristic as ag⟩ = [⟨as, heuristic as ag⟩] := rfl
  refine ⟨⟨?_, ?_, ?_, ?_, ?_, ?_, ?_, ?_, ?_, ?_, ?_, ?_, ?_, ?_, ?_⟩, ?_⟩
  all_goals try dsimp only
  · exact List.nodup_nil
  · intro c hc
    simp at hc
  · simp
  · rw [hopen]
    simp
  · intro e he
    simp
  · rw [hopen]
    intro i hi1 hi2
    simp at hi2
    omega
  · intro e he
    rw [hopen] at he
    simp only [List.mem_singleton] at he
    rw [he]
    exact ⟨0, mupd_self _ _ _, by simp⟩
  · intro v m hv
    by_cases hva : v = as
    · rw [hva, mupd_self] at hv
      have hm : m = 0 := by simpa using hv.symm
      rw [hva, hm, walkB_zero_iff]
      exact ⟨rfl, hwas⟩
    · rw [mupd_other _ _ _ _ hva] at hv
      exact absurd hv (by simp)
  · intro c hc
    simp at hc
  · exact mupd_self _ _ _
  · intro v m hv
    by_cases hva : v = as
    · right
      rw [hva, hopen]
      simp
    · rw [mupd_other _ _ _ _ hva] at hv
      exact absurd hv (by simp)
  · right
    rw [hopen]
    simp
  · intro v u hv
    exact absurd hv (by simp)
  · intro v m hv hm
    by_cases hva : v = as
    · rw [hva, mupd_self] at hv
      have : m = 0 := by simpa using hv.symm
      omega
    · rw [mupd_other _ _ _ _ hva] at hv
      exact absurd hv (by simp)
  · intro c hc
    simp at hc

/-- C1: whenever both the adjusted goal and the adjusted start resolve and
the two cells are connected by some walk, `findTilePath` returns a path of
4-adjacent walkable tiles from the adjusted start to the adjusted goal whose
tile count is exactly one more than the breadth-first-search shortest-walk
length. -/
theorem C1_theorem (g : Grid) (start goal as ag : Cell) (n : Nat)
    (hag : (if isTileWalkable g goal.1 goal.2 then some goal
      else findNearestWalkable g goal.1 goal.2 5) = some ag)
    (has : (if isTileWalkable g start.1 start.2 then some start
      else findNearestWalkable g start.1 start.2 5) = some as)
    (hconn : walkB g as n ag = true)
    (hmin : ∀ k, walkB g as k ag = true → n ≤ k) :
    ∃ p, findTilePath g start goal = some p ∧ p.length = n + 1 ∧
      p.head? = some as ∧ p.getLast? = some ag ∧
      List.Chain' adjacent p ∧ ∀ c ∈ p, isTileWalkable g c.1 c.2 = true := by
  have hwag : isTileWalkable g ag.1 ag.2 = true := walkB_walkable g as n ag hconn
  have hwas : isTileWalkable g as.1 as.2 = true := walkB_start_walkable g as n ag hconn
  have hstep : findTilePath g start goal =
      (if as = ag then some [ag]
        else astarLoop g ag (g.tilesX * g.tilesY * 2) (g.tilesX * g.tilesY * 2)
          { openH := insertH [] ⟨as, heuristic as ag⟩
            closed := []
            cameFrom := fun _ => none
            gScore := mupd (fun _ => none) as 0
            fScore := mupd (fun _ => none) as (heuristic as ag) }) := by
    simp only [findTilePath]
    rw [hag]
    dsimp only
    rw [has]
  by_cases hsame : as = ag
  · rw [hstep, if_pos hsame]
    have h0 : walkB g as 0 ag = true := by
      rw [walkB_zero_iff]
      exact ⟨hsame.symm, hwag⟩
    have hn0 : n = 0 := by
      have := hmin 0 h0
      omega
    refine ⟨[ag], rfl, by simp [hn0], by rw [hsame]; rfl, rfl, List.chain'_singleton ag, ?_⟩
    intro c hc
    simp only [List.mem_singleton] at hc
    rw [hc]
    exact hwag
  · rw [hstep, if_neg hsame]
    have hbnd := walkable_bounds g as.1 as.2 hwas
    have harea : 1 ≤ g.tilesX * g.tilesY := by
      have hx : 0 < g.tilesX := by omega
      have hy : 0 < g.tilesY := by omega
      exact Nat.mul_pos hx hy
    apply astarLoop_correct g as ag n (g.tilesX * g.tilesY * 2) hconn hmin (by omega)
    · exact AInv_init g as ag hwas
    · simp only [List.length_nil]
      omega

/-! ## Pixel coordinates, zones, and coordinate conversion (`mapData.js`) -/

/-- A pixel-space point (JS `{x, y}` with fractional coordinates). -/
structure Point where
  x : Rat
  y : Rat
deriving DecidableEq

instance : Inhabited Point := ⟨⟨0, 0⟩⟩

/-- A map zone as loaded from the map JSON. -/
structure Zone where
  id : String
  x : Rat
  y : Rat
  width : Rat
  height : Rat
  centerX : Rat
  centerY : Rat
  facing : Option String
deriving DecidableEq

instance : Inhabited Zone := ⟨⟨"", 0, 0, 0, 0, 0, 0, none⟩⟩

/-- The loaded map data the core reads: collision grid, tile pixel size, and
the four zone category lists. -/
structure MapEnv where
  grid : Grid
  tileWidth : Rat
  tileHeight : Rat
  workstations : List Zone
  planningZones : List Zone
  thinkingZones : List Zone
  idleZones : List Zone

/-- `pixelToTile`: floor division by the tile size. -/
def pixelToTile (env : MapEnv) (px py : Rat) : Cell :=
  (⌊px / env.tileWidth⌋, ⌊py / env.tileHeight⌋)

/-- `tileToPixel`: the centre of the tile. -/
def tileToPixel (env : MapEnv) (t : Cell) : Point :=
  ⟨(t.1 : Rat) * env.tileWidth + env.tileWidth / 2,
   (t.2 : Rat) * env.tileHeight + env.tileHeight / 2⟩

/-- `getZonesByType`. -/
def getZonesByType (env : MapEnv) (ty : String) : List Zone :=
  if ty = "workstations" then env.workstations
  else if ty = "planningZones" then env.planningZones
  else if ty = "thinkingZones" then env.thinkingZones
  else if ty = "idleZones" then env.idleZones
  else []

/-- `getZonesForState`: CODING, PLANNING, THINKING, IDLE map to the four
zone categories; anything else yields the empty list. -/
def getZonesForState (env : MapEnv) (state : String) : List Zone :=
  if state = "CODING" then getZonesByType env "workstations"
  else if state = "PLANNING" then getZonesByType env "planningZones"
  else if state = "THINKING" then getZonesByType env "thinkingZones"
  else if state = "IDLE" then getZonesByType env "idleZones"
  else []

/-- `getZoneById`: search all four categories in order. -/
def getZoneById (env : MapEnv) (id : String) : Option Zone :=
  (env.workstations ++ env.planningZones ++ env.thinkingZones ++ env.idleZones).find?
    fun z => z.id = id

/-- `getRandomPointInZone` with the default 8px padding; consumes two random
samples (x first, then y). -/
def getRandomPointInZone (z : Zone) (padding : Rat) (rng : Nat → Rat) (ctr : Nat) : Point :=
  ⟨z.x + padding + rng ctr * (z.width - padding * 2),
   z.y + padding + rng (ctr + 1) * (z.height - padding * 2)⟩

/-! ## `findPath`, Bresenham line of sight, and `smoothPath`
(`pathfinding.js`) -/

/-- `findPath`: convert pixels to tiles, search, convert the tile path back
to tile-centre pixel waypoints. -/
def findPath (env : MapEnv) (startX startY goalX goalY : Rat) : Option (List Point) :=
  match findTilePath env.grid (pixelToTile env startX startY) (pixelToTile env goalX goalY) with
  | none => none
  | some tilePath => some (tilePath.map fun t => tileToPixel env t)

/-- One step of the Bresenham error update of `getLineTiles`. -/
def bresStep (dx dy : Int) (sx sy : Int) (x y err : Int) : Int × Int × Int :=
  let e2 := 2 * err
  let (err1, x1) := if e2 > -dy then (err - dy, x + sx) else (err, x)
  let (err2, y1) := if e2 < dx then (err1 + dx, y + sy) else (err1, y)
  (x1, y1, err2)

/-- The fuelled `while (true)` loop of `getLineTiles`; each iteration pushes
the current tile and steps, stopping at the end tile. -/
def lineLoop (dx dy sx sy : Int) (x1 y1 : Int) : Nat → Int → Int → Int → List Cell
  | 0, x, y, _ => [(x, y)]
  | fuel + 1, x, y, err =>
      if x = x1 ∧ y = y1 then [(x, y)]
      else
        let s := bresStep dx dy sx sy x y err
        (x, y) :: lineLoop dx dy sx sy x1 y1 fuel s.1 s.2.1 s.2.2

/-- `getLineTiles`: Bresenham rasterisation from `(x0, y0)` to `(x1, y1)`.
The loop performs at most `|dx| + |dy|` steps before reaching the end tile,
so that bound (plus one) is used as fuel. -/
def getLineTiles (x0 y0 x1 y1 : Int) : List Cell :=
  let dx := (x1 - x0).natAbs
  let dy := (y1 - y0).natAbs
  let sx : Int := if x0 < x1 then 1 else -1
  let sy : Int := if y0 < y1 then 1 else -1
  lineLoop dx dy sx sy x1 y1 (dx + dy) x0 y0 ((dx : Int) - (dy : Int))

/-- `hasLineOfSight`: every tile on the Bresenham line between the two pixel
points is walkable. -/
def hasLineOfSight (env : MapEnv) (a b : Point) : Bool :=
  let ta := pixelToTile env a.x a.y
  let tb := pixelToTile env b.x b.y
  (getLineTiles ta.1 ta.2 tb.1 tb.2).all fun t => isTileWalkable env.grid t.1 t.2

/-- The inner `for` scan of `smoothPath`: the last index `i` in
`[current+2, path.length)` with line of sight from `path[current]`,
defaulting to `current + 1`. -/
def findFurthest (env : MapEnv) (p : List Point) (current : Nat) : Nat :=
  (List.range' (current + 2) (p.length - (current + 2))).foldl
    (fun acc i => if hasLineOfSight env (p.getD current default) (p.getD i default) then i else acc)
    (current + 1)

theorem findFurthest_lb (env : MapEnv) (p : List Point) (current : Nat) :
    current + 1 ≤ findFurthest env p current := by
  unfold findFurthest
  have : ∀ (l : List Nat) (a : Nat), (∀ i ∈ l, current + 1 ≤ i) → current + 1 ≤ a →
      current + 1 ≤ l.foldl
        (fun acc i => if hasLineOfSight env (p.getD current default) (p.getD i default) then i else acc) a := by
    intro l
    induction l with
    | nil => intro a _ ha; exact ha
    | cons hd tl ih =>
        intro a hmem ha
        simp only [List.foldl_cons]
        apply ih
        · intro i hi; exact hmem i (List.mem_cons_of_mem _ hi)
        · split
          · exact hmem hd (List.mem_cons_self _ _)
          · exact ha
  apply this
  · intro i hi
    have := List.mem_range'_1.mp hi
    omega
  · omega

theorem findFurthest_ub (env : MapEnv) (p : List Point) (current : Nat)
    (h : current + 2 ≤ p.length) : findFurthest env p current ≤ p.length - 1 := by
  unfold findFurthest
  have : ∀ (l : List Nat) (a : Nat), (∀ i ∈ l, i ≤ p.length - 1) → a ≤ p.length - 1 →
      l.foldl
        (fun acc i => if hasLineOfSight env (p.getD current default) (p.getD i default) then i else acc) a
        ≤ p.length - 1 := by
    intro l
    induction l with
    | nil => intro a _ ha; exact ha
    | cons hd tl ih =>
        intro a hmem ha
        simp only [List.foldl_cons]
        apply ih
        · intro i hi; exact hmem i (List.mem_cons_of_mem _ hi)
        · split
          · exact hmem hd (List.mem_cons_self _ _)
          · exact ha
  apply this
  · intro i hi
    have := List.mem_range'_1.mp hi
    omega
  · omega

/-- The outer `while (current < path.length - 1)` loop of `smoothPath`,
emitting the waypoints after the anchor. -/
def smoothAux (env : MapEnv) (p : List Point) (current : Nat) : List Point :=
  if h : current + 1 < p.length then
    p.getD (findFurthest env p current) default :: smoothAux env p (findFurthest env p current)
  else []
termination_by p.length - current
decreasing_by
  have := findFurthest_lb env p current
  omega

/-- `smoothPath`: paths shorter than 3 are returned unchanged; otherwise the
greedy line-of-sight scan starting from `path[0]`. -/
def smoothPath (env : MapEnv) (p : List Point) : List Point :=
  if p.length < 3 then p
  else p.getD 0 default :: smoothAux env p 0

/-- Tile centres map back to their tile: `pixelToTile` inverts `tileToPixel`
when the tile dimensions are positive. -/

theorem pixelToTile_tileToPixel (env : MapEnv) (hw : 0 < env.tileWidth)
    (hh : 0 < env.tileHeight) (t : Cell) :
    pixelToTile env (tileToPixel env t).x (tileToPixel env t).y = t := by
  unfold pixelToTile tileToPixel
  dsimp only
  have hw' : env.tileWidth ≠ 0 := hw.ne'
  have hh' : env.tileHeight ≠ 0 := hh.ne'
  have hx : ((t.1 : Rat) * env.tileWidth + env.tileWidth / 2) / env.tileWidth
      = (t.1 : Rat) + 1 / 2 := by
    field_simp
    ring
  have hy : ((t.2 : Rat) * env.tileHeight + env.tileHeight / 2) / env.tileHeight
      = (t.2 : Rat) + 1 / 2 := by
    field_simp
    ring
  rw [hx, hy]
  have hfloor : ∀ z : Int, ⌊(z : Rat) + 1 / 2⌋ = z := by
    intro z
    rw [Int.floor_eq_iff]
    constructor
    · push_cast; linarith
    · push_cast; linarith
  rw [hfloor, hfloor]

theorem getLineTiles_right (x y : Int) :
    getLineTiles x y (x + 1) y = [(x, y), (x + 1, y)] := by
  have h1 : x + 1 - x = 1 := by ring
  have h2 : y - y = 0 := by ring
  simp only [getLineTiles, h1, h2, Int.natAbs_one, Int.natAbs_zero,
    if_pos (show x < x + 1 by omega), if_neg (lt_irrefl y)]
  norm_num
  simp only [lineLoop, bresStep]
  norm_num

theorem getLineTiles_left (x y : Int) :
    getLineTiles x y (x - 1) y = [(x, y), (x - 1, y)] := by
  have h1 : x - 1 - x = -1 := by ring
  have h2 : y - y = 0 := by ring
  simp only [getLineTiles, h1, h2, Int.natAbs_neg, Int.natAbs_one, Int.natAbs_zero,
    if_neg (show ¬(x < x - 1) by omega), if_neg (lt_irrefl y)]
  norm_num
  simp only [lineLoop, bresStep]
  norm_num
  rw [if_neg (show ¬(x = x - 1) by omega)]
  simp only [List.cons.injEq, Prod.mk.injEq, and_true, true_and]
  ring

theorem getLineTiles_down (x y : Int) :
    getLineTiles x y x (y + 1) = [(x, y), (x, y + 1)] := by
  have h1 : x - x = 0 := by ring
  have h2 : y + 1 - y = 1 := by ring
  simp only [getLineTiles, h1, h2, Int.natAbs_one, Int.natAbs_zero,
    if_neg (lt_irrefl x), if_pos (show y < y + 1 by omega)]
  norm_num
  simp only [lineLoop, bresStep]
  norm_num

theorem getLineTiles_up (x y : Int) :
    getLineTiles x y x (y - 1) = [(x, y), (x, y - 1)] := by
  have h1 : x - x = 0 := by ring
  have h2 : y - 1 - y = -1 := by ring
  simp only [getLineTiles, h1, h2, Int.natAbs_neg, Int.natAbs_one, Int.natAbs_zero,
    if_neg (lt_irrefl x), if_neg (show ¬(y < y - 1) by omega)]
  norm_num
  simp only [lineLoop, bresStep]
  norm_num
  rw [if_neg (show ¬(y = y - 1) by omega)]
  simp only [List.cons.injEq, Prod.mk.injEq, and_true, true_and]
  ring

theorem getLineTiles_adjacent (a b : Cell) (h : adjacent a b) :
    getLineTiles a.1 a.2 b.1 b.2 = [a, b] := by
  obtain ⟨ax, ay⟩ := a
  obtain ⟨bx, b2⟩ := b
  unfold adjacent at h
  simp only at h ⊢
  rcases (show (bx = ax + 1 ∧ b2 = ay) ∨ (bx = ax - 1 ∧ b2 = ay) ∨
      (bx = ax ∧ b2 = ay + 1) ∨ (bx = ax ∧ b2 = ay - 1) by omega) with
    ⟨hb1, hb2⟩ | ⟨hb1, hb2⟩ | ⟨hb1, hb2⟩ | ⟨hb1, hb2⟩ <;> rw [hb1, hb2]
  · exact getLineTiles_right ax ay
  · exact getLineTiles_left ax ay
  · exact getLineTiles_down ax ay
  · exact getLineTiles_up ax ay

theorem hasLineOfSight_adjacent (env : MapEnv) (hw : 0 < env.tileWidth)
    (hh : 0 < env.tileHeight) (a b : Cell) (hadj : adjacent a b)
    (ha : isTileWalkable env.grid a.1 a.2 = true)
    (hb : isTileWalkable env.grid b.1 b.2 = true) :
    hasLineOfSight env (tileToPixel env a) (tileToPixel env b) = true := by
  simp only [hasLineOfSight]
  rw [pixelToTile_tileToPixel env hw hh a, pixelToTile_tileToPixel env hw hh b]
  rw [getLineTiles_adjacent a b hadj]
  simp [ha, hb]

theorem findFurthest_los (env : MapEnv) (p : List Point) (current : Nat) :
    findFurthest env p current = current + 1 ∨
      hasLineOfSight env (p.getD current default)
        (p.getD (findFurthest env p current) default) = true := by
  unfold findFurthest
  have : ∀ (l : List Nat) (a : Nat),
      (a = current + 1 ∨
        hasLineOfSight env (p.getD current default) (p.getD a default) = true) →
      (l.foldl (fun acc i =>
          if hasLineOfSight env (p.getD current default) (p.getD i default) then i else acc) a
        = current + 1 ∨
        hasLineOfSight env (p.getD current default)
          (p.getD (l.foldl (fun acc i =>
            if hasLineOfSight env (p.getD current default) (p.getD i default) then i else acc) a)
            default) = true) := by
    intro l
    induction l with
    | nil => intro a ha; exact ha
    | cons hd tl ih =>
        intro a ha
        simp only [List.foldl_cons]
        apply ih
        by_cases hlos : hasLineOfSight env (p.getD current default) (p.getD hd default) = true
        · rw [if_pos hlos]; exact Or.inr hlos
        · rw [if_neg hlos]; exact ha
  exact this _ _ (Or.inl rfl)

theorem smoothAux_chain (env : MapEnv) (p : List Point)
    (H : ∀ i, i + 1 < p.length →
      hasLineOfSight env (p.getD i default) (p.getD (i + 1) default) = true) :
    ∀ n current, p.length - current ≤ n →
      List.Chain (fun a b => hasLineOfSight env a b = true)
        (p.getD current default) (smoothAux env p current) := by
  intro n
  induction n with
  | zero =>
      intro current hc
      rw [smoothAux, dif_neg (by omega : ¬(current + 1 < p.length))]
      exact List.Chain.nil
  | succ n ih =>
      intro current hc
      rw [smoothAux]
      by_cases h : current + 1 < p.length
      · rw [dif_pos h]
        refine List.Chain.cons ?_ ?_
        · rcases findFurthest_los env p current with he | hlos
          · rw [he]; exact H current h
          · exact hlos
        · apply ih
          have := findFurthest_lb env p current
          omega
      · rw [dif_neg h]
        exact List.Chain.nil

theorem smoothAux_getLast (env : MapEnv) (p : List Point) :
    ∀ n current, p.length - current ≤ n → current < p.length →
      (p.getD current default :: smoothAux env p current).getLast? =
        some (p.getD (p.length - 1) default) := by
  intro n
  induction n with
  | zero => intro current hc hlt; omega
  | succ n ih =>
      intro current hc hlt
      rw [smoothAux]
      by_cases h : current + 1 < p.length
      · rw [dif_pos h, List.getLast?_cons_cons]
        have hub := findFurthest_ub env p current (by omega)
        have hlb := findFurthest_lb env p current
        exact ih (findFurthest env p current) (by omega) (by omega)
      · rw [dif_neg h]
        have : current = p.length - 1 := by omega
        rw [this]
        simp

theorem smoothAux_length (env : MapEnv) (p : List Point) :
    ∀ n current, p.length - current ≤ n →
      (smoothAux env p current).length ≤ p.length - (current + 1) := by
  intro n
  induction n with
  | zero =>
      intro current hc
      rw [smoothAux, dif_neg (by omega : ¬(current + 1 < p.length))]
      simp
  | succ n ih =>
      intro current hc
      rw [smoothAux]
      by_cases h : current + 1 < p.length
      · rw [dif_pos h]
        have hub := findFurthest_ub env p current (by omega)
        have hlb := findFurthest_lb env p current
        have := ih (findFurthest env p current) (by omega)
        simp only [List.length_cons]
        omega
      · rw [dif_neg h]
        simp

theorem getLast?_eq_getD (p : List Point) (h : p ≠ []) :
    p.getLast? = some (p.getD (p.length - 1) default) := by
  have hl : p.length - 1 < p.length := by
    cases p
    · simp at h
    · simp
  rw [List.getLast?_eq_getElem?, List.getElem?_eq_getElem hl, List.getD_eq_getElem _ _ hl]

/-- `getDirection`: dominant-axis cardinal direction, ties vertical. -/
def getDirection (fromX fromY toX toY : Rat) : String :=
  let dx := toX - fromX
  let dy := toY - fromY
  if |dx| > |dy| then (if dx > 0 then "right" else "left")
  else (if dy > 0 then "down" else "up")

/-- `facingToDirection`. -/
def facingToDirection (facing : Option String) : Option String :=
  if facing = some "away" then some "up"
  else if facing = some "toward" then some "down"
  else none

/-! ## Workstation assignment tables (`state.js`)

`zoneAssignments : Map zoneId -> entityId` and
`entityZoneMap : Map "entityId:zoneType" -> zoneId` as association lists with
JS `Map` semantics (`set` replaces in place, `delete` removes the key). -/

/-- `Map.get`. -/
def lookupA (l : List (String × String)) (k : String) : Option String :=
  (l.find? fun p => p.1 = k).map fun p => p.2

/-- `Map.set`: replace the key in place if present, else append. -/
def setA : List (String × String) → String → String → List (String × String)
  | [], k, v => [(k, v)]
  | p :: t, k, v => if p.1 = k then (k, v) :: t else p :: setA t k v

/-- `Map.delete`. -/
def eraseA : List (String × String) → String → List (String × String)
  | [], _ => []
  | p :: t, k => if p.1 = k then t else p :: eraseA t k

/-- The two shared assignment tables. -/
structure WState where
  zoneAssignments : List (String × String)
  entityZoneMap : List (String × String)
deriving DecidableEq

/-- The empty tables (module initialisation). -/
def WState.init : WState := ⟨[], []⟩

/-- `getAssignedZone`: look the zone id up in `entityZoneMap` and resolve it
against the current zone list of that type. -/
def getAssignedZone (env : MapEnv) (s : WState) (entityId zoneType : String) : Option Zone :=
  match lookupA s.entityZoneMap (entityId ++ ":" ++ zoneType) with
  | none => none
  | some zoneId => (getZonesByType env zoneType).find? fun z => z.id = zoneId

/-- `getEntityWorkstation`. -/
def getEntityWorkstation (env : MapEnv) (s : WState) (entityId : String) : Option Zone :=
  getAssignedZone env s entityId "workstations"

/-- The `for (const workstation of workstations)` scan of
`assignWorkstation`: claim the first unassigned workstation. -/
def assignScan (s : WState) (entityId : String) : List Zone → Option Zone × WState
  | [] => (none, s)
  | w :: t =>
      if (lookupA s.zoneAssignments w.id).isNone then
        (some w,
         { zoneAssignments := setA s.zoneAssignments w.id entityId
           entityZoneMap := setA s.entityZoneMap (entityId ++ ":" ++ "workstations") w.id })
      else assignScan s entityId t

/-- `assignWorkstation`: return the existing assignment if any, else claim
the first available workstation (zone-list order); `none` if all taken. -/
def assignWorkstation (env : MapEnv) (s : WState) (entityId : String) : Option Zone × WState :=
  match getAssignedZone env s entityId "workstations" with
  | some z => (some z, s)
  | none => assignScan s entityId (getZonesByType env "workstations")

/-- `releaseWorkstation`: drop both directions of the assignment, if any. -/
def releaseWorkstation (s : WState) (entityId : String) : WState :=
  match lookupA s.entityZoneMap (entityId ++ ":" ++ "workstations") with
  | none => s
  | some zoneId =>
      { zoneAssignments := eraseA s.zoneAssignments zoneId
        entityZoneMap := eraseA s.entityZoneMap (entityId ++ ":" ++ "workstations") }

/-- `isZoneOccupied`. -/
def isZoneOccupied (s : WState) (zoneId : String) : Bool :=
  (lookupA s.zoneAssignments zoneId).isSome

/-- `clearEntityAssignments`: delete every `entityZoneMap` key starting with
`"entityId:"`, and the `zoneAssignments` entry for each of their values. -/
def clearEntityAssignments (s : WState) (entityId : String) : WState :=
  let matched := s.entityZoneMap.filter fun p => p.1.startsWith (entityId ++ ":")
  { zoneAssignments := matched.foldl (fun za p => eraseA za p.2) s.zoneAssignments
    entityZoneMap := s.entityZoneMap.filter fun p => !(p.1.startsWith (entityId ++ ":")) }

/-! ## Configuration constants (`config.js`) -/

def MOVE_SPEED : Rat := 150
def MIN_STATE_DISPLAY_MS : Rat := 4000
def PATH_ARRIVAL_THRESHOLD : Rat := 4
def WANDER_MIN_DELAY_MS : Rat := 3000
def WANDER_MAX_DELAY_MS : Rat := 6000

/-! ## The agent record and the state queue (`entities/*.js`)

Fields not read or written by the embedded operations (appearance, colour,
animation counters, spawn time, the server-truth `state` field) are omitted;
every embedded operation leaves them untouched in the source. -/

/-- A queued state request (`{state, queuedAt}`). -/
structure QEntry where
  state : String
  queuedAt : Rat
deriving DecidableEq

/-- The per-agent mutable record created by `createEntity`. -/
structure Entity where
  id : String
  x : Rat
  y : Rat
  visualState : Option String
  targetState : Option String
  stateQueue : List QEntry
  path : List Point
  pathIndex : Nat
  targetZone : Option Zone
  isMoving : Bool
  direction : String
  currentSpeed : Rat
  wanderZone : Option Zone
  nextWanderTime : Rat
  currentStateStartTime : Rat
deriving DecidableEq

/-- `queueStateChange`: append `{state, queuedAt: now}`. -/
def queueStateChange (e : Entity) (newState : String) (now : Rat) : Entity :=
  { e with stateQueue := e.stateQueue ++ [⟨newState, now⟩] }

/-- The `while` loop of `processStateQueue` that collapses the run of equal
states at the front of the queue (`shift` while the first two entries agree). -/
def collapseFront : List QEntry → List QEntry
  | a :: b :: t => if a.state = b.state then collapseFront (b :: t) else a :: b :: t
  | l => l

/-- `getTargetZone`: CODING resolves through the workstation tables; the
other states pick a random zone of the category (THINKING/IDLE additionally
pick a random in-zone point that replaces the zone centre).  Returns the
resolved zone, the updated tables, and the advanced random cursor. -/
def getTargetZone (env : MapEnv) (ws : WState) (e : Entity) (state : String)
    (rng : Nat → Rat) (ctr : Nat) : Option Zone × WState × Nat :=
  if state = "CODING" then
    match getEntityWorkstation env ws e.id with
    | some z => (some z, ws, ctr)
    | none =>
        let (z?, ws') := assignWorkstation env ws e.id
        (z?, ws', ctr)
  else
    let zones := getZonesForState env state
    if zones.length = 0 then (none, ws, ctr)
    else if state = "THINKING" ∨ state = "IDLE" then
      let zone := zones.getD (⌊rng ctr * zones.length⌋).toNat default
      let p := getRandomPointInZone zone 8 rng (ctr + 1)
      (some { zone with centerX := p.x, centerY := p.y }, ws, ctr + 3)
    else
      (some (zones.getD (⌊rng ctr * zones.length⌋).toNat default), ws, ctr + 1)

/-- The endpoint-precision step shared by `processStateQueue` and
`updateWandering`: smooth the found path and append the exact target pixel
when the smoothed path does not already end there. -/
def smoothWithEndpoint (env : MapEnv) (p : List Point) (target : Point) : List Point :=
  let sp := smoothPath env p
  match sp.getLast? with
  | none => sp
  | some lw => if lw.x ≠ target.x ∨ lw.y ≠ target.y then sp ++ [target] else sp

/-- `processStateQueue`: guards (moving, minimum display time, empty queue),
front-run collapse, pop, silent discard of the current state, workstation
release on leaving CODING, zone resolution with requeue-at-front on failure,
and path installation (with a direct single-waypoint fallback when the
pathfinder fails). -/
def processStateQueue (env : MapEnv) (ws : WState) (e : Entity) (now : Rat)
    (rng : Nat → Rat) (ctr : Nat) : Entity × WState × Nat :=
  if e.isMoving then (e, ws, ctr)
  else if e.currentStateStartTime ≠ 0 ∧
      now - e.currentStateStartTime < MIN_STATE_DISPLAY_MS ∧ e.stateQueue ≠ [] then
    (e, ws, ctr)
  else if e.stateQueue = [] then (e, ws, ctr)
  else
    match collapseFront e.stateQueue with
    | [] => (e, ws, ctr)  -- unreachable: the collapse of a non-empty queue is non-empty
    | info :: rest =>
        let nextState := info.state
        let e1 := { e with stateQueue := rest }
        if e.visualState = some nextState ∧ e.isMoving = false then (e1, ws, ctr)
        else
          let ws1 := if e.visualState = some "CODING" ∧ nextState ≠ "CODING"
                     then releaseWorkstation ws e.id else ws
          match getTargetZone env ws1 e1 nextState rng ctr with
          | (none, ws2, ctr2) =>
              ({ e1 with stateQueue := info :: rest }, ws2, ctr2)
          | (some tz, ws2, ctr2) =>
              let target : Point := ⟨tz.centerX, tz.centerY⟩
              let newPath :=
                match findPath env e.x e.y tz.centerX tz.centerY with
                | none => [target]
                | some p => if p.length = 0 then [target] else smoothWithEndpoint env p target
              ({ e1 with
                  path := newPath
                  pathIndex := 0
                  targetState := some nextState
                  targetZone := some tz
                  isMoving := true
                  currentSpeed := MOVE_SPEED }, ws2, ctr2)

/-- `scheduleNextWander`: next wander in a uniformly random
[`WANDER_MIN_DELAY_MS`, `WANDER_MAX_DELAY_MS`) interval from now. -/
def scheduleNextWander (e : Entity) (now : Rat) (rng : Nat → Rat) (ctr : Nat) : Entity × Nat :=
  ({ e with nextWanderTime :=
      now + (WANDER_MIN_DELAY_MS + rng ctr * (WANDER_MAX_DELAY_MS - WANDER_MIN_DELAY_MS)) },
   ctr + 1)

/-- The shared tail of `updateWandering` (lines 50-70): pick a random point
in the chosen zone, pathfind with smoothing and endpoint precision, install
the path when it has more than one waypoint, and always reschedule. -/
def wanderTail (env : MapEnv) (e : Entity) (zone : Zone) (now : Rat)
    (rng : Nat → Rat) (ctr : Nat) : Entity × Nat :=
  let targetPoint := getRandomPointInZone zone 8 rng ctr
  let e1 :=
    match findPath env e.x e.y targetPoint.x targetPoint.y with
    | none => e
    | some p =>
        if 1 < p.length then
          { e with
              path := smoothWithEndpoint env p targetPoint
              pathIndex := 0
              targetZone := some { zone with centerX := targetPoint.x, centerY := targetPoint.y }
              targetState := e.visualState
              isMoving := true }
        else e
  scheduleNextWander e1 now rng (ctr + 2)

/-- `updateWandering`: no wandering outside THINKING/IDLE (resets speed and
wander zone), a no-op until `nextWanderTime`, an early return when the zone
category is empty, zone selection per state, then the shared tail. -/
def updateWandering (env : MapEnv) (e : Entity) (now : Rat)
    (rng : Nat → Rat) (ctr : Nat) : Entity × Nat :=
  if e.visualState ≠ some "THINKING" ∧ e.visualState ≠ some "IDLE" then
    ({ e with wanderZone := none, currentSpeed := MOVE_SPEED }, ctr)
  else if now < e.nextWanderTime then (e, ctr)
  else
    let zones := getZonesForState env (e.visualState.getD "")
    if zones.length = 0 then (e, ctr)
    else if e.visualState = some "IDLE" then
      let zone := zones.getD (⌊rng ctr * zones.length⌋).toNat default
      let e1 := { e with currentSpeed := MOVE_SPEED * (4/10 + rng (ctr + 1) * (4/10)) }
      wanderTail env e1 zone now rng (ctr + 2)
    else
      match e.wanderZone with
      | some z => wanderTail env { e with currentSpeed := MOVE_SPEED } z now rng ctr
      | none =>
          match zones.find? (fun z =>
              decide (z.x ≤ e.x) && decide (e.x ≤ z.x + z.width) &&
              decide (z.y ≤ e.y) && decide (e.y ≤ z.y + z.height)) with
          | some z =>
              wanderTail env { e with wanderZone := some z, currentSpeed := MOVE_SPEED } z now rng ctr
          | none =>
              let z := zones.getD (⌊rng ctr * zones.length⌋).toNat default
              wanderTail env { e with wanderZone := some z, currentSpeed := MOVE_SPEED } z now rng
                (ctr + 1)

/-- `arriveAtDestination`: snap to the target zone's exact point (else the
path's final point), stop, promote `targetState` to `visualState`, restart
the display-time clock, apply zone facing, set up or clear wandering, and
clear the path fields. -/
def arriveAtDestination (env : MapEnv) (e : Entity) (now : Rat)
    (rng : Nat → Rat) (ctr : Nat) : Entity × Nat :=
  let e1 :=
    match e.targetZone with
    | some z => { e with x := z.centerX, y := z.centerY }
    | none =>
        match e.path.getLast? with
        | some p => { e with x := p.x, y := p.y }
        | none => e
  let e2 := { e1 with
                isMoving := false
                visualState := e.targetState
                currentStateStartTime := now }
  let e3 :=
    match e.targetZone with
    | some z =>
        match z.facing with
        | some f =>
            match facingToDirection (some f) with
            | some d => { e2 with direction := d }
            | none => e2
        | none => e2
    | none => e2
  let (e4, ctr4) :=
    if e3.visualState = some "THINKING" ∨ e3.visualState = some "IDLE" then
      let e4a :=
        match e.targetZone with
        | some z => { e3 with wanderZone := ((getZoneById env z.id).orElse (fun _ => some z)) }
        | none => e3
      ({ e4a with nextWanderTime :=
          now + (WANDER_MIN_DELAY_MS + rng ctr * (WANDER_MAX_DELAY_MS - WANDER_MIN_DELAY_MS)) },
       ctr + 1)
    else ({ e3 with wanderZone := none }, ctr)
  ({ e4 with path := [], pathIndex := 0, targetState := none, targetZone := none }, ctr4)

/-! ## Concrete fixtures used by witnesses and counterexamples -/

/-- A 1-tile map whose only tile is blocked, with no zones. -/
def envTriv : MapEnv :=
  { grid := ⟨1, 1, fun _ _ => true⟩
    tileWidth := 48
    tileHeight := 48
    workstations := []
    planningZones := []
    thinkingZones := []
    idleZones := [] }

/-- A planning zone fixture. -/
def zoneP : Zone := ⟨"plan1", 100, 100, 50, 50, 125, 125, none⟩

/-- A 1-tile blocked map that does carry one planning zone, so that zone
resolution succeeds while pathfinding cannot. -/
def envBlocked : MapEnv := { envTriv with planningZones := [zoneP] }

/-- A constant-zero random stream. -/
def rng0 : Nat → Rat := fun _ => 0

/-- A baseline settled agent in THINKING. -/
def entA : Entity :=
  { id := "e1", x := 0, y := 0
    visualState := some "THINKING", targetState := none
    stateQueue := [], path := [], pathIndex := 0, targetZone := none
    isMoving := false, direction := "down", currentSpeed := 150
    wanderZone := none, nextWanderTime := 0, currentStateStartTime := 5 }

/-! ## Basic facts about the queue collapse -/

theorem collapseFront_eq_nil {q : List QEntry} (h : collapseFront q = []) : q = [] := by
  induction q with
  | nil => rfl
  | cons a t ih =>
      cases t with
      | nil => simp [collapseFront] at h
      | cons b t' =>
          rw [collapseFront] at h
          split at h
          · exact absurd (ih h) (by simp)
          · exact absurd h (by simp)

/-- The queue after one `processStateQueue` call that passed all three
guards is the collapsed queue itself (requeue branch) or its tail (pop). -/
theorem processStateQueue_queue_shape (env : MapEnv) (ws : WState) (e : Entity)
    (now : Rat) (rng : Nat → Rat) (ctr : Nat)
    (h1 : e.isMoving = false)
    (h2 : ¬(e.currentStateStartTime ≠ 0 ∧
        now - e.currentStateStartTime < MIN_STATE_DISPLAY_MS ∧ e.stateQueue ≠ []))
    (h3 : e.stateQueue ≠ []) :
    (processStateQueue env ws e now rng ctr).1.stateQueue = collapseFront e.stateQueue ∨
      (processStateQueue env ws e now rng ctr).1.stateQueue = (collapseFront e.stateQueue).tail := by
  unfold processStateQueue
  rw [h1]
  simp only [Bool.false_eq_true, if_false, if_neg h2, if_neg h3]
  rcases hq : collapseFront e.stateQueue with _ | ⟨info, rest⟩
  · exact absurd (collapseFront_eq_nil hq) h3
  · simp only
    split
    · right; rfl
    · split
      all_goals first | (left; rfl) | (right; rfl)

/-! ## C4: minimum display time -/

/-- An agent whose queued entry arrived while its state is fresh. -/
def entC4 : Entity :=
  { entA with stateQueue := [⟨"THINKING", 0⟩], currentStateStartTime := 0 }

/-- Counterexample to C4 as stated: with `currentStateStartTime = 0` the JS
truthiness guard `if (entity.currentStateStartTime)` skips the
minimum-display-time check, so a call at `now = 100` (elapsed 100 < 4000 ms)
still pops (and here silently discards) the queued entry, changing the
agent. -/
theorem C4_counterexample :
    entC4.isMoving = false ∧ entC4.stateQueue ≠ [] ∧
      100 - entC4.currentStateStartTime < MIN_STATE_DISPLAY_MS ∧
      (processStateQueue envTriv WState.init entC4 100 rng0 0).1 ≠ entC4 := by
  refine ⟨rfl, by simp [entC4, entA], by simp [entC4, entA, MIN_STATE_DISPLAY_MS]; norm_num, ?_⟩
  have hq : (processStateQueue envTriv WState.init entC4 100 rng0 0).1.stateQueue = [] := by
    simp [processStateQueue, entC4, entA, collapseFront]
  intro h
  rw [h] at hq
  simp [entC4, entA] at hq

/-- The minimum-display-time no-op of `processStateQueue`: not moving,
non-empty queue, a non-zero (truthy) start timestamp, and less than 4000 ms
elapsed. -/
theorem processStateQueue_minDisplay_noop (env : MapEnv) (ws : WState) (e : Entity)
    (now : Rat) (rng : Nat → Rat) (ctr : Nat)
    (h1 : e.isMoving = false)
    (h2 : e.stateQueue ≠ [])
    (h3 : e.currentStateStartTime ≠ 0)
    (h4 : now - e.currentStateStartTime < MIN_STATE_DISPLAY_MS) :
    processStateQueue env ws e now rng ctr = (e, ws, ctr) := by
  unfold processStateQueue
  rw [h1]
  simp [h2, h3, h4]

/-- C4 as amended: additionally assuming `currentStateStartTime ≠ 0` (the JS
truthiness guard), an agent that is not moving, has a non-empty queue, and
whose current visual state is younger than 4000 ms is left entirely
unchanged by `processStateQueue` (as are the assignment tables and the
random cursor). -/
theorem C4_theorem (env : MapEnv) (ws : WState) (e : Entity) (now : Rat)
    (rng : Nat → Rat) (ctr : Nat)
    (h1 : e.isMoving = false)
    (h2 : e.stateQueue ≠ [])
    (h3 : e.currentStateStartTime ≠ 0)
    (h4 : now - e.currentStateStartTime < MIN_STATE_DISPLAY_MS) :
    processStateQueue env ws e now rng ctr = (e, ws, ctr) :=
  processStateQueue_minDisplay_noop env ws e now rng ctr h1 h2 h3 h4

theorem C4_witness :
    ({ entA with stateQueue := [⟨"IDLE", 6⟩] } : Entity).isMoving = false ∧
      ({ entA with stateQueue := [⟨"IDLE", 6⟩] } : Entity).stateQueue ≠ [] ∧
      ({ entA with stateQueue := [⟨"IDLE", 6⟩] } : Entity).currentStateStartTime ≠ 0 ∧
      (10 : Rat) - ({ entA with stateQueue := [⟨"IDLE", 6⟩] } : Entity).currentStateStartTime <
        MIN_STATE_DISPLAY_MS ∧
      processStateQueue envTriv WState.init { entA with stateQueue := [⟨"IDLE", 6⟩] } 10 rng0 0 =
        ({ entA with stateQueue := [⟨"IDLE", 6⟩] }, WState.init, 0) :=
  ⟨rfl, by simp, by simp [entA], by simp [entA, MIN_STATE_DISPLAY_MS]; norm_num,
    C4_theorem envTriv WState.init _ 10 rng0 0 rfl (by simp)
      (by simp [entA]) (by simp [entA, MIN_STATE_DISPLAY_MS]; norm_num)⟩

/-! ## C5: duplicate collapse in the queue -/

/-- An agent with a duplicate run at the front (PLANNING twice) and a
duplicate run behind it (IDLE twice), in a map with no planning zones so the
popped entry is requeued and stays observable. -/
def entC5 : Entity :=
  { entA with stateQueue :=
      [⟨"PLANNING", 1⟩, ⟨"PLANNING", 2⟩, ⟨"IDLE", 3⟩, ⟨"IDLE", 4⟩] }

/-- Counterexample to C5 as stated: processing leaves the queue as
`[PLANNING@2, IDLE@3, IDLE@4]` — the survivor of the front run is the
second (later-queued) entry, not the first, and the IDLE run further back
still holds two consecutive duplicates. -/
theorem C5_counterexample :
    (processStateQueue envTriv WState.init entC5 10000 rng0 0).1.stateQueue =
        [⟨"PLANNING", 2⟩, ⟨"IDLE", 3⟩, ⟨"IDLE", 4⟩] ∧
      ¬ List.Chain' (fun a b : QEntry => a.state ≠ b.state)
          [⟨"PLANNING", 2⟩, ⟨"IDLE", 3⟩, ⟨"IDLE", 4⟩] ∧
      (⟨"PLANNING", 2⟩ : QEntry).queuedAt ≠ (⟨"PLANNING", 1⟩ : QEntry).queuedAt := by
  refine ⟨?_, by simp, by norm_num⟩
  simp [processStateQueue, entC5, entA, collapseFront, MIN_STATE_DISPLAY_MS,
    getTargetZone, getZonesForState, getZonesByType, envTriv]
  norm_num

/-- C5 as amended: only the run of immediately-consecutive duplicates at
the front of the queue is collapsed, by repeatedly dropping the first of the
two leading entries while their states agree; the survivor of the front run
is therefore its last entry, and everything after the front run is left
untouched.  The second conjunct ties the collapse to `processStateQueue`:
after a guard-passing call the queue is the collapsed queue (requeue) or its
tail (pop). -/
theorem C5_theorem (run rest : List QEntry) (s : String) (lastE : QEntry)
    (env : MapEnv) (ws : WState) (e : Entity) (now : Rat) (rng : Nat → Rat) (ctr : Nat)
    (hrun : ∀ x ∈ run, x.state = s)
    (hlast : run.getLast? = some lastE)
    (hrest : ∀ b, rest.head? = some b → b.state ≠ s)
    (h1 : e.isMoving = false)
    (h2 : ¬(e.currentStateStartTime ≠ 0 ∧
        now - e.currentStateStartTime < MIN_STATE_DISPLAY_MS ∧ e.stateQueue ≠ []))
    (h3 : e.stateQueue ≠ []) :
    collapseFront (run ++ rest) = lastE :: rest ∧
      ((processStateQueue env ws e now rng ctr).1.stateQueue = collapseFront e.stateQueue ∨
        (processStateQueue env ws e now rng ctr).1.stateQueue = (collapseFront e.stateQueue).tail) := by
  refine ⟨?_, processStateQueue_queue_shape env ws e now rng ctr h1 h2 h3⟩
  induction run with
  | nil => simp at hlast
  | cons a t ih =>
      cases t with
      | nil =>
          simp only [List.getLast?_singleton, Option.some.injEq] at hlast
          subst hlast
          cases rest with
          | nil => simp [collapseFront]
          | cons b t' =>
              have hb : b.state ≠ s := hrest b rfl
              have ha : a.state = s := hrun a (by simp)
              simp only [List.cons_append, List.nil_append, collapseFront]
              rw [if_neg (by rw [ha]; exact fun hh => hb hh.symm)]
      | cons a2 t2 =>
          have ha : a.state = s := hrun a (by simp)
          have ha2 : a2.state = s := hrun a2 (by simp)
          simp only [List.cons_append, collapseFront]
          rw [if_pos (by rw [ha, ha2])]
          have := ih (fun x hx => hrun x (List.mem_cons_of_mem _ hx))
            (by simpa using hlast)
          simpa using this

theorem C5_witness :
    collapseFront ([⟨"CODING", 1⟩, ⟨"CODING", 2⟩] ++ [⟨"IDLE", 3⟩]) =
        (⟨"CODING", 2⟩ : QEntry) :: [⟨"IDLE", 3⟩] ∧
      ((processStateQueue envTriv WState.init { entA with stateQueue := [⟨"IDLE", 7⟩] }
          9000 rng0 0).1.stateQueue =
          collapseFront ({ entA with stateQueue := [⟨"IDLE", 7⟩] } : Entity).stateQueue ∨
        (processStateQueue envTriv WState.init { entA with stateQueue := [⟨"IDLE", 7⟩] }
          9000 rng0 0).1.stateQueue =
          (collapseFront ({ entA with stateQueue := [⟨"IDLE", 7⟩] } : Entity).stateQueue).tail) :=
  C5_theorem [⟨"CODING", 1⟩, ⟨"CODING", 2⟩] [⟨"IDLE", 3⟩] "CODING" ⟨"CODING", 2⟩
    envTriv WState.init { entA with stateQueue := [⟨"IDLE", 7⟩] } 9000 rng0 0
    (by intro x hx; simp only [List.mem_cons, List.not_mem_nil, or_false] at hx
        rcases hx with h | h <;> subst h <;> rfl)
    (by simp)
    (by intro b hb; simp at hb; subst hb; simp)
    rfl
    (by simp [entA, MIN_STATE_DISPLAY_MS]; norm_num)
    (by simp)

/-! ## C2: behaviour when the pathfinder fails during a queued transition -/

/-- An agent with one queued PLANNING request, on the all-blocked map that
still has a planning zone: zone resolution succeeds, pathfinding cannot. -/
def entC2 : Entity := { entA with stateQueue := [⟨"PLANNING", 1⟩] }

theorem findPath_envBlocked_none : findPath envBlocked 0 0 125 125 = none := by
  have h1 : pixelToTile envBlocked 0 0 = (0, 0) := by
    simp [pixelToTile, envBlocked, envTriv]
  have h2 : pixelToTile envBlocked 125 125 = (2, 2) := by
    have hf : (⌊(125 : ℚ) / 48⌋ : Int) = 2 := by
      rw [Int.floor_eq_iff]
      norm_num
    simp [pixelToTile, envBlocked, envTriv, hf]
  have h3 : findTilePath envBlocked.grid (0, 0) (2, 2) = none := by decide
  unfold findPath
  rw [h1, h2, h3]

theorem getZonesForState_envBlocked : getZonesForState envBlocked "PLANNING" = [zoneP] := by
  simp [getZonesForState, getZonesByType, envBlocked, envTriv]

/-- Counterexample to C2 as stated: the popped PLANNING entry resolves to
`zoneP`, `findPath` returns no path, and yet `processStateQueue` does not
requeue — it empties the queue, installs the single-waypoint direct path to
the zone point, and starts moving. -/
theorem C2_counterexample :
    findPath envBlocked entC2.x entC2.y zoneP.centerX zoneP.centerY = none ∧
      (processStateQueue envBlocked WState.init entC2 10000 rng0 0).1.isMoving = true ∧
      (processStateQueue envBlocked WState.init entC2 10000 rng0 0).1.stateQueue = [] ∧
      (processStateQueue envBlocked WState.init entC2 10000 rng0 0).1.path = [⟨125, 125⟩] := by
  have hfp : findPath envBlocked entC2.x entC2.y zoneP.centerX zoneP.centerY = none := by
    rw [show entC2.x = 0 from rfl, show entC2.y = 0 from rfl,
      show zoneP.centerX = 125 from rfl, show zoneP.centerY = 125 from rfl]
    exact findPath_envBlocked_none
  refine ⟨hfp, ?_, ?_, ?_⟩ <;>
    simp [processStateQueue, entC2, entA, collapseFront, MIN_STATE_DISPLAY_MS,
      getTargetZone, getZonesForState_envBlocked, findPath_envBlocked_none,
      zoneP, rng0] <;>
    norm_num

/-- C2 as amended: when the popped entry resolves to a target zone but the
pathfinder returns no path, `processStateQueue` does not requeue; it
installs the single-waypoint direct path `[(zone.centerX, zone.centerY)]`,
sets `targetState` and `targetZone`, resets `pathIndex`, and starts moving
at full speed.  (Only zone-resolution failure requeues at the front.) -/
theorem C2_theorem (env : MapEnv) (ws : WState) (e : Entity) (now : Rat)
    (rng : Nat → Rat) (ctr : Nat) (info : QEntry) (rest : List QEntry)
    (tz : Zone) (ws2 : WState) (ctr2 : Nat)
    (h1 : e.isMoving = false)
    (h2 : ¬(e.currentStateStartTime ≠ 0 ∧
        now - e.currentStateStartTime < MIN_STATE_DISPLAY_MS ∧ e.stateQueue ≠ []))
    (h3 : e.stateQueue ≠ [])
    (hq : collapseFront e.stateQueue = info :: rest)
    (hd : ¬(e.visualState = some info.state))
    (hgz : getTargetZone env
        (if e.visualState = some "CODING" ∧ info.state ≠ "CODING"
         then releaseWorkstation ws e.id else ws)
        { e with stateQueue := rest } info.state rng ctr = (some tz, ws2, ctr2))
    (hp : findPath env e.x e.y tz.centerX tz.centerY = none) :
    processStateQueue env ws e now rng ctr =
      ({ e with
          stateQueue := rest
          path := [⟨tz.centerX, tz.centerY⟩]
          pathIndex := 0
          targetState := some info.state
          targetZone := some tz
          isMoving := true
          currentSpeed := MOVE_SPEED }, ws2, ctr2) := by
  obtain ⟨eid, ex, ey, evs, ets, esq, epath, epi, etz, eim, edir, ecs, ewz, enwt, ecst⟩ := e
  simp only at h1 hq hd hgz hp ⊢
  subst h1
  unfold processStateQueue
  simp only [Bool.false_eq_true, if_false, if_neg h2, if_neg h3]
  rw [hq]
  simp only
  rw [if_neg (by simp only [not_and]; intro hc; exact absurd hc hd)]
  rw [hgz]
  simp only
  rw [hp]

theorem C2_witness :
    entC2.isMoving = false ∧
      ¬(entC2.currentStateStartTime ≠ 0 ∧
          (10000 : Rat) - entC2.currentStateStartTime < MIN_STATE_DISPLAY_MS ∧
          entC2.stateQueue ≠ []) ∧
      entC2.stateQueue ≠ [] ∧
      collapseFront entC2.stateQueue = ⟨"PLANNING", 1⟩ :: [] ∧
      ¬(entC2.visualState = some "PLANNING") ∧
      getTargetZone envBlocked
          (if entC2.visualState = some "CODING" ∧ "PLANNING" ≠ "CODING"
           then releaseWorkstation WState.init entC2.id else WState.init)
          { entC2 with stateQueue := [] } "PLANNING" rng0 0 = (some zoneP, WState.init, 1) ∧
      processStateQueue envBlocked WState.init entC2 10000 rng0 0 =
        ({ entC2 with
            stateQueue := []
            path := [⟨zoneP.centerX, zoneP.centerY⟩]
            pathIndex := 0
            targetState := some "PLANNING"
            targetZone := some zoneP
            isMoving := true
            currentSpeed := MOVE_SPEED }, WState.init, 1) := by
  have hgz : getTargetZone envBlocked
      (if entC2.visualState = some "CODING" ∧ "PLANNING" ≠ "CODING"
       then releaseWorkstation WState.init entC2.id else WState.init)
      { entC2 with stateQueue := [] } "PLANNING" rng0 0 = (some zoneP, WState.init, 1) := by
    simp [getTargetZone, getZonesForState, getZonesByType, envBlocked, envTriv, entC2, entA,
      rng0, zoneP]
  have hp : findPath envBlocked entC2.x entC2.y zoneP.centerX zoneP.centerY = none := by
    have hx : entC2.x = 0 := rfl
    have hy : entC2.y = 0 := rfl
    rw [hx, hy]
    exact findPath_envBlocked_none
  refine ⟨rfl, ?_, by simp [entC2, entA], by rfl, by simp [entC2, entA], hgz, ?_⟩
  · simp [entC2, entA, MIN_STATE_DISPLAY_MS]
    norm_num
  · exact C2_theorem envBlocked WState.init entC2 10000 rng0 0 ⟨"PLANNING", 1⟩ [] zoneP
      WState.init 1 rfl
      (by simp [entC2, entA, MIN_STATE_DISPLAY_MS]; norm_num)
      (by simp [entC2, entA]) (by rfl) (by simp [entC2, entA]) hgz hp

/-! ## Association-list lemmas for the assignment tables -/

theorem lookupA_eq_none_of_not_mem {l : List (String × String)} {k : String}
    (h : k ∉ l.map Prod.fst) : lookupA l k = none := by
  unfold lookupA
  rw [List.find?_eq_none.mpr]
  · rfl
  · intro p hp hk
    exact h (List.mem_map.mpr ⟨p, hp, by simpa using hk⟩)

theorem lookupA_not_mem_of_eq_none {l : List (String × String)} {k : String}
    (h : lookupA l k = none) : k ∉ l.map Prod.fst := by
  intro hmem
  rcases List.mem_map.mp hmem with ⟨p, hp, hk⟩
  unfold lookupA at h
  rcases hfind : l.find? (fun q => q.1 = k) with _ | q
  · have := List.find?_eq_none.mp hfind p hp
    simp [hk] at this
  · rw [hfind] at h; simp at h

theorem lookupA_eraseA_self {l : List (String × String)} {k : String}
    (h : (l.map Prod.fst).Nodup) : lookupA (eraseA l k) k = none := by
  induction l with
  | nil => rfl
  | cons p t ih =>
      simp only [List.map_cons, List.nodup_cons] at h
      rw [eraseA]
      split
      · next hpk =>
          subst hpk
          exact lookupA_eq_none_of_not_mem h.1
      · next hpk =>
          unfold lookupA
          rw [List.find?_cons_of_neg _ (by simpa using hpk)]
          exact ih h.2

theorem lookupA_eraseA_ne {l : List (String × String)} {k k' : String}
    (h : k' ≠ k) : lookupA (eraseA l k) k' = lookupA l k' := by
  induction l with
  | nil => rfl
  | cons p t ih =>
      rw [eraseA]
      split
      · next hpk =>
          subst hpk
          unfold lookupA
          rw [List.find?_cons_of_neg _ (by simpa using h.symm)]
      · next hpk =>
          unfold lookupA
          by_cases hpk' : p.1 = k'
          · rw [List.find?_cons_of_pos _ (by simpa using hpk'),
              List.find?_cons_of_pos _ (by simpa using hpk')]
          · rw [List.find?_cons_of_neg _ (by simpa using hpk'),
              List.find?_cons_of_neg _ (by simpa using hpk')]
            exact ih

/-! ## C8: workstation release on leaving CODING -/

/-- For every non-CODING target state, zone resolution leaves the
assignment tables untouched. -/
theorem getTargetZone_ws_of_ne_coding (env : MapEnv) (ws : WState) (e : Entity)
    (state : String) (rng : Nat → Rat) (ctr : Nat) (h : state ≠ "CODING") :
    (getTargetZone env ws e state rng ctr).2.1 = ws := by
  unfold getTargetZone
  rw [if_neg (by simpa using h)]
  dsimp only
  split
  · rfl
  · split <;> rfl

/-- C8: if the agent's visual state is CODING, the popped entry requests a
different state, and the agent holds workstation `w`, then
`processStateQueue` resolves the target zone against the already-released
tables (`releaseWorkstation ws e.id`), and afterwards `w` reports
unoccupied. -/
theorem C8_theorem (env : MapEnv) (ws : WState) (e : Entity) (now : Rat)
    (rng : Nat → Rat) (ctr : Nat) (info : QEntry) (rest : List QEntry) (w : String)
    (hnd : (ws.zoneAssignments.map Prod.fst).Nodup)
    (h1 : e.isMoving = false)
    (h2 : ¬(e.currentStateStartTime ≠ 0 ∧
        now - e.currentStateStartTime < MIN_STATE_DISPLAY_MS ∧ e.stateQueue ≠ []))
    (h3 : e.stateQueue ≠ [])
    (hq : collapseFront e.stateQueue = info :: rest)
    (hcoding : e.visualState = some "CODING")
    (hdiff : info.state ≠ "CODING")
    (hw : lookupA ws.entityZoneMap (e.id ++ ":" ++ "workstations") = some w) :
    (processStateQueue env ws e now rng ctr).2.1 =
        (getTargetZone env (releaseWorkstation ws e.id)
          { e with stateQueue := rest } info.state rng ctr).2.1 ∧
      isZoneOccupied (processStateQueue env ws e now rng ctr).2.1 w = false := by
  have hrel : (processStateQueue env ws e now rng ctr).2.1 =
      (getTargetZone env (releaseWorkstation ws e.id)
        { e with stateQueue := rest } info.state rng ctr).2.1 := by
    obtain ⟨eid, ex, ey, evs, ets, esq, epath, epi, etz, eim, edir, ecs, ewz, enwt, ecst⟩ := e
    simp only at h1 hq hcoding hw ⊢
    subst h1 hcoding
    unfold processStateQueue
    simp only [Bool.false_eq_true, if_false, if_neg h2, if_neg h3]
    rw [hq]
    simp only
    rw [if_neg (by
      simp only [not_and]
      intro hc
      exact absurd (by simpa using hc.symm) hdiff)]
    rw [if_pos ⟨by trivial, hdiff⟩]
    rcases hg : getTargetZone env (releaseWorkstation ws eid)
        { id := eid, x := ex, y := ey, visualState := some "CODING", targetState := ets,
          stateQueue := rest, path := epath, pathIndex := epi, targetZone := etz,
          isMoving := false, direction := edir, currentSpeed := ecs, wanderZone := ewz,
          nextWanderTime := enwt, currentStateStartTime := ecst } info.state rng ctr
      with ⟨z?, ws2, ctr2⟩
    cases z? <;> simp
  refine ⟨hrel, ?_⟩
  rw [hrel, getTargetZone_ws_of_ne_coding env _ _ _ rng ctr hdiff]
  unfold releaseWorkstation
  rw [hw]
  unfold isZoneOccupied
  rw [lookupA_eraseA_self hnd]
  rfl

/-- A workstation zone fixture. -/
def zoneW : Zone := ⟨"ws1", 10, 10, 30, 30, 25, 25, some "away"⟩

/-- A map with one workstation and one planning zone (all tiles blocked, so
pathfinding falls back to direct movement; irrelevant to C8). -/
def envWs : MapEnv := { envBlocked with workstations := [zoneW] }

/-- A CODING agent that holds `zoneW` and has a PLANNING request queued. -/
def entC8 : Entity :=
  { entA with visualState := some "CODING", stateQueue := [⟨"PLANNING", 1⟩] }

/-- The tables in which `entC8` holds `zoneW`. -/
def wsC8 : WState := ⟨[("ws1", "e1")], [("e1:workstations", "ws1")]⟩

theorem C8_witness :
    (wsC8.zoneAssignments.map Prod.fst).Nodup ∧
      entC8.isMoving = false ∧
      ¬(entC8.currentStateStartTime ≠ 0 ∧
          (10000 : Rat) - entC8.currentStateStartTime < MIN_STATE_DISPLAY_MS ∧
          entC8.stateQueue ≠ []) ∧
      entC8.stateQueue ≠ [] ∧
      collapseFront entC8.stateQueue = ⟨"PLANNING", 1⟩ :: [] ∧
      entC8.visualState = some "CODING" ∧
      ("PLANNING" : String) ≠ "CODING" ∧
      lookupA wsC8.entityZoneMap (entC8.id ++ ":" ++ "workstations") = some "ws1" ∧
      ((processStateQueue envWs wsC8 entC8 10000 rng0 0).2.1 =
          (getTargetZone envWs (releaseWorkstation wsC8 entC8.id)
            { entC8 with stateQueue := [] } "PLANNING" rng0 0).2.1 ∧
        isZoneOccupied (processStateQueue envWs wsC8 entC8 10000 rng0 0).2.1 "ws1" = false) := by
  refine ⟨by simp [wsC8], rfl, ?_, by simp [entC8, entA], by rfl, rfl, by simp,
    by simp [wsC8, entC8, entA, lookupA], ?_⟩
  · simp [entC8, entA, MIN_STATE_DISPLAY_MS]
    norm_num
  · exact C8_theorem envWs wsC8 entC8 10000 rng0 0 ⟨"PLANNING", 1⟩ [] "ws1"
      (by simp [wsC8]) rfl
      (by simp [entC8, entA, MIN_STATE_DISPLAY_MS]; norm_num)
      (by simp [entC8, entA]) (by rfl) rfl (by simp)
      (by simp [wsC8, entC8, entA, lookupA])

/-! ## C9: wander rescheduling -/

/-- Whatever happens to the path attempt, the shared wander tail always ends
by rescheduling: the new `nextWanderTime` is `now` plus
`WANDER_MIN_DELAY_MS + r * (WANDER_MAX_DELAY_MS - WANDER_MIN_DELAY_MS)`
where `r` is the third sample consumed by the tail. -/
theorem wanderTail_nextWanderTime (env : MapEnv) (e : Entity) (zone : Zone)
    (now : Rat) (rng : Nat → Rat) (ctr : Nat) :
    (wanderTail env e zone now rng ctr).1.nextWanderTime =
      now + (WANDER_MIN_DELAY_MS +
        rng (ctr + 2) * (WANDER_MAX_DELAY_MS - WANDER_MIN_DELAY_MS)) := by
  unfold wanderTail scheduleNextWander
  rcases findPath env e.x e.y (getRandomPointInZone zone 8 rng ctr).x
      (getRandomPointInZone zone 8 rng ctr).y with _ | p
  all_goals first
    | rfl
    | (dsimp only; split <;> rfl)

/-- Counterexample to C9 as stated: on a map with no thinking zones, a due
wander invocation for a THINKING agent returns before rescheduling, leaving
`nextWanderTime` at its old value instead of a fresh `[3000, 6000)` delay
from `now`. -/
theorem C9_counterexample :
    entA.isMoving = false ∧ entA.stateQueue = [] ∧
      entA.visualState = some "THINKING" ∧
      entA.nextWanderTime ≤ 10000 ∧
      (0 ≤ rng0 0 ∧ rng0 0 < 1) ∧
      (updateWandering envTriv entA 10000 rng0 0).1.nextWanderTime <
        10000 + WANDER_MIN_DELAY_MS := by
  refine ⟨rfl, rfl, rfl, by simp [entA], by simp [rng0], ?_⟩
  have h0 : (updateWandering envTriv entA 10000 rng0 0).1.nextWanderTime = 0 := by
    simp [updateWandering, entA, getZonesForState, getZonesByType, envTriv]
  rw [h0, WANDER_MIN_DELAY_MS]
  norm_num

/-- C9 as amended: provided the zone list for the agent's visual state is
non-empty, a due wander invocation for a not-moving THINKING/IDLE agent with
an empty queue always reschedules `nextWanderTime` to `now` plus a sample of
the injected uniform source mapped affinely onto `[3000, 6000)` — whether or
not a path was found — so the new time lies in `[now + 3000, now + 6000)`. -/
theorem C9_theorem (env : MapEnv) (e : Entity) (now : Rat) (rng : Nat → Rat) (ctr : Nat)
    (hmov : e.isMoving = false)
    (hqe : e.stateQueue = [])
    (hvs : e.visualState = some "THINKING" ∨ e.visualState = some "IDLE")
    (hdue : e.nextWanderTime ≤ now)
    (hz : getZonesForState env (e.visualState.getD "") ≠ [])
    (hr : ∀ i, 0 ≤ rng i ∧ rng i < 1) :
    ∃ r, 0 ≤ r ∧ r < 1 ∧
      (updateWandering env e now rng ctr).1.nextWanderTime =
        now + (WANDER_MIN_DELAY_MS + r * (WANDER_MAX_DELAY_MS - WANDER_MIN_DELAY_MS)) ∧
      now + WANDER_MIN_DELAY_MS ≤ (updateWandering env e now rng ctr).1.nextWanderTime ∧
      (updateWandering env e now rng ctr).1.nextWanderTime < now + WANDER_MAX_DELAY_MS := by
  have bounds : ∀ i, now + WANDER_MIN_DELAY_MS ≤
        now + (WANDER_MIN_DELAY_MS + rng i * (WANDER_MAX_DELAY_MS - WANDER_MIN_DELAY_MS)) ∧
      now + (WANDER_MIN_DELAY_MS + rng i * (WANDER_MAX_DELAY_MS - WANDER_MIN_DELAY_MS)) <
        now + WANDER_MAX_DELAY_MS := by
    intro i
    rcases hr i with ⟨hr0, hr1⟩
    have d1 : (0 : Rat) ≤ rng i * (WANDER_MAX_DELAY_MS - WANDER_MIN_DELAY_MS) := by
      apply mul_nonneg hr0
      rw [WANDER_MAX_DELAY_MS, WANDER_MIN_DELAY_MS]; norm_num
    have d2 : rng i * (WANDER_MAX_DELAY_MS - WANDER_MIN_DELAY_MS) <
        WANDER_MAX_DELAY_MS - WANDER_MIN_DELAY_MS := by
      have := mul_lt_mul_of_pos_right hr1
        (show (0 : Rat) < WANDER_MAX_DELAY_MS - WANDER_MIN_DELAY_MS by
          rw [WANDER_MAX_DELAY_MS, WANDER_MIN_DELAY_MS]; norm_num)
      simpa using this
    constructor <;> linarith
  have main : ∃ i, (updateWandering env e now rng ctr).1.nextWanderTime =
      now + (WANDER_MIN_DELAY_MS + rng i * (WANDER_MAX_DELAY_MS - WANDER_MIN_DELAY_MS)) := by
    unfold updateWandering
    rw [if_neg (by
      rcases hvs with h | h <;> rw [h] <;> simp)]
    rw [if_neg (by simpa using hdue)]
    rw [if_neg (by simpa using hz)]
    by_cases hidle : e.visualState = some "IDLE"
    · rw [if_pos hidle]
      exact ⟨ctr + 2 + 2, wanderTail_nextWanderTime _ _ _ _ _ _⟩
    · rw [if_neg hidle]
      rcases e.wanderZone with _ | z
      · dsimp only
        split
        · exact ⟨ctr + 2, wanderTail_nextWanderTime _ _ _ _ _ _⟩
        · exact ⟨ctr + 1 + 2, wanderTail_nextWanderTime _ _ _ _ _ _⟩
      · exact ⟨ctr + 2, wanderTail_nextWanderTime _ _ _ _ _ _⟩
  rcases main with ⟨i, hi⟩
  exact ⟨rng i, (hr i).1, (hr i).2, hi, by rw [hi]; exact (bounds i).1,
    by rw [hi]; exact (bounds i).2⟩

/-- A map with a single thinking zone covering the walkable tile. -/
def zoneT : Zone := ⟨"think1", 0, 0, 48, 48, 24, 24, none⟩

/-- A one-tile walkable map with that thinking zone. -/
def envThink : MapEnv :=
  { envTriv with grid := ⟨1, 1, fun _ _ => false⟩, thinkingZones := [zoneT] }

/-- A half-stream: every sample is 1/2. -/
def rngHalf : Nat → Rat := fun _ => 1/2

theorem C9_witness :
    entA.isMoving = false ∧ entA.stateQueue = [] ∧
      (entA.visualState = some "THINKING" ∨ entA.visualState = some "IDLE") ∧
      entA.nextWanderTime ≤ 9000 ∧
      getZonesForState envThink (entA.visualState.getD "") ≠ [] ∧
      (∀ i, 0 ≤ rngHalf i ∧ rngHalf i < 1) ∧
      (∃ r, 0 ≤ r ∧ r < 1 ∧
        (updateWandering envThink entA 9000 rngHalf 0).1.nextWanderTime =
          9000 + (WANDER_MIN_DELAY_MS + r * (WANDER_MAX_DELAY_MS - WANDER_MIN_DELAY_MS)) ∧
        9000 + WANDER_MIN_DELAY_MS ≤ (updateWandering envThink entA 9000 rngHalf 0).1.nextWanderTime ∧
        (updateWandering envThink entA 9000 rngHalf 0).1.nextWanderTime <
          9000 + WANDER_MAX_DELAY_MS) := by
  refine ⟨rfl, rfl, Or.inl rfl, by simp [entA], ?_, ?_, ?_⟩
  · simp [entA, getZonesForState, getZonesByType, envThink, envTriv]
  · intro i; constructor <;> simp [rngHalf] <;> norm_num
  · exact C9_theorem envThink entA 9000 rngHalf 0 rfl rfl (Or.inl rfl)
      (by simp [entA])
      (by simp [entA, getZonesForState, getZonesByType, envThink, envTriv])
      (by intro i; constructor <;> simp [rngHalf] <;> norm_num)

/-! ## C7: endpoint precision -/

theorem smoothPath_ne_nil (env : MapEnv) (p : List Point) (h : p ≠ []) :
    smoothPath env p ≠ [] := by
  unfold smoothPath
  split
  · exact h
  · simp

/-- Smoothing followed by the endpoint fix always ends exactly at the
target point. -/
theorem smoothWithEndpoint_getLast (env : MapEnv) (p : List Point) (t : Point)
    (h : p ≠ []) : (smoothWithEndpoint env p t).getLast? = some t := by
  unfold smoothWithEndpoint
  dsimp only
  have hsp := smoothPath_ne_nil env p h
  rcases hlast : (smoothPath env p).getLast? with _ | lw
  · rcases hl : smoothPath env p with _ | ⟨a, t'⟩
    · exact absurd hl hsp
    · rw [hl] at hlast
      simp [List.getLast?] at hlast
  · dsimp only
    split
    · exact List.getLast?_concat _
    · next hc =>
        simp only [ne_eq, not_or, not_not] at hc
        have hlt : lw = t := by
          cases lw; cases t
          simp only at hc
          simp [hc.1, hc.2]
        rw [hlast, hlt]

/-- Either `processStateQueue` leaves `isMoving` as it found it, or it
installed a movement: then a target zone is set and the installed path ends
exactly at that zone's `(centerX, centerY)` point. -/
theorem processStateQueue_install_shape (env : MapEnv) (ws : WState) (e : Entity)
    (now : Rat) (rng : Nat → Rat) (ctr : Nat) :
    (processStateQueue env ws e now rng ctr).1.isMoving = e.isMoving ∨
      (∃ tz, (processStateQueue env ws e now rng ctr).1.targetZone = some tz ∧
        (processStateQueue env ws e now rng ctr).1.path.getLast? =
          some ⟨tz.centerX, tz.centerY⟩ ∧
        (processStateQueue env ws e now rng ctr).1.isMoving = true) := by
  unfold processStateQueue
  split
  · left; rfl
  split
  · left; rfl
  split
  · left; rfl
  split
  · left; rfl
  next info rest _ =>
    dsimp only
    split
    · left; rfl
    · split
      · left; rfl
      · next tz ws2 ctr2 _ =>
          right
          refine ⟨tz, rfl, ?_, rfl⟩
          dsimp only
          split
          · rfl
          · next p _ =>
              split
              · rfl
              · next hlen =>
                  exact smoothWithEndpoint_getLast env p _ (by
                    intro hnil
                    exact hlen (by simp [hnil]))

/-- The analogous fact for the wander tail. -/
theorem wanderTail_install_shape (env : MapEnv) (e : Entity) (zone : Zone)
    (now : Rat) (rng : Nat → Rat) (ctr : Nat) :
    (wanderTail env e zone now rng ctr).1.isMoving = e.isMoving ∨
      (∃ tz, (wanderTail env e zone now rng ctr).1.targetZone = some tz ∧
        (wanderTail env e zone now rng ctr).1.path.getLast? =
          some ⟨tz.centerX, tz.centerY⟩ ∧
        (wanderTail env e zone now rng ctr).1.isMoving = true) := by
  unfold wanderTail scheduleNextWander
  dsimp only
  split
  · left; rfl
  · next p _ =>
      split
      · next hlen =>
          right
          refine ⟨_, rfl, ?_, rfl⟩
          exact smoothWithEndpoint_getLast env p _ (by
            intro hnil
            rw [hnil] at hlen
            simp at hlen)
      · left; rfl

/-- Either the wander controller leaves `isMoving` as it found it, or it
installed a movement ending exactly at the resolved point. -/
theorem updateWandering_install_shape (env : MapEnv) (e : Entity)
    (now : Rat) (rng : Nat → Rat) (ctr : Nat) :
    (updateWandering env e now rng ctr).1.isMoving = e.isMoving ∨
      (∃ tz, (updateWandering env e now rng ctr).1.targetZone = some tz ∧
        (updateWandering env e now rng ctr).1.path.getLast? =
          some ⟨tz.centerX, tz.centerY⟩ ∧
        (updateWandering env e now rng ctr).1.isMoving = true) := by
  unfold updateWandering
  split
  · left; rfl
  split
  · left; rfl
  dsimp only
  split
  · left; rfl
  split
  · exact wanderTail_install_shape env _ _ now rng _
  · split
    · exact wanderTail_install_shape env _ _ now rng _
    · split
      · exact wanderTail_install_shape env _ _ now rng _
      · exact wanderTail_install_shape env _ _ now rng _

/-- Arrival with a target zone set snaps the position to the zone's exact
point. -/
theorem arriveAtDestination_snap (env : MapEnv) (e : Entity) (now : Rat)
    (rng : Nat → Rat) (ctr : Nat) (z : Zone) (hz : e.targetZone = some z) :
    (arriveAtDestination env e now rng ctr).1.x = z.centerX ∧
      (arriveAtDestination env e now rng ctr).1.y = z.centerY := by
  unfold arriveAtDestination
  rw [hz]
  dsimp only
  constructor <;> (repeat' split) <;> rfl

/-- C7: (i) a movement installed by `processStateQueue` ends exactly at the
resolved zone point; (ii) a movement installed by the wander controller ends
exactly at the resolved point; (iii) arrival with a target zone set puts the
agent exactly at `(centerX, centerY)`. -/
theorem C7_theorem :
    (∀ (env : MapEnv) (ws : WState) (e : Entity) (now : Rat) (rng : Nat → Rat) (ctr : Nat),
      e.isMoving = false →
      (processStateQueue env ws e now rng ctr).1.isMoving = true →
      ∃ tz, (processStateQueue env ws e now rng ctr).1.targetZone = some tz ∧
        (processStateQueue env ws e now rng ctr).1.path.getLast? =
          some ⟨tz.centerX, tz.centerY⟩) ∧
    (∀ (env : MapEnv) (e : Entity) (now : Rat) (rng : Nat → Rat) (ctr : Nat),
      e.isMoving = false →
      (updateWandering env e now rng ctr).1.isMoving = true →
      ∃ tz, (updateWandering env e now rng ctr).1.targetZone = some tz ∧
        (updateWandering env e now rng ctr).1.path.getLast? =
          some ⟨tz.centerX, tz.centerY⟩) ∧
    (∀ (env : MapEnv) (e : Entity) (now : Rat) (rng : Nat → Rat) (ctr : Nat) (z : Zone),
      e.targetZone = some z →
      (arriveAtDestination env e now rng ctr).1.x = z.centerX ∧
      (arriveAtDestination env e now rng ctr).1.y = z.centerY) := by
  refine ⟨?_, ?_, ?_⟩
  · intro env ws e now rng ctr hm hres
    rcases processStateQueue_install_shape env ws e now rng ctr with h | ⟨tz, h1, h2, _⟩
    · rw [hres, hm] at h; exact absurd h (by simp)
    · exact ⟨tz, h1, h2⟩
  · intro env e now rng ctr hm hres
    rcases updateWandering_install_shape env e now rng ctr with h | ⟨tz, h1, h2, _⟩
    · rw [hres, hm] at h; exact absurd h (by simp)
    · exact ⟨tz, h1, h2⟩
  · intro env e now rng ctr z hz
    exact arriveAtDestination_snap env e now rng ctr z hz

theorem C7_witness :
    (entC2.isMoving = false ∧
      (processStateQueue envBlocked WState.init entC2 10000 rng0 0).1.isMoving = true ∧
      ∃ tz, (processStateQueue envBlocked WState.init entC2 10000 rng0 0).1.targetZone = some tz ∧
        (processStateQueue envBlocked WState.init entC2 10000 rng0 0).1.path.getLast? =
          some ⟨tz.centerX, tz.centerY⟩) ∧
    (({ entA with targetZone := some zoneP, targetState := some "PLANNING" } : Entity).targetZone
        = some zoneP ∧
      (arriveAtDestination envTriv
        { entA with targetZone := some zoneP, targetState := some "PLANNING" } 777 rng0 0).1.x =
        zoneP.centerX ∧
      (arriveAtDestination envTriv
        { entA with targetZone := some zoneP, targetState := some "PLANNING" } 777 rng0 0).1.y =
        zoneP.centerY) := by
  have hmov : (processStateQueue envBlocked WState.init entC2 10000 rng0 0).1.isMoving = true := by
    simp [processStateQueue, entC2, entA, collapseFront, MIN_STATE_DISPLAY_MS,
      getTargetZone, getZonesForState_envBlocked, findPath_envBlocked_none, zoneP, rng0]
    norm_num
  refine ⟨⟨rfl, hmov, C7_theorem.1 envBlocked WState.init entC2 10000 rng0 0 rfl hmov⟩,
    ⟨rfl, C7_theorem.2.2 envTriv _ 777 rng0 0 zoneP rfl⟩⟩

/-! ## C10: wander arrival restarts the display window -/

/-- The wander tail never changes the visual state, the queue, or the
display-time clock. -/
theorem wanderTail_preserves (env : MapEnv) (e : Entity) (zone : Zone)
    (now : Rat) (rng : Nat → Rat) (ctr : Nat) :
    (wanderTail env e zone now rng ctr).1.visualState = e.visualState ∧
      (wanderTail env e zone now rng ctr).1.stateQueue = e.stateQueue ∧
      (wanderTail env e zone now rng ctr).1.currentStateStartTime =
        e.currentStateStartTime := by
  unfold wanderTail scheduleNextWander
  dsimp only
  split
  · exact ⟨rfl, rfl, rfl⟩
  · split <;> exact ⟨rfl, rfl, rfl⟩

/-- The wander controller never changes the visual state, the queue, or the
display-time clock. -/
theorem updateWandering_preserves (env : MapEnv) (e : Entity)
    (now : Rat) (rng : Nat → Rat) (ctr : Nat) :
    (updateWandering env e now rng ctr).1.visualState = e.visualState ∧
      (updateWandering env e now rng ctr).1.stateQueue = e.stateQueue ∧
      (updateWandering env e now rng ctr).1.currentStateStartTime =
        e.currentStateStartTime := by
  unfold updateWandering
  split
  · exact ⟨rfl, rfl, rfl⟩
  split
  · exact ⟨rfl, rfl, rfl⟩
  dsimp only
  split
  · exact ⟨rfl, rfl, rfl⟩
  split
  · exact wanderTail_preserves env _ _ now rng _
  · split
    · exact wanderTail_preserves env _ _ now rng _
    · split
      · exact wanderTail_preserves env _ _ now rng _
      · exact wanderTail_preserves env _ _ now rng _

/-- If the wander tail installed a movement, the target state it installed
is the entity's own visual state. -/
theorem wanderTail_targetState_shape (env : MapEnv) (e : Entity) (zone : Zone)
    (now : Rat) (rng : Nat → Rat) (ctr : Nat) :
    (wanderTail env e zone now rng ctr).1.isMoving = e.isMoving ∨
      (wanderTail env e zone now rng ctr).1.targetState = e.visualState := by
  unfold wanderTail scheduleNextWander
  dsimp only
  split
  · left; rfl
  · split
    · right; rfl
    · left; rfl

/-- If the wander controller installed a movement, the installed target
state is the entity's own visual state. -/
theorem updateWandering_targetState_shape (env : MapEnv) (e : Entity)
    (now : Rat) (rng : Nat → Rat) (ctr : Nat) :
    (updateWandering env e now rng ctr).1.isMoving = e.isMoving ∨
      (updateWandering env e now rng ctr).1.targetState = e.visualState := by
  unfold updateWandering
  split
  · left; rfl
  split
  · left; rfl
  dsimp only
  split
  · left; rfl
  split
  · exact wanderTail_targetState_shape env _ _ now rng _
  · split
    · exact wanderTail_targetState_shape env _ _ now rng _
    · split
      · exact wanderTail_targetState_shape env _ _ now rng _
      · exact wanderTail_targetState_shape env _ _ now rng _

/-- Arrival promotes `targetState` to `visualState`, resets the display
clock to the arrival time, stops the entity, and leaves the queue alone. -/
theorem arriveAtDestination_fields (env : MapEnv) (e : Entity) (now : Rat)
    (rng : Nat → Rat) (ctr : Nat) :
    (arriveAtDestination env e now rng ctr).1.visualState = e.targetState ∧
      (arriveAtDestination env e now rng ctr).1.currentStateStartTime = now ∧
      (arriveAtDestination env e now rng ctr).1.isMoving = false ∧
      (arriveAtDestination env e now rng ctr).1.stateQueue = e.stateQueue := by
  unfold arriveAtDestination
  dsimp only
  refine ⟨?_, ?_, ?_, ?_⟩ <;> (repeat' split) <;> rfl

/-- C10: a wander-installed movement carries `targetState = visualState`,
so its arrival leaves the visual state unchanged while resetting
`currentStateStartTime` to the arrival time; consequently a state change
queued afterwards is not processed until 4000 ms after the arrival. -/
theorem C10_theorem (env env2 env3 : MapEnv) (ws : WState) (e : Entity)
    (now t t' tq : Rat) (s : String) (rng rng2 rng3 : Nat → Rat) (ctr ctr2 ctr3 : Nat)
    (hm : e.isMoving = false)
    (hinst : (updateWandering env e now rng ctr).1.isMoving = true)
    (ht : t ≠ 0)
    (hlt : t' - t < MIN_STATE_DISPLAY_MS) :
    (updateWandering env e now rng ctr).1.targetState = e.visualState ∧
      (arriveAtDestination env2 (updateWandering env e now rng ctr).1 t rng2 ctr2).1.visualState =
        e.visualState ∧
      (arriveAtDestination env2 (updateWandering env e now rng ctr).1 t rng2 ctr2).1.currentStateStartTime = t ∧
      processStateQueue env3 ws
          (queueStateChange
            (arriveAtDestination env2 (updateWandering env e now rng ctr).1 t rng2 ctr2).1 s tq)
          t' rng3 ctr3 =
        (queueStateChange
            (arriveAtDestination env2 (updateWandering env e now rng ctr).1 t rng2 ctr2).1 s tq,
          ws, ctr3) := by
  have hts : (updateWandering env e now rng ctr).1.targetState = e.visualState := by
    rcases updateWandering_targetState_shape env e now rng ctr with h | h
    · rw [hinst, hm] at h; exact absurd h (by simp)
    · exact h
  obtain ⟨hv, hc, hi, hq⟩ :=
    arriveAtDestination_fields env2 (updateWandering env e now rng ctr).1 t rng2 ctr2
  refine ⟨hts, by rw [hv, hts], hc, ?_⟩
  apply processStateQueue_minDisplay_noop
  · simpa [queueStateChange] using hi
  · simp [queueStateChange]
  · simpa [queueStateChange, hc] using ht
  · simpa [queueStateChange, hc] using hlt

/-- A thinking zone spanning a two-tile corridor. -/
def zoneT2 : Zone := ⟨"think2", 0, 0, 96, 48, 48, 24, none⟩

/-- A 2×1 fully walkable map carrying that thinking zone. -/
def envThink2 : MapEnv :=
  { envTriv with grid := ⟨2, 1, fun _ _ => false⟩, thinkingZones := [zoneT2] }

/-- A THINKING agent sitting at the centre of the first tile, already
confined to `zoneT2`. -/
def entC10 : Entity := { entA with x := 24, y := 24, wanderZone := some zoneT2 }

theorem findTilePath_envThink2 :
    findTilePath envThink2.grid (0, 0) (1, 0) = some [(0, 0), (1, 0)] := by decide

theorem findPath_envThink2 : findPath envThink2 24 24 48 24 = some [⟨24, 24⟩, ⟨72, 24⟩] := by
  have hf0 : (⌊(24 : ℚ) / 48⌋ : Int) = 0 := by
    rw [Int.floor_eq_iff] <;> norm_num
  have hf1 : (⌊(48 : ℚ) / 48⌋ : Int) = 1 := by
    rw [Int.floor_eq_iff] <;> norm_num
  have h1 : pixelToTile envThink2 24 24 = (0, 0) := by
    simp [pixelToTile, envThink2, envTriv, hf0]
  have h2 : pixelToTile envThink2 48 24 = (1, 0) := by
    simp [pixelToTile, envThink2, envTriv, hf0, hf1]
  unfold findPath
  rw [h1, h2, findTilePath_envThink2]
  simp [tileToPixel, envThink2, envTriv]
  norm_num

theorem updateWandering_envThink2_moving :
    (updateWandering envThink2 entC10 9000 rngHalf 0).1.isMoving = true := by
  have hz : getZonesForState envThink2 "THINKING" = [zoneT2] := by
    simp [getZonesForState, getZonesByType, envThink2, envTriv]
  have hpt : getRandomPointInZone zoneT2 8 rngHalf 0 = ⟨48, 24⟩ := by
    simp [getRandomPointInZone, zoneT2, rngHalf]
    norm_num
  simp [updateWandering, entC10, entA, hz, wanderTail, hpt, findPath_envThink2,
    scheduleNextWander]
  norm_num

theorem C10_witness :
    entC10.isMoving = false ∧
      (updateWandering envThink2 entC10 9000 rngHalf 0).1.isMoving = true ∧
      (20000 : Rat) ≠ 0 ∧
      (21000 : Rat) - 20000 < MIN_STATE_DISPLAY_MS ∧
      ((updateWandering envThink2 entC10 9000 rngHalf 0).1.targetState = entC10.visualState ∧
        (arriveAtDestination envThink2 (updateWandering envThink2 entC10 9000 rngHalf 0).1
            20000 rngHalf 7).1.visualState = entC10.visualState ∧
        (arriveAtDestination envThink2 (updateWandering envThink2 entC10 9000 rngHalf 0).1
            20000 rngHalf 7).1.currentStateStartTime = 20000 ∧
        processStateQueue envTriv WState.init
            (queueStateChange
              (arriveAtDestination envThink2 (updateWandering envThink2 entC10 9000 rngHalf 0).1
                20000 rngHalf 7).1 "CODING" 20500)
            21000 rngHalf 9 =
          (queueStateChange
              (arriveAtDestination envThink2 (updateWandering envThink2 entC10 9000 rngHalf 0).1
                20000 rngHalf 7).1 "CODING" 20500,
            WState.init, 9)) := by
  refine ⟨rfl, updateWandering_envThink2_moving, by norm_num,
    by rw [MIN_STATE_DISPLAY_MS]; norm_num, ?_⟩
  exact C10_theorem envThink2 envThink2 envTriv WState.init entC10
    9000 20000 21000 20500 "CODING" rngHalf rngHalf rngHalf 0 7 9
    rfl updateWandering_envThink2_moving (by norm_num)
    (by rw [MIN_STATE_DISPLAY_MS]; norm_num)

/-! ## C3: workstation occupancy invariants

The claims quantify over arbitrary operation sequences on the two tables;
`WOp` is one call, `runWOps` a whole sequence from the module-initial empty
tables. -/

/-- The `entityZoneMap` key for an entity's workstation assignment. -/
def wsKey (e : String) : String := e ++ ":" ++ "workstations"

theorem wsKey_inj {a b : String} (h : wsKey a = wsKey b) : a = b := by
  unfold wsKey at h
  have hd : a.data ++ (":".data ++ "workstations".data) =
      b.data ++ (":".data ++ "workstations".data) := by
    have hq := congrArg String.data h
    rw [String.data_append, String.data_append, String.data_append, String.data_append,
      List.append_assoc, List.append_assoc] at hq
    exact hq
  exact String.ext (List.append_cancel_right hd)

/-- One call against the shared tables. -/
inductive WOp where
  | assign (entityId : String)
  | release (entityId : String)
  | clear (entityId : String)

/-- Apply one call (the zone returned by `assignWorkstation` is discarded;
only the table effect matters here). -/
def applyWOp (env : MapEnv) (s : WState) : WOp → WState
  | .assign id => (assignWorkstation env s id).2
  | .release id => releaseWorkstation s id
  | .clear id => clearEntityAssignments s id

/-- Run a sequence of calls from the initial empty tables. -/
def runWOps (env : MapEnv) (ops : List WOp) : WState :=
  ops.foldl (applyWOp env) WState.init

theorem lookupA_cons_pos (l : List (String × String)) (p : String × String) (k : String)
    (h : p.1 = k) : lookupA (p :: l) k = some p.2 := by
  unfold lookupA
  rw [List.find?_cons_of_pos _ (by simpa using h)]
  rfl

theorem lookupA_cons_ne' (l : List (String × String)) (p : String × String) (k : String)
    (h : ¬ p.1 = k) : lookupA (p :: l) k = lookupA l k := by
  unfold lookupA
  rw [List.find?_cons_of_neg _ (by simpa using h)]

theorem lookupA_mem {l : List (String × String)} {k v : String}
    (h : lookupA l k = some v) : (k, v) ∈ l := by
  induction l with
  | nil => simp [lookupA] at h
  | cons p t ih =>
      by_cases hpk : p.1 = k
      · rw [lookupA_cons_pos t p k hpk] at h
        simp only [Option.some.injEq] at h
        have hp : (k, v) = p := by
          obtain ⟨p1, p2⟩ := p
          simp only at hpk h
          rw [hpk, h]
        rw [hp]
        exact List.mem_cons_self _ _
      · rw [lookupA_cons_ne' t p k hpk] at h
        exact List.mem_cons_of_mem _ (ih h)

theorem mem_lookupA {l : List (String × String)} {k v : String}
    (hnd : (l.map Prod.fst).Nodup) (h : (k, v) ∈ l) : lookupA l k = some v := by
  induction l with
  | nil => simp at h
  | cons p t ih =>
      simp only [List.map_cons, List.nodup_cons] at hnd
      rcases List.mem_cons.mp h with h | h
      · rw [← h]
        exact lookupA_cons_pos t (k, v) k rfl
      · have hp : ¬ p.1 = k := by
          intro hk
          exact hnd.1 (by
            rw [hk]
            exact List.mem_map.mpr ⟨(k, v), h, rfl⟩)
        rw [lookupA_cons_ne' t p k hp]
        exact ih hnd.2 h

theorem lookupA_setA_self (l : List (String × String)) (k v : String) :
    lookupA (setA l k v) k = some v := by
  induction l with
  | nil => exact lookupA_cons_pos [] (k, v) k rfl
  | cons p t ih =>
      unfold setA
      split
      · exact lookupA_cons_pos t (k, v) k rfl
      · next hpk =>
          rw [lookupA_cons_ne' _ p k hpk]
          exact ih

theorem lookupA_setA_ne (l : List (String × String)) (k v k' : String) (h : k' ≠ k) :
    lookupA (setA l k v) k' = lookupA l k' := by
  have hkv : ¬ ((k, v) : String × String).1 = k' := fun hh => h (by simpa using hh.symm)
  induction l with
  | nil =>
      show lookupA [(k, v)] k' = lookupA [] k'
      rw [lookupA_cons_ne' [] (k, v) k' hkv]
  | cons p t ih =>
      unfold setA
      split
      · next hpk =>
          rw [lookupA_cons_ne' t (k, v) k' hkv,
            lookupA_cons_ne' t p k' (by rw [hpk]; exact fun hh => h hh.symm)]
      · next hpk =>
          by_cases hpk' : p.1 = k'
          · rw [lookupA_cons_pos _ p k' hpk', lookupA_cons_pos _ p k' hpk']
          · rw [lookupA_cons_ne' _ p k' hpk', lookupA_cons_ne' _ p k' hpk']
            exact ih

theorem mem_setA {l : List (String × String)} {k v : String} {p : String × String}
    (h : p ∈ setA l k v) : p ∈ l ∨ p = (k, v) := by
  induction l with
  | nil => simpa [setA] using h
  | cons q t ih =>
      unfold setA at h
      split at h
      · rcases List.mem_cons.mp h with h | h
        · right; exact h
        · left; exact List.mem_cons_of_mem _ h
      · rcases List.mem_cons.mp h with h | h
        · left; exact h ▸ List.mem_cons_self _ _
        · rcases ih h with h | h
          · left; exact List.mem_cons_of_mem _ h
          · right; exact h

theorem setA_eq_append {l : List (String × String)} {k : String} (v : String)
    (h : k ∉ l.map Prod.fst) : setA l k v = l ++ [(k, v)] := by
  induction l with
  | nil => rfl
  | cons p t ih =>
      simp only [List.map_cons, List.mem_cons] at h
      push_neg at h
      unfold setA
      rw [if_neg (fun hh => h.1 hh.symm)]
      rw [ih h.2]
      rfl

theorem eraseA_sublist (l : List (String × String)) (k : String) :
    (eraseA l k).Sublist l := by
  induction l with
  | nil => simp [eraseA]
  | cons p t ih =>
      unfold eraseA
      split
      · exact (List.sublist_cons_self p t)
      · exact ih.cons₂ p

theorem eraseA_keys_sublist (l : List (String × String)) (k : String) :
    ((eraseA l k).map Prod.fst).Sublist (l.map Prod.fst) :=
  (eraseA_sublist l k).map Prod.fst

/-- Key-filtered lookup: filtering by a key predicate commutes with lookup. -/
theorem lookupA_filter (l : List (String × String)) (q : String → Bool) (k : String) :
    lookupA (l.filter fun p => q p.1) k = if q k then lookupA l k else none := by
  induction l with
  | nil => simp [lookupA]
  | cons p t ih =>
      by_cases hpk : p.1 = k
      · by_cases hq : q k
        · rw [List.filter_cons_of_pos (by rw [hpk]; simpa using hq), if_pos hq,
            lookupA_cons_pos _ p k hpk, lookupA_cons_pos _ p k hpk]
        · rw [List.filter_cons_of_neg (by rw [hpk]; simpa using hq), ih, if_neg hq, if_neg hq]
      · by_cases hq' : q p.1
        · rw [List.filter_cons_of_pos (by simpa using hq'), lookupA_cons_ne' _ p k hpk, ih,
            lookupA_cons_ne' t p k hpk]
        · rw [List.filter_cons_of_neg (by simpa using hq'), ih, lookupA_cons_ne' t p k hpk]

theorem nodup_foldl_eraseA (ps : List (String × String)) (za : List (String × String))
    (h : (za.map Prod.fst).Nodup) :
    ((ps.foldl (fun za p => eraseA za p.2) za).map Prod.fst).Nodup := by
  induction ps generalizing za with
  | nil => exact h
  | cons p t ih =>
      exact ih _ ((eraseA_keys_sublist za p.2).nodup h)

theorem mem_foldl_eraseA (ps : List (String × String)) (za : List (String × String))
    {x : String × String} (h : x ∈ ps.foldl (fun za p => eraseA za p.2) za) : x ∈ za := by
  induction ps generalizing za with
  | nil => exact h
  | cons p t ih =>
      exact (eraseA_sublist za p.2).subset (ih _ h)

theorem lookupA_foldl_eraseA (ps : List (String × String)) (za : List (String × String))
    (k : String) (h : (za.map Prod.fst).Nodup) :
    lookupA (ps.foldl (fun za p => eraseA za p.2) za) k =
      if k ∈ ps.map Prod.snd then none else lookupA za k := by
  induction ps generalizing za with
  | nil => simp
  | cons p t ih =>
      simp only [List.foldl_cons, List.map_cons, List.mem_cons]
      rw [ih _ ((eraseA_keys_sublist za p.2).nodup h)]
      by_cases hk : k = p.2
      · by_cases hmem : k ∈ t.map Prod.snd
        · rw [if_pos hmem, if_pos (Or.inr hmem)]
        · rw [if_neg hmem, if_pos (Or.inl hk), hk, lookupA_eraseA_self h]
      · by_cases hmem : k ∈ t.map Prod.snd
        · rw [if_pos hmem, if_pos (Or.inr hmem)]
        · rw [if_neg hmem, if_neg (by tauto), lookupA_eraseA_ne hk]

/-- The table well-formedness invariant: both tables have unique keys, they
are two views of the same assignment relation, assigned zone ids come from
the workstation list, and `entityZoneMap` keys have the `"<id>:workstations"`
shape. -/
structure WFInv (env : MapEnv) (s : WState) : Prop where
  zaNodup : (s.zoneAssignments.map Prod.fst).Nodup
  ezNodup : (s.entityZoneMap.map Prod.fst).Nodup
  consistent : ∀ w e, lookupA s.zoneAssignments w = some e ↔
      lookupA s.entityZoneMap (wsKey e) = some w
  zaDom : ∀ p ∈ s.zoneAssignments, p.1 ∈ env.workstations.map Zone.id
  ezKeys : ∀ p ∈ s.entityZoneMap, ∃ e, p.1 = wsKey e

theorem WFInv_init (env : MapEnv) : WFInv env WState.init := by
  refine ⟨by simp [WState.init], by simp [WState.init], ?_, ?_, ?_⟩ <;>
    simp [WState.init, lookupA]

theorem WFInv_release (env : MapEnv) (s : WState) (eid : String) (h : WFInv env s) :
    WFInv env (releaseWorkstation s eid) := by
  unfold releaseWorkstation
  rcases hz : lookupA s.entityZoneMap (eid ++ ":" ++ "workstations") with _ | zid
  · exact h
  · have hzk : lookupA s.entityZoneMap (wsKey eid) = some zid := hz
    have hza : lookupA s.zoneAssignments zid = some eid := (h.consistent zid eid).mpr hzk
    refine ⟨(eraseA_keys_sublist _ _).nodup h.zaNodup,
      (eraseA_keys_sublist _ _).nodup h.ezNodup, ?_, ?_, ?_⟩
    · intro w e
      show lookupA (eraseA s.zoneAssignments zid) w = some e ↔
        lookupA (eraseA s.entityZoneMap (wsKey eid)) (wsKey e) = some w
      by_cases hw : w = zid
      · constructor
        · intro hc
          rw [hw, lookupA_eraseA_self h.zaNodup] at hc
          exact absurd hc (by simp)
        · intro hc
          exfalso
          by_cases he : e = eid
          · rw [he, lookupA_eraseA_self h.ezNodup] at hc
            simp at hc
          · rw [lookupA_eraseA_ne (fun hh => he (wsKey_inj hh))] at hc
            have h2 := (h.consistent w e).mpr hc
            rw [hw, hza] at h2
            exact he (by simpa using h2.symm)
      · rw [lookupA_eraseA_ne hw]
        by_cases he : e = eid
        · constructor
          · intro hc
            have h2 := (h.consistent w e).mp hc
            rw [he, hzk] at h2
            exact absurd (by simpa using h2.symm) hw
          · intro hc
            rw [he, lookupA_eraseA_self h.ezNodup] at hc
            exact absurd hc (by simp)
        · rw [lookupA_eraseA_ne (fun hh => he (wsKey_inj hh))]
          exact h.consistent w e
    · intro p hp
      exact h.zaDom p ((eraseA_sublist _ _).subset hp)
    · intro p hp
      exact h.ezKeys p ((eraseA_sublist _ _).subset hp)

theorem WFInv_assignScan (env : MapEnv) (s : WState) (eid : String) (l : List Zone)
    (h : WFInv env s) (hsub : ∀ z ∈ l, z ∈ env.workstations)
    (hnone : lookupA s.entityZoneMap (wsKey eid) = none) :
    WFInv env (assignScan s eid l).2 := by
  induction l with
  | nil => exact h
  | cons w t ih =>
      unfold assignScan
      split
      · next hfree' =>
          have hfree : lookupA s.zoneAssignments w.id = none := by
            rcases hq : lookupA s.zoneAssignments w.id with _ | e
            · rfl
            · rw [hq] at hfree'; simp at hfree'
          have hkmem : w.id ∉ s.zoneAssignments.map Prod.fst :=
            lookupA_not_mem_of_eq_none hfree
          have hkez : wsKey eid ∉ s.entityZoneMap.map Prod.fst :=
            lookupA_not_mem_of_eq_none hnone
          dsimp only
          rw [show (eid ++ ":" ++ "workstations") = wsKey eid from rfl]
          refine ⟨?_, ?_, ?_, ?_, ?_⟩
          · rw [setA_eq_append eid hkmem]
            rw [List.map_append]
            exact h.zaNodup.append (by simp) (by simpa [List.disjoint_singleton] using hkmem)
          · rw [setA_eq_append w.id hkez]
            rw [List.map_append]
            exact h.ezNodup.append (by simp) (by simpa [List.disjoint_singleton] using hkez)
          · intro w' e'
            show lookupA (setA s.zoneAssignments w.id eid) w' = some e' ↔
              lookupA (setA s.entityZoneMap (wsKey eid) w.id) (wsKey e') = some w'
            by_cases hw : w' = w.id
            · by_cases he : e' = eid
              · rw [hw, he, lookupA_setA_self, lookupA_setA_self]
                simp [hw, he]
              · rw [hw, lookupA_setA_self,
                  lookupA_setA_ne _ _ _ _ (fun hh => he (wsKey_inj hh))]
                constructor
                · intro hc
                  exact absurd (by simpa using hc) (fun hh : eid = e' => he hh.symm)
                · intro hc
                  have h2 := (h.consistent w.id e').mpr hc
                  rw [hfree] at h2
                  simp at h2
            · rw [lookupA_setA_ne _ _ _ _ hw]
              by_cases he : e' = eid
              · rw [he, lookupA_setA_self]
                constructor
                · intro hc
                  have h2 := (h.consistent w' eid).mp (he ▸ hc)
                  rw [hnone] at h2
                  simp at h2
                · intro hc
                  exact absurd (by simpa using hc) (fun hh : Zone.id w = w' => hw hh.symm)
              · rw [lookupA_setA_ne _ _ _ _ (fun hh => he (wsKey_inj hh))]
                exact h.consistent w' e'
          · intro p hp
            rcases mem_setA hp with hp | hp
            · exact h.zaDom p hp
            · rw [hp]
              exact List.mem_map.mpr ⟨w, hsub w (List.mem_cons_self _ _), rfl⟩
          · intro p hp
            rcases mem_setA hp with hp | hp
            · exact h.ezKeys p hp
            · exact ⟨eid, by rw [hp]⟩
      · exact ih (fun z hz => hsub z (List.mem_cons_of_mem _ hz))

theorem WFInv_assign (env : MapEnv) (s : WState) (id : String) (h : WFInv env s) :
    WFInv env (assignWorkstation env s id).2 := by
  unfold assignWorkstation
  rcases hg : getAssignedZone env s id "workstations" with _ | z
  · dsimp only
    have hnone : lookupA s.entityZoneMap (wsKey id) = none := by
      rcases hzl : lookupA s.entityZoneMap (wsKey id) with _ | zid
      · rfl
      · exfalso
        have hza : lookupA s.zoneAssignments zid = some id := (h.consistent zid id).mpr hzl
        have hdom := h.zaDom _ (lookupA_mem hza)
        unfold getAssignedZone at hg
        rw [show (id ++ ":" ++ "workstations") = wsKey id from rfl, hzl] at hg
        simp only at hg
        rcases List.mem_map.mp hdom with ⟨z, hzmem, hzid⟩
        have := List.find?_eq_none.mp hg z (by simpa [getZonesByType] using hzmem)
        simp [hzid] at this
    exact WFInv_assignScan env s id _ h
      (by intro z hz; simpa [getZonesByType] using hz) hnone
  · exact h

theorem WFInv_clear (env : MapEnv) (s : WState) (id : String) (h : WFInv env s) :
    WFInv env (clearEntityAssignments s id) := by
  unfold clearEntityAssignments
  dsimp only
  refine ⟨nodup_foldl_eraseA _ _ h.zaNodup,
    ((List.filter_sublist s.entityZoneMap).map Prod.fst).nodup h.ezNodup, ?_, ?_, ?_⟩
  · intro w' e'
    dsimp only
    rw [lookupA_foldl_eraseA _ _ _ h.zaNodup]
    rw [show (fun p : String × String => !(p.1.startsWith (id ++ ":"))) =
      (fun p : String × String => (fun k => !(k.startsWith (id ++ ":"))) p.1) from rfl]
    rw [lookupA_filter s.entityZoneMap (fun k => !(k.startsWith (id ++ ":"))) (wsKey e')]
    by_cases hst : (wsKey e').startsWith (id ++ ":")
    · rw [if_neg (show ¬((!((wsKey e').startsWith (id ++ ":"))) = true) by simp [hst])]
      constructor
      · intro hc
        exfalso
        by_cases hmv : w' ∈ (s.entityZoneMap.filter fun p =>
            p.1.startsWith (id ++ ":")).map Prod.snd
        · rw [if_pos hmv] at hc
          exact Option.noConfusion hc
        · rw [if_neg hmv] at hc
          have hez := (h.consistent w' e').mp hc
          exact hmv (List.mem_map.mpr ⟨(wsKey e', w'),
            List.mem_filter.mpr ⟨lookupA_mem hez, by simpa using hst⟩, rfl⟩)
      · intro hc; exact absurd hc (by simp)
    · rw [if_pos (show (!((wsKey e').startsWith (id ++ ":"))) = true by simp [hst])]
      by_cases hmv : w' ∈ (s.entityZoneMap.filter fun p =>
          p.1.startsWith (id ++ ":")).map Prod.snd
      · rw [if_pos hmv]
        constructor
        · intro hc; exact absurd hc (by simp)
        · intro hc
          exfalso
          rcases List.mem_map.mp hmv with ⟨p, hpmem, hpv⟩
          have hpez := List.mem_of_mem_filter hpmem
          have hpst := (List.mem_filter.mp hpmem).2
          rcases h.ezKeys p hpez with ⟨e2, hk⟩
          have hlp : lookupA s.entityZoneMap (wsKey e2) = some w' := by
            rw [← hk, ← hpv]
            exact mem_lookupA h.ezNodup (by simpa using hpez)
          have h1 := (h.consistent w' e2).mpr hlp
          have h2 := (h.consistent w' e').mpr hc
          rw [h1] at h2
          have he : e2 = e' := by simpa using h2
          rw [he] at hk
          rw [hk] at hpst
          exact hst (by simpa using hpst)
      · rw [if_neg hmv]
        exact h.consistent w' e'
  · intro p hp
    exact h.zaDom p (mem_foldl_eraseA _ _ hp)
  · intro p hp
    exact h.ezKeys p (List.mem_of_mem_filter hp)

theorem WFInv_apply (env : MapEnv) (s : WState) (op : WOp) (h : WFInv env s) :
    WFInv env (applyWOp env s op) := by
  cases op with
  | assign id => exact WFInv_assign env s id h
  | release id => exact WFInv_release env s id h
  | clear id => exact WFInv_clear env s id h

theorem WFInv_run (env : MapEnv) (ops : List WOp) : WFInv env (runWOps env ops) := by
  unfold runWOps
  have : ∀ (l : List WOp) (s : WState), WFInv env s → WFInv env (l.foldl (applyWOp env) s) := by
    intro l
    induction l with
    | nil => intro s hs; exact hs
    | cons op t ih =>
        intro s hs
        exact ih _ (WFInv_apply env s op hs)
  exact this ops WState.init (WFInv_init env)

/-- Under the invariant at most `K` entities can hold a workstation. -/
theorem WFInv_count (env : MapEnv) (s : WState) (h : WFInv env s) :
    s.entityZoneMap.length ≤ env.workstations.length := by
  have hentry : s.entityZoneMap.Nodup := h.ezNodup.of_map
  have hkeyfun : ∀ x ∈ s.entityZoneMap, ∀ y ∈ s.entityZoneMap, x.1 = y.1 → x = y := by
    intro x hx y hy hk
    have hlx : lookupA s.entityZoneMap x.1 = some x.2 :=
      mem_lookupA h.ezNodup (by simpa using hx)
    have hly : lookupA s.entityZoneMap y.1 = some y.2 :=
      mem_lookupA h.ezNodup (by simpa using hy)
    rw [hk, hly] at hlx
    obtain ⟨x1, x2⟩ := x
    obtain ⟨y1, y2⟩ := y
    simp only at hk hlx
    have hx2 : x2 = y2 := by simpa using hlx.symm
    rw [hk, hx2]
  have hvals : (s.entityZoneMap.map Prod.snd).Nodup := by
    refine (List.nodup_map_iff_inj_on hentry).mpr ?_
    intro x hx y hy hxy
    rcases h.ezKeys x hx with ⟨ex, hxk⟩
    rcases h.ezKeys y hy with ⟨ey, hyk⟩
    have hlx : lookupA s.entityZoneMap (wsKey ex) = some x.2 := by
      rw [← hxk]; exact mem_lookupA h.ezNodup (by simpa using hx)
    have hly : lookupA s.entityZoneMap (wsKey ey) = some y.2 := by
      rw [← hyk]; exact mem_lookupA h.ezNodup (by simpa using hy)
    have hax := (h.consistent x.2 ex).mpr hlx
    have hay := (h.consistent y.2 ey).mpr hly
    rw [hxy, hay] at hax
    have he : ey = ex := by simpa using hax
    apply hkeyfun x hx y hy
    rw [hxk, hyk, he]
  have hsubv : ∀ v ∈ s.entityZoneMap.map Prod.snd, v ∈ env.workstations.map Zone.id := by
    intro v hv
    rcases List.mem_map.mp hv with ⟨p, hp, hpv⟩
    rcases h.ezKeys p hp with ⟨e, hk⟩
    have hlp : lookupA s.entityZoneMap (wsKey e) = some p.2 := by
      rw [← hk]; exact mem_lookupA h.ezNodup (by simpa using hp)
    have := (h.consistent p.2 e).mpr hlp
    rw [← hpv]
    exact h.zaDom _ (lookupA_mem this)
  calc s.entityZoneMap.length
      = (s.entityZoneMap.map Prod.snd).length := (List.length_map _ _).symm
    _ = (s.entityZoneMap.map Prod.snd).toFinset.card :=
        (List.toFinset_card_of_nodup hvals).symm
    _ ≤ (env.workstations.map Zone.id).toFinset.card := by
        apply Finset.card_le_card
        intro v hv
        exact List.mem_toFinset.mpr (hsubv v (List.mem_toFinset.mp hv))
    _ ≤ (env.workstations.map Zone.id).length := List.toFinset_card_le _
    _ = env.workstations.length := List.length_map _ _

/-- C3: after any sequence of `assignWorkstation` / `releaseWorkstation` /
`clearEntityAssignments` calls from the initial empty tables, both tables
are genuine maps (unique keys), `zoneAssignments` maps `w` to `e` exactly
when `entityZoneMap` maps the key `"e:workstations"` to `w`, each
workstation is held by at most one entity, and at most as many entities as
there are workstations hold one. -/
theorem C3_theorem (env : MapEnv) (ops : List WOp) :
    ((runWOps env ops).zoneAssignments.map Prod.fst).Nodup ∧
      ((runWOps env ops).entityZoneMap.map Prod.fst).Nodup ∧
      (∀ w e, lookupA (runWOps env ops).zoneAssignments w = some e ↔
        lookupA (runWOps env ops).entityZoneMap (wsKey e) = some w) ∧
      (∀ w e1 e2, lookupA (runWOps env ops).entityZoneMap (wsKey e1) = some w →
        lookupA (runWOps env ops).entityZoneMap (wsKey e2) = some w → e1 = e2) ∧
      (runWOps env ops).entityZoneMap.length ≤ env.workstations.length := by
  have h := WFInv_run env ops
  refine ⟨h.zaNodup, h.ezNodup, h.consistent, ?_, WFInv_count env _ h⟩
  intro w e1 e2 h1 h2
  have ha1 := (h.consistent w e1).mpr h1
  have ha2 := (h.consistent w e2).mpr h2
  rw [ha1] at ha2
  simpa using ha2

/-- A 3-tile fully walkable corridor used to exercise the smoother. -/
def envLine3 : MapEnv := { envTriv with grid := ⟨3, 1, fun _ _ => false⟩ }

/-- The corridor's tile path, as `findTilePath` would produce it. -/
def tLine3 : List Cell := [(0, 0), (1, 0), (2, 0)]

/-- C6: for every input path whose waypoints are the centres of a chain of
4-adjacent walkable tiles (the shape `findPath` produces), `smoothPath`
preserves the first and last waypoints, does not lengthen the path, and every
consecutive pair of output waypoints has a fully walkable Bresenham tile line
between them; inputs with fewer than 3 waypoints are returned unchanged. -/
theorem C6_theorem (env : MapEnv) (hw : 0 < env.tileWidth) (hh : 0 < env.tileHeight)
    (t : List Cell) (p : List Point) (hp : p = t.map (tileToPixel env))
    (hchain : List.Chain' adjacent t)
    (hwalk : ∀ c ∈ t, isTileWalkable env.grid c.1 c.2 = true) :
    (smoothPath env p).head? = p.head? ∧
      (smoothPath env p).getLast? = p.getLast? ∧
      (smoothPath env p).length ≤ p.length ∧
      List.Chain' (fun a b => hasLineOfSight env a b = true) (smoothPath env p) ∧
      (p.length < 3 → smoothPath env p = p) := by
  have hlen : p.length = t.length := by rw [hp, List.length_map]
  have H : ∀ i, i + 1 < p.length →
      hasLineOfSight env (p.getD i default) (p.getD (i + 1) default) = true := by
    intro i hi
    have hit : i + 1 < t.length := by omega
    have hgi : p.getD i default = tileToPixel env (t.get ⟨i, Nat.lt_of_succ_lt hit⟩) := by
      rw [hp, List.getD_eq_getElem _ _ (by rw [List.length_map]; omega)]
      simp
    have hgi1 : p.getD (i + 1) default = tileToPixel env (t.get ⟨i + 1, hit⟩) := by
      rw [hp, List.getD_eq_getElem _ _ (by rw [List.length_map]; omega)]
      simp
    rw [hgi, hgi1]
    apply hasLineOfSight_adjacent env hw hh _ _ ?_
      (hwalk _ (t.get_mem _ _)) (hwalk _ (t.get_mem _ _))
    have := List.chain'_iff_get.mp hchain i (by omega)
    exact this
  by_cases hl3 : p.length < 3
  · rw [show smoothPath env p = p from by unfold smoothPath; rw [if_pos hl3]]
    refine ⟨rfl, rfl, le_refl _, ?_, fun _ => rfl⟩
    rcases p with _ | ⟨a, _ | ⟨b, _ | ⟨c, rest⟩⟩⟩
    · exact List.chain'_nil
    · exact List.chain'_singleton a
    · refine List.chain'_cons.mpr ⟨?_, List.chain'_singleton b⟩
      have := H 0 (by simp)
      simpa using this
    · exfalso
      simp only [List.length_cons] at hl3
      omega
  · have h0 : smoothPath env p = p.getD 0 default :: smoothAux env p 0 := by
      unfold smoothPath
      rw [if_neg hl3]
    have hne : p ≠ [] := by
      intro hnil
      rw [hnil] at hl3
      simp at hl3
    refine ⟨?_, ?_, ?_, ?_, fun hc => absurd hc hl3⟩
    · rw [h0, List.head?_cons]
      rcases p with _ | ⟨a, rest⟩
      · exact absurd rfl hne
      · rfl
    · rw [h0, getLast?_eq_getD p hne]
      exact smoothAux_getLast env p p.length 0 (by omega) (by omega)
    · rw [h0]
      have := smoothAux_length env p p.length 0 (by omega)
      simp only [List.length_cons]
      omega
    · rw [h0]
      exact smoothAux_chain env p H p.length 0 (by omega)

theorem C6_witness :
    (0 : Rat) < envLine3.tileWidth ∧ (0 : Rat) < envLine3.tileHeight ∧
      List.Chain' adjacent tLine3 ∧
      (∀ c ∈ tLine3, isTileWalkable envLine3.grid c.1 c.2 = true) ∧
      ((smoothPath envLine3 (tLine3.map (tileToPixel envLine3))).head? =
          (tLine3.map (tileToPixel envLine3)).head? ∧
        (smoothPath envLine3 (tLine3.map (tileToPixel envLine3))).getLast? =
          (tLine3.map (tileToPixel envLine3)).getLast? ∧
        (smoothPath envLine3 (tLine3.map (tileToPixel envLine3))).length ≤
          (tLine3.map (tileToPixel envLine3)).length ∧
        List.Chain' (fun a b => hasLineOfSight envLine3 a b = true)
          (smoothPath envLine3 (tLine3.map (tileToPixel envLine3))) ∧
        ((tLine3.map (tileToPixel envLine3)).length < 3 →
          smoothPath envLine3 (tLine3.map (tileToPixel envLine3)) =
            tLine3.map (tileToPixel envLine3))) :=
  ⟨by norm_num [envLine3, envTriv], by norm_num [envLine3, envTriv],
    List.chain'_cons.mpr ⟨by decide, List.chain'_cons.mpr ⟨by decide, List.chain'_singleton _⟩⟩,
    by decide,
    C6_theorem envLine3 (by norm_num [envLine3, envTriv]) (by norm_num [envLine3, envTriv])
      tLine3 (tLine3.map (tileToPixel envLine3)) rfl
      (List.chain'_cons.mpr ⟨by decide, List.chain'_cons.mpr ⟨by decide, List.chain'_singleton _⟩⟩)
      (by decide)⟩

/-- A 3-tile corridor grid for exercising the A* search concretely. -/
def gridC1 : Grid := ⟨3, 1, fun _ _ => false⟩

theorem C1_witness :
    ((if isTileWalkable gridC1 2 0 then some ((2 : Int), (0 : Int))
        else findNearestWalkable gridC1 2 0 5) = some (2, 0)) ∧
      ((if isTileWalkable gridC1 0 0 then some ((0 : Int), (0 : Int))
        else findNearestWalkable gridC1 0 0 5) = some (0, 0)) ∧
      walkB gridC1 (0, 0) 2 (2, 0) = true ∧
      ∃ p, findTilePath gridC1 (0, 0) (2, 0) = some p ∧ p.length = 2 + 1 ∧
        p.head? = some (0, 0) ∧ p.getLast? = some (2, 0) ∧
        List.Chain' adjacent p ∧ ∀ c ∈ p, isTileWalkable gridC1 c.1 c.2 = true :=
  ⟨by decide, by decide, by decide,
    C1_theorem gridC1 (0, 0) (2, 0) (0, 0) (2, 0) 2 (by decide) (by decide) (by decide)
      (by
        intro k hk
        match k with
        | 0 => exact absurd hk (by decide)
        | 1 => exact absurd hk (by decide)
        | k + 2 => omega)⟩

end Claudequarium
